import Mathlib

/-!
# A shallow embedding of `advanced-vector/vector.h`

The header defines `RawMemory<T>` (ownership of a block of slots, no element
lifetime) and `Vector<T>` (a growable sequence built on it).

Modelling decisions, all stated here once:

* A block of storage is a list of slots; a slot is `none` when it is raw
  (no object was constructed there) and `some a` when it holds a live object
  with value `a`.  A null `buffer_` is `none`.
* Pointers into a block are slot indices.  Sizes are natural numbers: a block
  of `2^63` slots cannot be allocated, so `size_ * 2` never wraps.
* Allocation.  Where the number of slots asked for derives from the size of a
  vector that exists (growth by `size_ * 2`, the copy of `other.size_`
  elements), the request is taken to be granted (`RawMemory.Allocate`,
  `RawMemory.create`).  Where it is the caller's argument (`Reserve`, and
  through it `Resize`; `Vector(size)`), the request is computed as the code
  computes it, `n * sizeof(T)` in the 64-bit arithmetic of `size_t`, and
  `operator new` may throw `std::bad_alloc` (`RawMemory.Allocate_size_t`,
  `RawMemory.create_size_t`).
* Operations of the element type `T` are a parameter (`ElemOps`): the two
  compile-time traits read by `if constexpr`, which constructions throw, and
  the value a moved-from object is left with.  Assignments of `T` are taken
  not to throw.
* An operation ends in one of three ways (`Outcome`): it returns, it throws
  (the vector is left in some state), or it executes undefined behaviour
  (an access to a slot that holds no live object, or an invalid range).
  Storage released while it still holds live objects is reported as `leaked`.
* A vector is passed by value, block included.  Where two vectors and the
  storage each one refers to are at issue, a vector is an object with a
  pointer and the blocks lie in a store, at addresses (`Store`,
  `Vector.Object`); a member call works on the block its object points at and
  on the block `operator new` hands it.
* Undefined behaviour ends a call without a state.  What a call can do to
  `Capacity()` is also read off the statements that write `data_`, which do
  not depend on the elements (`Op.capacities`).
-/

namespace AdvancedVector

/-- A block of element slots: `none` is a raw slot, `some a` a live object. -/
abbrev Block (α : Type) := List (Option α)

/-- The ways the code can execute undefined behaviour on a block. -/
inductive UB where
  /-- an object is read at a slot that is raw or lies outside the block -/
  | read_not_live (slot : Int)
  /-- an object is assigned to at a slot that is raw or lies outside the block -/
  | assign_not_live (slot : Int)
  /-- a destructor is run on a slot that is raw or lies outside the block -/
  | destroy_not_live (slot : Int)
  /-- an object is constructed at an address outside the block -/
  | construct_outside (slot : Int)
  /-- an algorithm is given a range `[first, last)` with `last` before `first` -/
  | invalid_range (first last : Int)
  deriving DecidableEq

/-- The element type `T` as far as the container observes it. -/
structure ElemOps (α : Type) where
  /-- the trait `std::is_nothrow_move_constructible_v<T>` -/
  is_nothrow_move_constructible : Bool
  /-- the trait `std::is_copy_constructible_v<T>` -/
  is_copy_constructible : Bool
  /-- the trait `std::is_move_assignable_v<T>` -/
  is_move_assignable : Bool
  /-- whether copy-constructing from an object of this value throws -/
  copy_throws : α → Bool
  /-- whether move-constructing from an object of this value throws -/
  move_throws : α → Bool
  /-- the value left in an object after it has been moved from -/
  moved_from : α → α
  /-- the result of value-initialising the `k`-th object of one call,
  `none` when that construction throws -/
  value_init : Nat → Option α
  /-- the constant `sizeof(T)`, at least 1 -/
  sizeof : Nat
  /-- whether `operator new` throws `std::bad_alloc` on a request of this many
  bytes (the free store, as far as the container observes it) -/
  new_throws : Nat → Bool

/-- The condition of the `if constexpr` that chooses relocation by move. -/
def ElemOps.relocate_by_move {α : Type} (ops : ElemOps α) : Bool :=
  ops.is_nothrow_move_constructible || !ops.is_copy_constructible

/-- Whether relocating an object of value `a` into new storage throws. -/
def ElemOps.relocate_throws {α : Type} (ops : ElemOps α) (a : α) : Bool :=
  if ops.relocate_by_move then ops.move_throws a else ops.copy_throws a

/-- A type's traits are consistent: a no-throw move constructor never throws. -/
def ElemOps.Consistent {α : Type} (ops : ElemOps α) : Prop :=
  ops.is_nothrow_move_constructible = true → ∀ a, ops.move_throws a = false

/-! ## Primitive accesses to a block -/

/-- Read the live object at slot `i`. -/
def Block.read {α : Type} (b : Block α) (i : Nat) : Except UB α :=
  match b.get? i with
  | some (some a) => .ok a
  | _ => .error (.read_not_live i)

/-- Placement-new of value `a` at slot `i`. -/
def Block.construct {α : Type} (b : Block α) (i : Nat) (a : α) : Except UB (Block α) :=
  if i < b.length then .ok (b.set i (some a)) else .error (.construct_outside i)

/-- Run the destructor of the object at slot `i`. -/
def Block.destroy {α : Type} (b : Block α) (i : Nat) : Except UB (Block α) :=
  match b.get? i with
  | some (some _) => .ok (b.set i none)
  | _ => .error (.destroy_not_live i)

/-- Give the live object at slot `i` the value `a`. -/
def Block.assign {α : Type} (b : Block α) (i : Nat) (a : α) : Except UB (Block α) :=
  match b.get? i with
  | some (some _) => .ok (b.set i (some a))
  | _ => .error (.assign_not_live i)

/-- The live objects still held by a block. -/
def Block.live {α : Type} (b : Block α) : List α := b.filterMap id

/-- The statement `*(p + dst) = std::move(*(p + src))`: move assignment when
`T` has one, copy assignment otherwise. -/
def move_assign {α : Type} (ops : ElemOps α) (b : Block α) (dst src : Nat) :
    Except UB (Block α) :=
  match b.read src with
  | .error w => .error w
  | .ok a =>
    match b.assign dst a with
    | .error w => .error w
    | .ok b1 =>
      .ok (if ops.is_move_assignable then b1.set src (some (ops.moved_from a)) else b1)

/-- The statement `*(p + dst) = *(p + src)`. -/
def copy_assign {α : Type} (b : Block α) (dst src : Nat) : Except UB (Block α) :=
  match b.read src with
  | .error w => .error w
  | .ok a => b.assign dst a

/-! ## The standard algorithms the header calls -/

/-- The result of an algorithm that may throw: `threw` carries what it left. -/
inductive Res (β : Type) where
  | ok (b : β)
  | threw (b : β)
  | ub (w : UB)
  deriving DecidableEq

/-- The call `std::destroy_n(p + first, n)`. -/
def destroy_n {α : Type} : (n : Nat) → (first : Nat) → (b : Block α) → Except UB (Block α)
  | 0, _, b => .ok b
  | n + 1, first, b =>
    match b.destroy first with
    | .error w => .error w
    | .ok b1 => destroy_n n (first + 1) b1

/-- The call `std::uninitialized_copy_n(src + first, n, dst + d_first)` between
two blocks.  When a copy throws, the objects already constructed in `dst` are
destroyed and the exception is rethrown. -/
def uninitialized_copy_n {α : Type} (ops : ElemOps α) (src : Block α) :
    (n : Nat) → (first d_first : Nat) → (dst : Block α) → Res (Block α)
  | 0, _, _, dst => .ok dst
  | n + 1, first, d_first, dst =>
    match src.read first with
    | .error w => .ub w
    | .ok a =>
      if ops.copy_throws a then .threw dst
      else
        match dst.construct d_first a with
        | .error w => .ub w
        | .ok dst1 =>
          match uninitialized_copy_n ops src n (first + 1) (d_first + 1) dst1 with
          | .ok dst2 => .ok dst2
          | .ub w => .ub w
          | .threw dst2 =>
            match dst2.destroy d_first with
            | .error w => .ub w
            | .ok dst3 => .threw dst3

/-- The call `std::uninitialized_move_n(src + first, n, dst + d_first)` between
two blocks; the result is the pair (source block, destination block).  Each
moved object is left with its moved-from value.  When a move throws, the
objects already constructed in `dst` are destroyed and the exception is
rethrown; the sources already moved from stay moved from. -/
def uninitialized_move_n {α : Type} (ops : ElemOps α) :
    (n : Nat) → (first d_first : Nat) → (src dst : Block α) → Res (Block α × Block α)
  | 0, _, _, src, dst => .ok (src, dst)
  | n + 1, first, d_first, src, dst =>
    match src.read first with
    | .error w => .ub w
    | .ok a =>
      if ops.move_throws a then .threw (src, dst)
      else
        match dst.construct d_first a with
        | .error w => .ub w
        | .ok dst1 =>
          match uninitialized_move_n ops n (first + 1) (d_first + 1)
              (src.set first (some (ops.moved_from a))) dst1 with
          | .ok r => .ok r
          | .ub w => .ub w
          | .threw (src2, dst2) =>
            match dst2.destroy d_first with
            | .error w => .ub w
            | .ok dst3 => .threw (src2, dst3)

/-- The call `std::uninitialized_value_construct_n(p + first, n)`; `k` counts
the objects constructed so far by this call. -/
def uninitialized_value_construct_n {α : Type} (ops : ElemOps α) :
    (n : Nat) → (first k : Nat) → (b : Block α) → Res (Block α)
  | 0, _, _, b => .ok b
  | n + 1, first, k, b =>
    match ops.value_init k with
    | none => .threw b
    | some a =>
      match b.construct first a with
      | .error w => .ub w
      | .ok b1 =>
        match uninitialized_value_construct_n ops n (first + 1) (k + 1) b1 with
        | .ok b2 => .ok b2
        | .ub w => .ub w
        | .threw b2 =>
          match b2.destroy first with
          | .error w => .ub w
          | .ok b3 => .threw b3

/-- The loop of `std::move_backward`: `count` times `*--d_last = std::move(*--last)`. -/
def move_backward_loop {α : Type} (ops : ElemOps α) :
    (count : Nat) → (last d_last : Nat) → (b : Block α) → Except UB (Block α)
  | 0, _, _, b => .ok b
  | count + 1, last, d_last, b =>
    if last = 0 then .error (.read_not_live (-1))
    else if d_last = 0 then .error (.assign_not_live (-1))
    else
      match move_assign ops b (d_last - 1) (last - 1) with
      | .error w => .error w
      | .ok b1 => move_backward_loop ops count (last - 1) (d_last - 1) b1

/-- The call `std::move_backward(p + first, p + last, p + d_last)`.  The range
`[first, last)` must be valid: `last` before `first` is undefined behaviour. -/
def move_backward {α : Type} (ops : ElemOps α) (first last d_last : Nat) (b : Block α) :
    Except UB (Block α) :=
  if last < first then .error (.invalid_range first last)
  else move_backward_loop ops (last - first) last d_last b

/-! ## `RawMemory<T>` -/

/-- The class `RawMemory<T>`: a handle to a block and the slot count it was
sized for.  The default member initialisers give the null, empty state. -/
structure RawMemory (α : Type) where
  buffer_ : Option (Block α) := none
  capacity_ : Nat := 0
  deriving DecidableEq

/-- The static `Allocate(n)` for a request that is granted in full: raw
storage for `n` slots, null when `n` is 0.  `Allocate_size_t` below is the
request as the code computes it. -/
def RawMemory.Allocate {α : Type} (n : Nat) : Option (Block α) :=
  if n ≠ 0 then some (List.replicate n none) else none

/-- The static `Deallocate(buf)`: the storage is released and no destructor
runs; the result lists the objects that were still live in it. -/
def RawMemory.Deallocate {α : Type} (buf : Option (Block α)) : List α :=
  match buf with
  | none => []
  | some b => b.live

/-- The constructor `RawMemory(size_t capacity)` for a request that is granted
in full. -/
def RawMemory.create {α : Type} (capacity : Nat) : RawMemory α :=
  { buffer_ := RawMemory.Allocate capacity, capacity_ := capacity }

/-- The number of values of `size_t`: `SIZE_MAX + 1`. -/
def size_range : Nat := 2 ^ 64

/-- The static `Allocate(n)` as the code computes it:
`n != 0 ? operator new(n * sizeof(T)) : nullptr`.  The product is taken in
`size_t`, so it wraps; the block obtained has as many slots as the bytes asked
for can hold.  The result is `none` when `operator new` throws
`std::bad_alloc`. -/
def RawMemory.Allocate_size_t {α : Type} (ops : ElemOps α) (n : Nat) :
    Option (Option (Block α)) :=
  if n ≠ 0 then
    let bytes := (n * ops.sizeof) % size_range
    if ops.new_throws bytes then none
    else some (some (List.replicate (bytes / ops.sizeof) none))
  else some none

/-- The constructor `RawMemory(size_t capacity)` on top of
`Allocate_size_t`: `capacity_` is the argument, whatever the block obtained;
`none` when the allocation throws. -/
def RawMemory.create_size_t {α : Type} (ops : ElemOps α) (capacity : Nat) :
    Option (RawMemory α) :=
  match RawMemory.Allocate_size_t ops capacity with
  | none => none
  | some buf => some { buffer_ := buf, capacity_ := capacity }

/-- The request for `n` slots is granted in full: `n * sizeof(T)` fits in
`size_t` and `operator new` does not throw on it. -/
def ElemOps.grants {α : Type} (ops : ElemOps α) (n : Nat) : Prop :=
  0 < ops.sizeof ∧ n * ops.sizeof < size_range ∧ ops.new_throws (n * ops.sizeof) = false

instance ElemOps.decidable_grants {α : Type} (ops : ElemOps α) (n : Nat) :
    Decidable (ops.grants n) :=
  inferInstanceAs (Decidable (_ ∧ _ ∧ _))

/-- The member `Swap`: exchanges the handles and the capacities.  The result
is the pair (this, other). -/
def RawMemory.Swap {α : Type} (self other : RawMemory α) : RawMemory α × RawMemory α :=
  ({ buffer_ := other.buffer_, capacity_ := other.capacity_ },
   { buffer_ := self.buffer_, capacity_ := self.capacity_ })

/-- The member `Capacity`. -/
def RawMemory.Capacity {α : Type} (self : RawMemory α) : Nat := self.capacity_

/-- The slots reachable through `GetAddress()`; a null handle reaches none. -/
def RawMemory.block {α : Type} (self : RawMemory α) : Block α :=
  match self.buffer_ with
  | none => []
  | some b => b

/-- The same handle after the slots behind it were written to. -/
def RawMemory.store {α : Type} (self : RawMemory α) (b : Block α) : RawMemory α :=
  match self.buffer_ with
  | none => self
  | some _ => { self with buffer_ := some b }

/-! ## `Vector<T>` -/

/-- The class `Vector<T>`: its storage and its live-element count. -/
structure Vector (α : Type) where
  data_ : RawMemory α := {}
  size_ : Nat := 0
  deriving DecidableEq

/-- How a member function of `Vector` ends. -/
inductive Outcome (α ρ : Type) where
  /-- it returns `r`, leaving the vector `v` -/
  | ok (v : Vector α) (r : ρ) (leaked : List α)
  /-- an exception leaves it, with the vector in state `v` -/
  | threw (v : Vector α) (leaked : List α)
  /-- it executes undefined behaviour -/
  | ub (w : UB)
  deriving DecidableEq

/-- The member `Size`. -/
def Vector.Size {α : Type} (v : Vector α) : Nat := v.size_

/-- The member `Capacity`. -/
def Vector.Capacity {α : Type} (v : Vector α) : Nat := v.data_.Capacity

/-- The element sequence: the objects in slots `[0, size_)`. -/
def Vector.elems {α : Type} (v : Vector α) : List α :=
  (v.data_.block.take v.size_).filterMap id

/-- The end of a growth path, shared by `Reserve`, `EmplaceBack` and
`Emplace`: `std::destroy_n(data_.GetAddress(), size_)` on the old block,
`data_.Swap(new_data)`, and the release of the old block when `new_data`
goes out of scope. -/
def Vector.destroy_and_swap {α : Type} (v : Vector α) (old_block new_block : Block α)
    (new_data : RawMemory α) : Except UB (RawMemory α × List α) :=
  match destroy_n v.size_ 0 old_block with
  | .error w => .error w
  | .ok old1 =>
    let sw := RawMemory.Swap (v.data_.store old1) (new_data.store new_block)
    .ok (sw.1, RawMemory.Deallocate sw.2.buffer_)

/-- The member `EmplaceBack(args...)`.  `arg` is the result of the new
element's constructor `T(std::forward<Args>(args)...)`: `some a` when it
constructs the value `a`, `none` when it throws.  The returned reference is
given as the index of the slot it refers to. -/
def Vector.EmplaceBack {α : Type} (ops : ElemOps α) (v : Vector α) (arg : Option α) :
    Outcome α Nat :=
  if v.size_ = v.Capacity then
    let new_capacity := if v.size_ = 0 then 1 else v.size_ * 2
    let new_data : RawMemory α := RawMemory.create new_capacity
    match arg with
    | none => .threw v (RawMemory.Deallocate new_data.buffer_)
    | some a =>
      match new_data.block.construct v.size_ a with
      | .error w => .ub w
      | .ok nb =>
        if ops.relocate_by_move then
          match uninitialized_move_n ops v.size_ 0 0 v.data_.block nb with
          | .ub w => .ub w
          | .threw (ob, nb1) =>
            .threw { v with data_ := v.data_.store ob }
              (RawMemory.Deallocate (new_data.store nb1).buffer_)
          | .ok (ob, nb1) =>
            match v.destroy_and_swap ob nb1 new_data with
            | .error w => .ub w
            | .ok (d, leaked) => .ok { data_ := d, size_ := v.size_ + 1 } v.size_ leaked
        else
          match uninitialized_copy_n ops v.data_.block v.size_ 0 0 nb with
          | .ub w => .ub w
          | .threw nb1 => .threw v (RawMemory.Deallocate (new_data.store nb1).buffer_)
          | .ok nb1 =>
            match v.destroy_and_swap v.data_.block nb1 new_data with
            | .error w => .ub w
            | .ok (d, leaked) => .ok { data_ := d, size_ := v.size_ + 1 } v.size_ leaked
  else
    match arg with
    | none => .threw v []
    | some a =>
      match v.data_.block.construct v.size_ a with
      | .error w => .ub w
      | .ok b => .ok { data_ := v.data_.store b, size_ := v.size_ + 1 } v.size_ []

/-- The member `PushBack(const T& value)`: `EmplaceBack(value)`, whose new
element is copy-constructed from `value`. -/
def Vector.PushBack {α : Type} (ops : ElemOps α) (v : Vector α) (value : α) :
    Outcome α Unit :=
  match v.EmplaceBack ops (if ops.copy_throws value then none else some value) with
  | .ok v1 _ leaked => .ok v1 () leaked
  | .threw v1 leaked => .threw v1 leaked
  | .ub w => .ub w

/-- The member `PushBack(T&& value)`: `EmplaceBack(std::move(value))`, whose
new element is move-constructed from `value`. -/
def Vector.PushBack_rvalue {α : Type} (ops : ElemOps α) (v : Vector α) (value : α) :
    Outcome α Unit :=
  match v.EmplaceBack ops (if ops.move_throws value then none else some value) with
  | .ok v1 _ leaked => .ok v1 () leaked
  | .threw v1 leaked => .threw v1 leaked
  | .ub w => .ub w

/-- The member `PopBack()`: `--size_` and the destruction of slot `size_`.
On an empty vector `size_` wraps around and the destroyed slot lies outside
the block. -/
def Vector.PopBack {α : Type} (v : Vector α) : Outcome α Unit :=
  if v.size_ = 0 then .ub (.destroy_not_live (2 ^ 64 - 1))
  else
    match destroy_n 1 (v.size_ - 1) v.data_.block with
    | .error w => .ub w
    | .ok b => .ok { data_ := v.data_.store b, size_ := v.size_ - 1 } () []

/-- The member `Emplace(pos, args...)` with `pos = cbegin() + n`.  `arg` is
the result of the new element's constructor, as in `EmplaceBack`.  The
returned iterator is given as a slot index. -/
def Vector.Emplace {α : Type} (ops : ElemOps α) (v : Vector α) (n : Nat) (arg : Option α) :
    Outcome α Nat :=
  if v.size_ = v.Capacity then
    let new_capacity := if v.size_ = 0 then 1 else v.size_ * 2
    let new_data : RawMemory α := RawMemory.create new_capacity
    -- `std::distance(pos, cend())`; when `pos` lies behind `cend()` the first
    -- relocation below already reads outside the old block
    let after := v.size_ - n
    match arg with
    | none => .threw v (RawMemory.Deallocate new_data.buffer_)
    | some a =>
      match new_data.block.construct n a with
      | .error w => .ub w
      | .ok nb =>
        if ops.relocate_by_move then
          match uninitialized_move_n ops n 0 0 v.data_.block nb with
          | .ub w => .ub w
          | .threw (ob, nb1) =>
            .threw { v with data_ := v.data_.store ob }
              (RawMemory.Deallocate (new_data.store nb1).buffer_)
          | .ok (ob, nb1) =>
            match uninitialized_move_n ops after n (n + 1) ob nb1 with
            | .ub w => .ub w
            | .threw (ob1, nb2) =>
              .threw { v with data_ := v.data_.store ob1 }
                (RawMemory.Deallocate (new_data.store nb2).buffer_)
            | .ok (ob1, nb2) =>
              match v.destroy_and_swap ob1 nb2 new_data with
              | .error w => .ub w
              | .ok (d, leaked) => .ok { data_ := d, size_ := v.size_ + 1 } n leaked
        else
          match uninitialized_copy_n ops v.data_.block n 0 0 nb with
          | .ub w => .ub w
          | .threw nb1 => .threw v (RawMemory.Deallocate (new_data.store nb1).buffer_)
          | .ok nb1 =>
            match uninitialized_copy_n ops v.data_.block after n (n + 1) nb1 with
            | .ub w => .ub w
            | .threw nb2 => .threw v (RawMemory.Deallocate (new_data.store nb2).buffer_)
            | .ok nb2 =>
              match v.destroy_and_swap v.data_.block nb2 new_data with
              | .error w => .ub w
              | .ok (d, leaked) => .ok { data_ := d, size_ := v.size_ + 1 } n leaked
  else
    match arg with
    | none => .threw v []
    | some temp =>
      -- `end() - 1` lies before the block when the vector is empty
      if v.size_ = 0 then .ub (.read_not_live (-1))
      else
        match v.data_.block.read (v.size_ - 1) with
        | .error w => .ub w
        | .ok last =>
          if (if ops.relocate_by_move then ops.move_throws last else ops.copy_throws last)
          then .threw v []
          else
            match v.data_.block.construct v.size_ last with
            | .error w => .ub w
            | .ok b0 =>
              let b1 := if ops.relocate_by_move
                then b0.set (v.size_ - 1) (some (ops.moved_from last)) else b0
              match move_backward ops n (v.size_ - 1) v.size_ b1 with
              | .error w => .ub w
              | .ok b2 =>
                match b2.assign n temp with
                | .error w => .ub w
                | .ok b3 => .ok { data_ := v.data_.store b3, size_ := v.size_ + 1 } n []

/-- The loop of `Erase`: for `i` from `first` while `i < size_`, assign slot
`i` to slot `i - 1`, by move (`by_move`) or by copy. -/
def Vector.erase_loop {α : Type} (ops : ElemOps α) (by_move : Bool) :
    (count : Nat) → (i : Nat) → (b : Block α) → Except UB (Block α)
  | 0, _, b => .ok b
  | count + 1, i, b =>
    match (if by_move then move_assign ops b (i - 1) i else copy_assign b (i - 1) i) with
    | .error w => .error w
    | .ok b1 => Vector.erase_loop ops by_move count (i + 1) b1

/-- The member `Erase(pos)` with `pos = cbegin() + n`.  The returned iterator
is given as a slot index. -/
def Vector.Erase {α : Type} (ops : ElemOps α) (v : Vector α) (n : Nat) : Outcome α Nat :=
  match Vector.erase_loop ops ops.is_move_assignable (v.size_ - (n + 1)) (n + 1)
      v.data_.block with
  | .error w => .ub w
  | .ok b =>
    -- `data_.GetAddress() + size_ - 1` lies before the block when `size_` is 0
    if v.size_ = 0 then .ub (.destroy_not_live (-1))
    else
      match destroy_n 1 (v.size_ - 1) b with
      | .error w => .ub w
      | .ok b1 => .ok { data_ := v.data_.store b1, size_ := v.size_ - 1 } n []

/-- The member `Insert(pos, const T& value)`: `Emplace(pos, value)`, whose new
element is copy-constructed from `value`. -/
def Vector.Insert {α : Type} (ops : ElemOps α) (v : Vector α) (n : Nat) (value : α) :
    Outcome α Nat :=
  v.Emplace ops n (if ops.copy_throws value then none else some value)

/-- The member `Insert(pos, T&& value)`: `Emplace(pos, std::move(value))`,
whose new element is move-constructed from `value`. -/
def Vector.Insert_rvalue {α : Type} (ops : ElemOps α) (v : Vector α) (n : Nat) (value : α) :
    Outcome α Nat :=
  v.Emplace ops n (if ops.move_throws value then none else some value)

/-- The default constructor `Vector()`. -/
def Vector.empty {α : Type} : Vector α := {}

/-- The constructor `Vector(size_t size)`.  When the allocation or a
value-initialisation throws no vector comes into being; its storage is
released. -/
def Vector.create {α : Type} (ops : ElemOps α) (size : Nat) : Res (Vector α × List α) :=
  match RawMemory.create_size_t ops size with
  | none => .threw (Vector.empty, [])
  | some data =>
    match uninitialized_value_construct_n ops size 0 0 data.block with
    | .ub w => .ub w
    | .threw b => .threw (Vector.empty, RawMemory.Deallocate (data.store b).buffer_)
    | .ok b => .ok ({ data_ := data.store b, size_ := size }, [])

/-- The member `Reserve(new_capacity)`.  The request for the new storage is
the caller's: `RawMemory<T> new_data(new_capacity)` is `create_size_t`, and a
`std::bad_alloc` leaves the vector as it is. -/
def Vector.Reserve {α : Type} (ops : ElemOps α) (v : Vector α) (new_capacity : Nat) :
    Outcome α Unit :=
  if new_capacity ≤ v.Capacity then .ok v () []
  else
    match RawMemory.create_size_t ops new_capacity with
    | none => .threw v []
    | some new_data =>
      if ops.relocate_by_move then
        match uninitialized_move_n ops v.size_ 0 0 v.data_.block new_data.block with
        | .ub w => .ub w
        | .threw (ob, nb1) =>
          .threw { v with data_ := v.data_.store ob }
            (RawMemory.Deallocate (new_data.store nb1).buffer_)
        | .ok (ob, nb1) =>
          match v.destroy_and_swap ob nb1 new_data with
          | .error w => .ub w
          | .ok (d, leaked) => .ok { data_ := d, size_ := v.size_ } () leaked
      else
        match uninitialized_copy_n ops v.data_.block v.size_ 0 0 new_data.block with
        | .ub w => .ub w
        | .threw nb1 => .threw v (RawMemory.Deallocate (new_data.store nb1).buffer_)
        | .ok nb1 =>
          match v.destroy_and_swap v.data_.block nb1 new_data with
          | .error w => .ub w
          | .ok (d, leaked) => .ok { data_ := d, size_ := v.size_ } () leaked

/-- The member `Resize(new_size)`. -/
def Vector.Resize {α : Type} (ops : ElemOps α) (v : Vector α) (new_size : Nat) :
    Outcome α Unit :=
  -- `if (new_size < size_)`: `std::destroy_n(data_.GetAddress() + size_, delta)`
  match (if new_size < v.size_
      then destroy_n (v.size_ - new_size) v.size_ v.data_.block
      else .ok v.data_.block) with
  | .error w => .ub w
  | .ok b =>
    let v1 : Vector α := { v with data_ := v.data_.store b }
    -- `if (new_size > size_)`: `Reserve`, then value-construct the tail
    if new_size > v1.size_ then
      match v1.Reserve ops new_size with
      | .ub w => .ub w
      | .threw v2 leaked => .threw v2 leaked
      | .ok v2 _ leaked =>
        match uninitialized_value_construct_n ops (new_size - v2.size_) v2.size_ 0
            v2.data_.block with
        | .ub w => .ub w
        | .threw b1 => .threw { v2 with data_ := v2.data_.store b1 } leaked
        | .ok b1 => .ok { data_ := v2.data_.store b1, size_ := new_size } () leaked
    else .ok { v1 with size_ := new_size } () []

/-! ## The state invariant and canonical states -/

/-- The invariant of `RawMemory`: a null handle has capacity 0, and a block
has as many slots as the capacity says, at least one. -/
def RawMemory.WF {α : Type} (m : RawMemory α) : Prop :=
  m.block.length = m.capacity_ ∧ (m.buffer_ = none ↔ m.capacity_ = 0)

/-- The invariant of `Vector`: `size_ <= capacity`, slots `[0, size_)` hold
live objects and slots `[size_, capacity)` are raw. -/
def Vector.Inv {α : Type} (v : Vector α) : Prop :=
  v.data_.WF ∧ v.size_ ≤ v.Capacity ∧
  (∀ i, i < v.size_ → ∃ a, v.data_.block.get? i = some (some a)) ∧
  (∀ i, v.size_ ≤ i → i < v.Capacity → v.data_.block.get? i = some none)

/-- The vector with element sequence `xs` and capacity `cap`. -/
def Vector.ofList {α : Type} (xs : List α) (cap : Nat) : Vector α :=
  { data_ :=
      { buffer_ := if cap = 0 then none
          else some (xs.map some ++ List.replicate (cap - xs.length) none),
        capacity_ := cap },
    size_ := xs.length }

/-- An element type like `int`: nothing throws, a moved-from object keeps
its value, value-initialisation gives 0, an object takes 4 bytes.  The free
store grants the requests of less than `2^40` bytes. -/
def intOps : ElemOps Nat :=
  { is_nothrow_move_constructible := true
    is_copy_constructible := true
    is_move_assignable := true
    copy_throws := fun _ => false
    move_throws := fun _ => false
    moved_from := fun a => a
    value_init := fun _ => some 0
    sizeof := 4
    new_throws := fun bytes => decide (2 ^ 40 ≤ bytes) }

/-- An element type like `std::string` over numbers: nothing throws, a
moved-from object is left empty (value 0), an object takes 32 bytes. -/
def stringOps : ElemOps Nat :=
  { intOps with moved_from := fun _ => 0, sizeof := 32 }

/-- An instrumented element type whose move constructor may throw, so that
relocation copies, and whose copy constructor throws on the value `bad`. -/
def throwingOps (bad : Nat) : ElemOps Nat :=
  { is_nothrow_move_constructible := false
    is_copy_constructible := true
    is_move_assignable := true
    copy_throws := fun a => a == bad
    move_throws := fun _ => false
    moved_from := fun a => a
    value_init := fun _ => some 0
    sizeof := 8
    new_throws := fun bytes => decide (2 ^ 40 ≤ bytes) }

/-- The value an assignment of `Erase` leaves in its source object. -/
def erase_source {α : Type} (ops : ElemOps α) (by_move : Bool) (a : α) : α :=
  if by_move && ops.is_move_assignable then ops.moved_from a else a

/-- The states a run of `PushBack` calls goes through, one call per value,
from `v`; the run stops at the first call that does not return. -/
def Vector.push_trace {α : Type} (ops : ElemOps α) : List α → Vector α → List (Vector α)
  | [], _ => []
  | x :: xs, v =>
    match v.PushBack ops x with
    | .ok v1 _ _ => v1 :: Vector.push_trace ops xs v1
    | _ => []

/-- The call `Insert(cbegin() + p, value)` followed, when it returns, by
`Erase(cbegin() + p)`. -/
def Vector.insert_then_erase {α : Type} (ops : ElemOps α) (v : Vector α) (p : Nat)
    (value : α) : Outcome α Nat :=
  match v.Insert ops p value with
  | .ok v1 _ leaked =>
    match v1.Erase ops p with
    | .ok v2 r leaked2 => .ok v2 r (leaked ++ leaked2)
    | .threw v2 leaked2 => .threw v2 (leaked ++ leaked2)
    | .ub w => .ub w
  | .threw v1 leaked => .threw v1 leaked
  | .ub w => .ub w

/-! ## Copies, moves and swap -/

/-- The objects held by slots `[first, first + n)` of a block. -/
def Block.objects {α : Type} (b : Block α) (first n : Nat) : List α :=
  ((b.drop first).take n).filterMap id

/-- The call `std::copy_n(src + first, n, dst + d_first)` between two blocks:
`n` copy assignments. -/
def copy_n {α : Type} (src : Block α) :
    (n : Nat) → (first d_first : Nat) → (dst : Block α) → Except UB (Block α)
  | 0, _, _, dst => .ok dst
  | n + 1, first, d_first, dst =>
    match src.read first with
    | .error w => .error w
    | .ok a =>
      match dst.assign d_first a with
      | .error w => .error w
      | .ok dst1 => copy_n src n (first + 1) (d_first + 1) dst1

/-- The move constructor `RawMemory(RawMemory&& other)`: the pair (the new
object, `other` after the call). -/
def RawMemory.move_construct {α : Type} (other : RawMemory α) : RawMemory α × RawMemory α :=
  ({ buffer_ := other.buffer_, capacity_ := other.capacity_ },
   { buffer_ := none, capacity_ := 0 })

/-- What `RawMemory::operator=(RawMemory&&)` leaves: the two objects, and the
block it passed to `Deallocate`. -/
structure RawMemory.Moved (α : Type) where
  self : RawMemory α
  rhs : RawMemory α
  released : Option (Block α)
  deriving DecidableEq

/-- The move assignment `RawMemory::operator=(RawMemory&& rhs)`.  `same_object`
says whether `this == &rhs`. -/
def RawMemory.operator_assign_rvalue {α : Type} (self rhs : RawMemory α) (same_object : Bool) :
    RawMemory.Moved α :=
  if same_object then { self := self, rhs := rhs, released := none }
  else
    { self := { buffer_ := rhs.buffer_, capacity_ := rhs.capacity_ },
      rhs := { buffer_ := none, capacity_ := 0 },
      released := self.buffer_ }

/-- The `RawMemory` values that the operations of the class produce: default
construction, `RawMemory(capacity)`, the moves, `Swap`, and writes to the
slots through `GetAddress()`. -/
inductive RawMemory.Reachable {α : Type} : RawMemory α → Prop where
  | default : RawMemory.Reachable {}
  | create (n : Nat) : RawMemory.Reachable (RawMemory.create n)
  | move_construct_new (m : RawMemory α) :
      RawMemory.Reachable m → RawMemory.Reachable (RawMemory.move_construct m).1
  | move_construct_source (m : RawMemory α) :
      RawMemory.Reachable m → RawMemory.Reachable (RawMemory.move_construct m).2
  | assign_rvalue_self (m r : RawMemory α) (same_object : Bool) :
      RawMemory.Reachable m → RawMemory.Reachable r →
      RawMemory.Reachable (RawMemory.operator_assign_rvalue m r same_object).self
  | assign_rvalue_rhs (m r : RawMemory α) (same_object : Bool) :
      RawMemory.Reachable m → RawMemory.Reachable r →
      RawMemory.Reachable (RawMemory.operator_assign_rvalue m r same_object).rhs
  | swap_self (m r : RawMemory α) :
      RawMemory.Reachable m → RawMemory.Reachable r →
      RawMemory.Reachable (RawMemory.Swap m r).1
  | swap_other (m r : RawMemory α) :
      RawMemory.Reachable m → RawMemory.Reachable r →
      RawMemory.Reachable (RawMemory.Swap m r).2
  | store (m : RawMemory α) (b : Block α) :
      RawMemory.Reachable m → RawMemory.Reachable (m.store b)

/-- The destructor `~Vector()` followed by `~RawMemory()`: the pair (the
objects whose destructor ran, the objects still live in the released block). -/
def Vector.destruct {α : Type} (v : Vector α) : Except UB (List α × List α) :=
  match destroy_n v.size_ 0 v.data_.block with
  | .error w => .error w
  | .ok b =>
    .ok (Block.objects v.data_.block 0 v.size_, RawMemory.Deallocate (v.data_.store b).buffer_)

/-- The copy constructor `Vector(const Vector& other)`.  When a copy throws
no vector comes into being; its storage is released. -/
def Vector.copy_construct {α : Type} (ops : ElemOps α) (other : Vector α) :
    Res (Vector α × List α) :=
  let data : RawMemory α := RawMemory.create other.size_
  match uninitialized_copy_n ops other.data_.block other.size_ 0 0 data.block with
  | .ub w => .ub w
  | .threw b => .threw (Vector.empty, RawMemory.Deallocate (data.store b).buffer_)
  | .ok b => .ok ({ data_ := data.store b, size_ := other.size_ }, [])

/-- The move constructor `Vector(Vector&& other)`: the pair (the new vector,
`other` after the call). -/
def Vector.move_construct {α : Type} (other : Vector α) : Vector α × Vector α :=
  let m := RawMemory.move_construct other.data_
  ({ data_ := m.1, size_ := other.size_ }, { data_ := m.2, size_ := 0 })

/-- What `Vector::operator=(Vector&&)` leaves: the two vectors, and the objects
still live in the block that `data_ = std::move(rhs.data_)` released. -/
structure Vector.Moved (α : Type) where
  self : Vector α
  rhs : Vector α
  leaked : List α
  deriving DecidableEq

/-- The move assignment `Vector::operator=(Vector&& rhs)`.  `same_object` says
whether `this == &rhs`. -/
def Vector.operator_assign_rvalue {α : Type} (self rhs : Vector α) (same_object : Bool) :
    Vector.Moved α :=
  if same_object then { self := self, rhs := rhs, leaked := [] }
  else
    let m := RawMemory.operator_assign_rvalue self.data_ rhs.data_ false
    { self := { data_ := m.self, size_ := rhs.size_ },
      rhs := { data_ := m.rhs, size_ := 0 },
      leaked := RawMemory.Deallocate m.released }

/-- The member `Swap(Vector& other)`: the pair (this, other). -/
def Vector.Swap {α : Type} (self other : Vector α) : Vector α × Vector α :=
  let sw := RawMemory.Swap self.data_ other.data_
  ({ data_ := sw.1, size_ := other.size_ }, { data_ := sw.2, size_ := self.size_ })

/-- What `Vector::operator=(const Vector&)` leaves: the two vectors, the
objects of `*this` whose destructor ran, and the objects leaked. -/
structure Vector.Assigned (α : Type) where
  self : Vector α
  rhs : Vector α
  destroyed : List α
  leaked : List α
  deriving DecidableEq

/-- The copy assignment `Vector::operator=(const Vector& rhs)`.  `same_object`
says whether `this == &rhs`. -/
def Vector.operator_assign {α : Type} (ops : ElemOps α) (self rhs : Vector α)
    (same_object : Bool) : Res (Vector.Assigned α) :=
  if same_object then .ok { self := self, rhs := rhs, destroyed := [], leaked := [] }
  else if self.data_.Capacity < rhs.size_ then
    -- `Vector rhs_copy(rhs); Swap(rhs_copy);` and the destructor of `rhs_copy`
    match Vector.copy_construct ops rhs with
    | .ub w => .ub w
    | .threw (_, leaked) => .threw { self := self, rhs := rhs, destroyed := [], leaked := leaked }
    | .ok (rhs_copy, leaked) =>
      let sw := Vector.Swap self rhs_copy
      match sw.2.destruct with
      | .error w => .ub w
      | .ok (destroyed, leaked2) =>
        .ok { self := sw.1, rhs := rhs, destroyed := destroyed, leaked := leaked ++ leaked2 }
  else if self.size_ ≥ rhs.size_ then
    match copy_n rhs.data_.block rhs.size_ 0 0 self.data_.block with
    | .error w => .ub w
    | .ok b =>
      match destroy_n (self.size_ - rhs.size_) rhs.size_ b with
      | .error w => .ub w
      | .ok b1 =>
        .ok { self := { data_ := self.data_.store b1, size_ := rhs.size_ }, rhs := rhs,
              destroyed := Block.objects b rhs.size_ (self.size_ - rhs.size_), leaked := [] }
  else
    match copy_n rhs.data_.block self.size_ 0 0 self.data_.block with
    | .error w => .ub w
    | .ok b =>
      match uninitialized_copy_n ops rhs.data_.block (rhs.size_ - self.size_) self.size_
          self.size_ b with
      | .ub w => .ub w
      | .threw b1 =>
        .threw { self := { self with data_ := self.data_.store b1 }, rhs := rhs,
                 destroyed := [], leaked := [] }
      | .ok b1 =>
        .ok { self := { data_ := self.data_.store b1, size_ := rhs.size_ }, rhs := rhs,
              destroyed := [], leaked := [] }

/-- The statement `v[index] = value`, through `T& operator[](size_t index)`. -/
def Vector.write {α : Type} (v : Vector α) (index : Nat) (value : α) : Outcome α Unit :=
  match v.data_.block.assign index value with
  | .error w => .ub w
  | .ok b => .ok { v with data_ := v.data_.store b } () []

/-! ## Runs of calls -/

/-- The vector a call leaves, when it ends in a state: it returned or threw. -/
def Outcome.after {α ρ : Type} : Outcome α ρ → Option (Vector α)
  | .ok v _ _ => some v
  | .threw v _ => some v
  | .ub _ => none

/-- A call of one of the members that change a vector in place. -/
inductive Op (α : Type) where
  | PushBack (value : α)
  | PushBack_rvalue (value : α)
  | EmplaceBack (arg : Option α)
  | PopBack
  | Emplace (n : Nat) (arg : Option α)
  | Insert (n : Nat) (value : α)
  | Insert_rvalue (n : Nat) (value : α)
  | Erase (n : Nat)
  | Reserve (new_capacity : Nat)
  | Resize (new_size : Nat)

/-- The vector that the call `op` on `v` leaves. -/
def Op.after {α : Type} (ops : ElemOps α) (v : Vector α) : Op α → Option (Vector α)
  | .PushBack value => (v.PushBack ops value).after
  | .PushBack_rvalue value => (v.PushBack_rvalue ops value).after
  | .EmplaceBack arg => (v.EmplaceBack ops arg).after
  | .PopBack => v.PopBack.after
  | .Emplace n arg => (v.Emplace ops n arg).after
  | .Insert n value => (v.Insert ops n value).after
  | .Insert_rvalue n value => (v.Insert_rvalue ops n value).after
  | .Erase n => (v.Erase ops n).after
  | .Reserve new_capacity => (v.Reserve ops new_capacity).after
  | .Resize new_size => (v.Resize ops new_size).after

/-- The precondition of the call `op` on `v`: a position within `[begin, end]`
for an insertion, within `[begin, end)` for `Erase`, a non-empty vector for
`PopBack`. -/
def Op.pre {α : Type} (v : Vector α) : Op α → Prop
  | .PopBack => 0 < v.size_
  | .Emplace n _ => n ≤ v.size_
  | .Insert n _ => n ≤ v.size_
  | .Insert_rvalue n _ => n ≤ v.size_
  | .Erase n => n < v.size_
  | _ => True

instance Op.decidable_pre {α : Type} (v : Vector α) : (op : Op α) → Decidable (op.pre v)
  | .PushBack _ => inferInstanceAs (Decidable True)
  | .PushBack_rvalue _ => inferInstanceAs (Decidable True)
  | .EmplaceBack _ => inferInstanceAs (Decidable True)
  | .PopBack => inferInstanceAs (Decidable (0 < v.size_))
  | .Emplace n _ => inferInstanceAs (Decidable (n ≤ v.size_))
  | .Insert n _ => inferInstanceAs (Decidable (n ≤ v.size_))
  | .Insert_rvalue n _ => inferInstanceAs (Decidable (n ≤ v.size_))
  | .Erase n => inferInstanceAs (Decidable (n < v.size_))
  | .Reserve _ => inferInstanceAs (Decidable True)
  | .Resize _ => inferInstanceAs (Decidable True)

/-- A call of `PushBack(const T&)`, of `PushBack(T&&)` or of `PopBack()`. -/
inductive Call (α : Type) where
  | push (value : α)
  | push_rvalue (value : α)
  | pop

/-- The vector a run of `PushBack`/`PopBack` calls leaves, from `v`; `none`
when one of the calls does not return. -/
def Vector.run_calls {α : Type} (ops : ElemOps α) : List (Call α) → Vector α → Option (Vector α)
  | [], v => some v
  | .push value :: cs, v =>
    match v.PushBack ops value with
    | .ok v1 _ _ => Vector.run_calls ops cs v1
    | _ => none
  | .push_rvalue value :: cs, v =>
    match v.PushBack_rvalue ops value with
    | .ok v1 _ _ => Vector.run_calls ops cs v1
    | _ => none
  | .pop :: cs, v =>
    match v.PopBack with
    | .ok v1 _ _ => Vector.run_calls ops cs v1
    | _ => none

/-- The calls read as stack operations on a list whose top is its last
element: `none` when a pop meets the empty stack. -/
def stack_run {α : Type} : List (Call α) → List α → Option (List α)
  | [], s => some s
  | .push value :: cs, s => stack_run cs (s ++ [value])
  | .push_rvalue value :: cs, s => stack_run cs (s ++ [value])
  | .pop :: cs, s =>
    match s with
    | [] => none
    | _ :: _ => stack_run cs s.dropLast

/-- The number of `PushBack` calls of a run. -/
def count_push {α : Type} : List (Call α) → Nat
  | [] => 0
  | .push _ :: cs => count_push cs + 1
  | .push_rvalue _ :: cs => count_push cs + 1
  | .pop :: cs => count_push cs

/-- The number of `PopBack` calls of a run. -/
def count_pop {α : Type} : List (Call α) → Nat
  | [] => 0
  | .push _ :: cs => count_pop cs
  | .push_rvalue _ :: cs => count_pop cs
  | .pop :: cs => count_pop cs + 1

/-- No construction that the call brings about throws: the copy or the move
that makes the new element, and the relocation of that element when a later
call grows the storage. -/
def Call.nothrow {α : Type} (ops : ElemOps α) : Call α → Prop
  | .push value => ops.copy_throws value = false ∧ ops.relocate_throws value = false
  | .push_rvalue value => ops.move_throws value = false ∧ ops.relocate_throws value = false
  | .pop => True

instance Call.decidable_nothrow {α : Type} (ops : ElemOps α) :
    (c : Call α) → Decidable (c.nothrow ops)
  | .push _ => inferInstanceAs (Decidable (_ ∧ _))
  | .push_rvalue _ => inferInstanceAs (Decidable (_ ∧ _))
  | .pop => inferInstanceAs (Decidable True)

/-! ## Vectors as objects in the free store

The definitions above pass a vector by value, block included.  To speak of
two vectors and of the storage each one refers to, a vector is here an object
with a pointer, and the blocks lie in a store, at addresses. -/

/-- The free store: the block allocated at each address, `none` where no
block is allocated. -/
structure Store (α : Type) where
  block_at : Nat → Option (Block α)

/-- The store with what lies at address `p` replaced (`none`: released). -/
def Store.set {α : Type} (H : Store α) (p : Nat) (b : Option (Block α)) : Store α :=
  { block_at := fun q => if q = p then b else H.block_at q }

/-- The store with what lies behind the pointer `p` replaced; nothing lies
behind a null pointer. -/
def Store.write {α : Type} (H : Store α) (p : Option Nat) (b : Option (Block α)) : Store α :=
  match p with
  | none => H
  | some q => H.set q b

/-- A `Vector<T>` object as it lies in memory: the pointer `data_.buffer_`
(`none` is null), `data_.capacity_` and `size_`. -/
structure Vector.Object where
  buffer_ : Option Nat := none
  capacity_ : Nat := 0
  size_ : Nat := 0
  deriving DecidableEq

/-- The vector an object stands for in a store: its fields, with the block
its pointer refers to. -/
def Store.load {α : Type} (H : Store α) (o : Vector.Object) : Vector α :=
  { data_ := { buffer_ := o.buffer_.bind H.block_at, capacity_ := o.capacity_ },
    size_ := o.size_ }

/-- An object in a valid state: the vector it stands for satisfies the
invariant, and a non-null pointer refers to an allocated block. -/
def Store.Valid {α : Type} (H : Store α) (o : Vector.Object) : Prop :=
  (H.load o).Inv ∧ ∀ p, o.buffer_ = some p → H.block_at p ≠ none

/-- The copy constructor `Vector(const Vector& other)` on objects (lines
220-227).  `address` is the pointer that `operator new` returns to `Allocate`
(line 82) when `data_(other.size_)` asks for storage; for 0 slots `Allocate`
asks for none and the pointer is null.  The elements are copied into the new
block as `Vector.copy_construct` says.  The result is the store that the
constructor leaves and the new object; `other` is read only.  `none` when the
constructor does not return. -/
def Store.copy_construct {α : Type} (ops : ElemOps α) (H : Store α) (other : Vector.Object)
    (address : Nat) : Option (Store α × Vector.Object) :=
  match Vector.copy_construct ops (H.load other) with
  | .ok (w, _) =>
    match w.data_.buffer_ with
    | none => some (H, { buffer_ := none, capacity_ := w.data_.capacity_, size_ := w.size_ })
    | some b =>
      some (H.set address (some b),
        { buffer_ := some address, capacity_ := w.data_.capacity_, size_ := w.size_ })
  | _ => none

/-- The vector a call leaves, and whether it returned or threw. -/
def Outcome.state {α ρ : Type} : Outcome α ρ → Res (Vector α)
  | .ok v _ _ => .ok v
  | .threw v _ => .threw v
  | .ub w => .ub w

/-- A call that changes a vector: `PushBack`, `PopBack`, `Insert` (each with
its two overloads), `Erase`, or a write to an element. -/
inductive Mutation (α : Type) where
  | PushBack (value : α)
  | PushBack_rvalue (value : α)
  | PopBack
  | Insert (n : Nat) (value : α)
  | Insert_rvalue (n : Nat) (value : α)
  | Erase (n : Nat)
  | write (index : Nat) (value : α)

/-- The mutation `m` of the vector `w`. -/
def Mutation.run {α : Type} (ops : ElemOps α) (w : Vector α) : Mutation α → Res (Vector α)
  | .PushBack value => (w.PushBack ops value).state
  | .PushBack_rvalue value => (w.PushBack_rvalue ops value).state
  | .PopBack => w.PopBack.state
  | .Insert n value => (w.Insert ops n value).state
  | .Insert_rvalue n value => (w.Insert_rvalue ops n value).state
  | .Erase n => (w.Erase ops n).state
  | .write index value => (w.write index value).state

/-- Whether the call allocates: the test `size_ == Capacity()` of
`EmplaceBack` (line 314) and of `Emplace` (line 124), which then build
`new_data`.  The other mutations never allocate. -/
def Mutation.allocates {α : Type} (w : Vector α) : Mutation α → Bool
  | .PushBack _ => decide (w.size_ = w.Capacity)
  | .PushBack_rvalue _ => decide (w.size_ = w.Capacity)
  | .Insert _ _ => decide (w.size_ = w.Capacity)
  | .Insert_rvalue _ _ => decide (w.size_ = w.Capacity)
  | _ => false

/-- The member call `m` on the object `o`: what happens to the elements is
what `Mutation.run` says of the vector the object stands for; this adds where
the blocks lie.  `address` is the pointer that `operator new` returns if the
call allocates.  A call that returns after it allocated has run
`data_.Swap(new_data)`: the object points at the new block, and the destructor
of `new_data` releases the old one.  A call that throws after it allocated
leaves the pointer as it was and releases the new block.  A call that does not
allocate works on the block the object points at.  `none` when the call
executes undefined behaviour. -/
def Store.mutate {α : Type} (ops : ElemOps α) (H : Store α) (o : Vector.Object)
    (m : Mutation α) (address : Nat) : Option (Store α × Vector.Object) :=
  match m.run ops (H.load o) with
  | .ub _ => none
  | .threw w1 =>
    some (H.write o.buffer_ w1.data_.buffer_,
      { o with capacity_ := w1.data_.capacity_, size_ := w1.size_ })
  | .ok w1 =>
    if m.allocates (H.load o) then
      some ((H.write o.buffer_ none).set address w1.data_.buffer_,
        { buffer_ := some address, capacity_ := w1.data_.capacity_, size_ := w1.size_ })
    else
      some (H.write o.buffer_ w1.data_.buffer_,
        { o with capacity_ := w1.data_.capacity_, size_ := w1.size_ })

/-- The program `Vector<T> w(v); w.m(...);` on the object `v`: the store it
leaves and the object `w`.  `a1` and `a2` are the pointers `operator new`
returns to the constructor and to the member call. -/
def Store.copy_then_mutate {α : Type} (ops : ElemOps α) (H : Store α) (v : Vector.Object)
    (m : Mutation α) (a1 a2 : Nat) : Option (Store α × Vector.Object) :=
  match Store.copy_construct ops H v a1 with
  | none => none
  | some (H1, w) => Store.mutate ops H1 w m a2

/-- A store with one block, at address 100: the elements 1, 2, 3 and two raw
slots. -/
def store100 : Store Nat :=
  { block_at := fun p => if p = 100 then some [some 1, some 2, some 3, none, none] else none }

/-- The vector object `[1, 2, 3]` of capacity 5 whose block lies at address
100. -/
def vector100 : Vector.Object := { buffer_ := some 100, capacity_ := 5, size_ := 3 }

/-! ## Lemmas on blocks and on the standard algorithms -/

theorem Block.get?_mid {α : Type} (pre post : Block α) (h : Option α) :
    (pre ++ h :: post).get? pre.length = some h := by
  induction pre with
  | nil => rfl
  | cons x xs ih => simpa using ih

theorem Block.set_mid {α : Type} (pre post : Block α) (h x : Option α) :
    (pre ++ h :: post).set pre.length x = pre ++ x :: post := by
  induction pre with
  | nil => rfl
  | cons y ys ih => simp [List.set, ih]

theorem Block.read_mid {α : Type} (pre post : Block α) (a : α) :
    Block.read (pre ++ some a :: post) pre.length = .ok a := by
  unfold Block.read; rw [Block.get?_mid]

theorem Block.construct_mid {α : Type} (pre post : Block α) (h : Option α) (a : α) :
    Block.construct (pre ++ h :: post) pre.length a = .ok (pre ++ some a :: post) := by
  simp [Block.construct, Block.set_mid]

theorem Block.destroy_mid {α : Type} (pre post : Block α) (a : α) :
    Block.destroy (pre ++ some a :: post) pre.length = .ok (pre ++ none :: post) := by
  unfold Block.destroy; rw [Block.get?_mid, Block.set_mid]

theorem Block.assign_mid {α : Type} (pre post : Block α) (a x : α) :
    Block.assign (pre ++ some a :: post) pre.length x = .ok (pre ++ some x :: post) := by
  unfold Block.assign; rw [Block.get?_mid, Block.set_mid]

theorem destroy_n_mid {α : Type} (ys : List α) : ∀ (pre post : Block α),
    destroy_n ys.length pre.length (pre ++ ys.map some ++ post)
      = .ok (pre ++ List.replicate ys.length none ++ post) := by
  induction ys with
  | nil => intro pre post; simp [destroy_n]
  | cons y ys ih =>
    intro pre post
    have h := ih (pre ++ [none]) post
    simp only [List.length_append, List.length_singleton, List.append_assoc,
      List.singleton_append, List.cons_append, List.nil_append] at h
    simp only [List.map_cons, List.length_cons, destroy_n, List.append_assoc, List.cons_append,
      Block.destroy_mid, List.replicate_succ, h]

theorem uninitialized_copy_n_mid {α : Type} (ops : ElemOps α) (src : Block α) (xs : List α) :
    ∀ (first : Nat) (dpre holes dpost : Block α),
    holes.length = xs.length →
    (∀ k, k < xs.length → src.get? (first + k) = some (xs.get? k)) →
    (∀ x ∈ xs, ops.copy_throws x = false) →
    uninitialized_copy_n ops src xs.length first dpre.length (dpre ++ holes ++ dpost)
      = .ok (dpre ++ xs.map some ++ dpost) := by
  induction xs with
  | nil =>
    intro first dpre holes dpost hl _ _
    have : holes = [] := List.length_eq_zero.mp hl
    simp [uninitialized_copy_n, this]
  | cons x xs ih =>
    intro first dpre holes dpost hl hsrc hcopy
    match holes, hl with
    | h :: hs, hl =>
      have h0 : src.get? first = some (some x) := by simpa using hsrc 0 (by simp)
      have hx : ops.copy_throws x = false := hcopy x (by simp)
      have hrec := ih (first + 1) (dpre ++ [some x]) hs dpost (by simpa using hl)
        (fun k hk => by
          have := hsrc (k + 1) (by simpa using hk)
          simpa [Nat.add_assoc, Nat.add_comm 1 k] using this)
        (fun y hy => hcopy y (by simp [hy]))
      simp only [List.length_append, List.length_singleton, List.append_assoc,
        List.singleton_append, List.cons_append, List.nil_append] at hrec
      simp only [List.length_cons, uninitialized_copy_n, Block.read, h0, hx, List.append_assoc,
        List.cons_append, Block.construct_mid, hrec, List.map_cons]
      simp

theorem uninitialized_move_n_mid {α : Type} (ops : ElemOps α) (xs : List α) :
    ∀ (pre post dpre holes dpost : Block α),
    holes.length = xs.length →
    (∀ x ∈ xs, ops.move_throws x = false) →
    uninitialized_move_n ops xs.length pre.length dpre.length
        (pre ++ xs.map some ++ post) (dpre ++ holes ++ dpost)
      = .ok (pre ++ (xs.map ops.moved_from).map some ++ post, dpre ++ xs.map some ++ dpost) := by
  induction xs with
  | nil =>
    intro pre post dpre holes dpost hl _
    have : holes = [] := List.length_eq_zero.mp hl
    simp [uninitialized_move_n, this]
  | cons x xs ih =>
    intro pre post dpre holes dpost hl hmove
    match holes, hl with
    | h :: hs, hl =>
      have hx : ops.move_throws x = false := hmove x (by simp)
      have hrec := ih (pre ++ [some (ops.moved_from x)]) post (dpre ++ [some x]) hs dpost
        (by simpa using hl) (fun y hy => hmove y (by simp [hy]))
      simp only [List.length_append, List.length_singleton, List.append_assoc,
        List.singleton_append, List.cons_append, List.nil_append] at hrec
      simp only [List.length_cons, uninitialized_move_n, List.map_cons, List.append_assoc,
        List.cons_append, Block.read_mid, hx, Block.construct_mid, Block.set_mid, hrec]
      simp

theorem Vector.block_ofList {α : Type} (xs : List α) (cap : Nat) (h : xs.length ≤ cap) :
    (Vector.ofList xs cap).data_.block
      = xs.map some ++ List.replicate (cap - xs.length) none := by
  unfold Vector.ofList RawMemory.block
  by_cases hc : cap = 0
  · have : xs = [] := List.length_eq_zero.mp (by omega)
    simp [hc, this]
  · simp [hc]

theorem Vector.elems_ofList {α : Type} (xs : List α) (cap : Nat) (h : xs.length ≤ cap) :
    (Vector.ofList xs cap).elems = xs := by
  unfold Vector.elems
  rw [Vector.block_ofList xs cap h]
  have h1 : (Vector.ofList xs cap).size_ = (xs.map some).length := by simp [Vector.ofList]
  rw [h1, List.take_left']
  · induction xs with
    | nil => rfl
    | cons x xs ih => simp
  · rfl

theorem Vector.store_ofList {α : Type} (xs : List α) (cap : Nat) (b : Block α) (hc : cap ≠ 0) :
    (Vector.ofList xs cap).data_.store b = { buffer_ := some b, capacity_ := cap } := by
  simp [Vector.ofList, RawMemory.store, hc]

theorem replicate_split {α : Type} (n k : Nat) (h : k < n) :
    (List.replicate n (none : Option α))
      = List.replicate k none ++ none :: List.replicate (n - k - 1) none := by
  have : n = k + (1 + (n - k - 1)) := by omega
  conv_lhs => rw [this]
  rw [List.replicate_add, List.replicate_add]
  rfl

theorem Block.read_at {α : Type} (pre post : Block α) (a : α) (i : Nat) (hi : i = pre.length) :
    Block.read (pre ++ some a :: post) i = .ok a := by
  subst hi; exact Block.read_mid pre post a

theorem Block.construct_at {α : Type} (pre post : Block α) (h : Option α) (a : α) (i : Nat)
    (hi : i = pre.length) :
    Block.construct (pre ++ h :: post) i a = .ok (pre ++ some a :: post) := by
  subst hi; exact Block.construct_mid pre post h a

theorem Block.destroy_at {α : Type} (pre post : Block α) (a : α) (i : Nat) (hi : i = pre.length) :
    Block.destroy (pre ++ some a :: post) i = .ok (pre ++ none :: post) := by
  subst hi; exact Block.destroy_mid pre post a

theorem Block.assign_at {α : Type} (pre post : Block α) (a x : α) (i : Nat) (hi : i = pre.length) :
    Block.assign (pre ++ some a :: post) i x = .ok (pre ++ some x :: post) := by
  subst hi; exact Block.assign_mid pre post a x

theorem destroy_n_all {α : Type} (ys : List α) (n : Nat) (hn : n = ys.length) :
    destroy_n n 0 (ys.map some) = .ok (List.replicate n none) := by
  subst hn
  simpa using destroy_n_mid ys [] []

theorem uninitialized_copy_n_front {α : Type} (ops : ElemOps α) (xs : List α) (n : Nat)
    (tail dpost : Block α) (hn : n = xs.length) (hcopy : ∀ x ∈ xs, ops.copy_throws x = false) :
    uninitialized_copy_n ops (xs.map some ++ tail) n 0 0 (List.replicate n none ++ dpost)
      = .ok (xs.map some ++ dpost) := by
  subst hn
  have h := uninitialized_copy_n_mid ops (xs.map some ++ tail) xs 0 []
    (List.replicate xs.length none) dpost (by simp)
    (fun k hk => by
      rw [Nat.zero_add, List.get?_eq_getElem?, List.get?_eq_getElem?,
        List.getElem?_append_left (by simpa using hk)]
      simp [List.getElem?_map, List.getElem?_eq_getElem hk]) hcopy
  simpa using h

theorem uninitialized_move_n_front {α : Type} (ops : ElemOps α) (xs : List α) (n : Nat)
    (tail dpost : Block α) (hn : n = xs.length) (hmove : ∀ x ∈ xs, ops.move_throws x = false) :
    uninitialized_move_n ops n 0 0 (xs.map some ++ tail) (List.replicate n none ++ dpost)
      = .ok ((xs.map ops.moved_from).map some ++ tail, xs.map some ++ dpost) := by
  subst hn
  have h := uninitialized_move_n_mid ops xs [] tail []
    (List.replicate xs.length none) dpost (by simp) hmove
  simpa using h

theorem Block.live_replicate {α : Type} (n : Nat) :
    Block.live (List.replicate n (none : Option α)) = [] := by
  induction n with
  | zero => rfl
  | succ n ih => simp [Block.live, List.replicate_succ]

theorem RawMemory.block_create {α : Type} (nc : Nat) :
    (RawMemory.create nc : RawMemory α).block = List.replicate nc none := by
  by_cases h : nc = 0
  · simp [RawMemory.create, RawMemory.Allocate, RawMemory.block, h]
  · simp [RawMemory.create, RawMemory.Allocate, RawMemory.block, h]

theorem RawMemory.store_create {α : Type} (nc : Nat) (hnc : nc ≠ 0) (b : Block α) :
    (RawMemory.create nc : RawMemory α).store b = { buffer_ := some b, capacity_ := nc } := by
  simp [RawMemory.create, RawMemory.Allocate, RawMemory.store, hnc]

theorem Vector.destroy_and_swap_ok {α : Type} (v : Vector α) (ys : List α) (k nc : Nat)
    (nb : Block α) (hn : v.size_ = ys.length) (hnc : nc ≠ 0) :
    v.destroy_and_swap (ys.map some ++ List.replicate k none) nb (RawMemory.create nc)
      = .ok ({ buffer_ := some nb, capacity_ := nc }, []) := by
  unfold Vector.destroy_and_swap
  have hd := destroy_n_mid ys [] (List.replicate k none)
  simp only [List.length_nil, List.nil_append] at hd
  rw [hn, hd]
  simp only [RawMemory.Swap, RawMemory.store_create nc hnc]
  have hl : RawMemory.Deallocate
      (v.data_.store (List.replicate ys.length none ++ List.replicate k none)).buffer_ = [] := by
    unfold RawMemory.store RawMemory.Deallocate
    rcases hb : v.data_.buffer_ with _ | b
    · simp [hb]
    · simp only [← List.replicate_add]
      exact Block.live_replicate _
  rw [hl]

theorem Vector.ofList_eq {α : Type} (ys : List α) (b : Block α) (nc n : Nat) (hnc : nc ≠ 0)
    (hb : b = ys.map some ++ List.replicate (nc - ys.length) none) (hn : n = ys.length) :
    ({ data_ := { buffer_ := some b, capacity_ := nc }, size_ := n } : Vector α)
      = Vector.ofList ys nc := by
  simp [Vector.ofList, hnc, hb, hn]

theorem Vector.EmplaceBack_ofList {α : Type} (ops : ElemOps α) (xs : List α) (cap : Nat) (a : α)
    (h : xs.length ≤ cap)
    (hrel : xs.length = cap → ∀ x ∈ xs, ops.relocate_throws x = false) :
    (Vector.ofList xs cap).EmplaceBack ops (some a)
      = .ok (Vector.ofList (xs ++ [a])
          (if xs.length = cap then (if xs.length = 0 then 1 else xs.length * 2) else cap))
          xs.length [] := by
  have hsize : (Vector.ofList xs cap).size_ = xs.length := rfl
  have hcap : (Vector.ofList xs cap).Capacity = cap := rfl
  have hblock := Vector.block_ofList xs cap h
  unfold Vector.EmplaceBack
  by_cases hsz : xs.length = cap
  · have hrel1 := hrel hsz
    subst hsz
    simp only [hsize, hcap, if_true]
    generalize hncdef : (if xs.length = 0 then 1 else xs.length * 2) = nc
    have hnc : xs.length < nc := by
      rw [← hncdef]; split <;> omega
    have hnc0 : nc ≠ 0 := by omega
    rw [RawMemory.block_create, replicate_split nc xs.length hnc,
      Block.construct_at _ _ _ _ _ (by simp)]
    simp only [Nat.sub_self, List.replicate_zero, List.append_nil] at hblock
    have hfin : Vector.mk (RawMemory.mk
          (some (xs.map some ++ some a :: List.replicate (nc - xs.length - 1) none)) nc)
        (xs.length + 1) = Vector.ofList (xs ++ [a]) nc :=
      Vector.ofList_eq _ _ _ _ hnc0 (by simp [Nat.sub_sub]) (by simp)
    simp only [hblock]
    by_cases hmv : ops.relocate_by_move = true
    · have hmove : ∀ x ∈ xs, ops.move_throws x = false := by
        intro x hx
        have := hrel1 x hx
        simpa [ElemOps.relocate_throws, hmv] using this
      have hm := uninitialized_move_n_front ops xs xs.length []
        (some a :: List.replicate (nc - xs.length - 1) none) rfl hmove
      simp only [List.append_nil] at hm
      have hds := Vector.destroy_and_swap_ok (Vector.ofList xs xs.length)
        (xs.map ops.moved_from) 0 nc
        (xs.map some ++ some a :: List.replicate (nc - xs.length - 1) none)
        (by simp [Vector.ofList]) hnc0
      simp only [List.replicate_zero, List.append_nil] at hds
      simp only [hmv, if_true, hm, hds, hfin]
    · have hcopy : ∀ x ∈ xs, ops.copy_throws x = false := by
        intro x hx
        have := hrel1 x hx
        simpa [ElemOps.relocate_throws, hmv] using this
      have hc := uninitialized_copy_n_front ops xs xs.length []
        (some a :: List.replicate (nc - xs.length - 1) none) rfl hcopy
      simp only [List.append_nil] at hc
      have hds := Vector.destroy_and_swap_ok (Vector.ofList xs xs.length) xs 0 nc
        (xs.map some ++ some a :: List.replicate (nc - xs.length - 1) none)
        (by simp [Vector.ofList]) hnc0
      simp only [List.replicate_zero, List.append_nil] at hds
      simp only [hmv, hc, hds, hfin]
      rfl
  · have hlt : xs.length < cap := by omega
    have hc0 : cap ≠ 0 := by omega
    simp only [hsize, hcap, hsz, if_false, hblock]
    rw [replicate_split (cap - xs.length) 0 (by omega), List.replicate_zero, List.nil_append,
      Block.construct_at _ _ _ _ _ (by simp)]
    simp only [Vector.store_ofList _ _ _ hc0]
    rw [Vector.ofList_eq (xs ++ [a]) _ cap _ hc0 (by simp [Nat.sub_sub]) (by simp)]

theorem Block.all_live_eq {α : Type} : ∀ (l : Block α),
    (∀ i, i < l.length → ∃ a, l.get? i = some (some a)) → l = (l.filterMap id).map some
  | [], _ => rfl
  | none :: l, h => by
    obtain ⟨a, ha⟩ := h 0 (by simp)
    simp at ha
  | some x :: l, h => by
    have ih := Block.all_live_eq l (fun i hi => by
      obtain ⟨a, ha⟩ := h (i + 1) (by simpa using hi)
      exact ⟨a, by simpa using ha⟩)
    simp only [List.filterMap_cons_some (id_eq _), List.map_cons, id_eq]
    rw [← ih]

theorem Block.all_raw_eq {α : Type} (l : Block α)
    (h : ∀ i, i < l.length → l.get? i = some none) : l = List.replicate l.length none := by
  apply List.ext_get? 
  intro i
  by_cases hi : i < l.length
  · rw [h i hi]
    simp [List.getElem?_replicate, hi]
  · simp [List.getElem?_replicate, hi]
    omega

theorem Vector.Inv.eq_ofList {α : Type} {v : Vector α} (hv : v.Inv) :
    v = Vector.ofList v.elems v.Capacity ∧ v.elems.length = v.size_ := by
  obtain ⟨⟨hlen, hnull⟩, hle, hlive, hraw⟩ := hv
  have hcapdef : v.Capacity = v.data_.capacity_ := rfl
  rw [hcapdef] at hle hraw ⊢
  have htake : v.data_.block.take v.size_ = (v.elems).map some := by
    unfold Vector.elems
    apply Block.all_live_eq
    intro i hi
    have hi' : i < v.size_ := by
      rw [List.length_take] at hi; omega
    obtain ⟨a, ha⟩ := hlive i hi'
    refine ⟨a, ?_⟩
    rw [List.get?_eq_getElem?, List.getElem?_take_of_lt hi', ← List.get?_eq_getElem?, ha]
  have hel : v.elems.length = v.size_ := by
    have := congrArg List.length htake
    rw [List.length_take, List.length_map] at this
    omega
  have hdrop : v.data_.block.drop v.size_
      = List.replicate (v.data_.capacity_ - v.size_) none := by
    have h1 := Block.all_raw_eq (v.data_.block.drop v.size_) (fun i hi => by
      rw [List.length_drop] at hi
      rw [List.get?_eq_getElem?, List.getElem?_drop, ← List.get?_eq_getElem?]
      exact hraw _ (by omega) (by omega))
    rw [List.length_drop, hlen] at h1
    exact h1
  have hblock : v.data_.block
      = v.elems.map some ++ List.replicate (v.data_.capacity_ - v.elems.length) none := by
    rw [hel, ← htake, ← hdrop, List.take_append_drop]
  refine ⟨?_, hel⟩
  clear htake hdrop hlive hraw hcapdef
  generalize v.elems = es at hel hblock ⊢
  rcases v with ⟨⟨buf, cap⟩, sz⟩
  simp only at hlen hnull hle hel hblock ⊢
  unfold Vector.ofList
  by_cases hc : cap = 0
  · have hb : buf = none := hnull.mpr hc
    simp [hc, hb, hel]
  · rcases buf with _ | b
    · exact absurd (hnull.mp rfl) hc
    · simp only [RawMemory.block] at hblock
      subst hel
      simp [hc, ← hblock]

theorem Vector.inv_ofList {α : Type} (xs : List α) (cap : Nat) (h : xs.length ≤ cap) :
    (Vector.ofList xs cap).Inv := by
  have hb := Vector.block_ofList xs cap h
  refine ⟨⟨?_, ?_⟩, h, ?_, ?_⟩
  · rw [hb]; simp [Vector.ofList]; omega
  · by_cases hc : cap = 0 <;> simp [Vector.ofList, hc]
  · intro i hi
    have hi' : i < xs.length := hi
    refine ⟨xs.get ⟨i, hi'⟩, ?_⟩
    rw [hb, List.get?_eq_getElem?, List.getElem?_append_left (by simpa using hi')]
    simp [List.getElem?_map, List.getElem?_eq_getElem hi']
  · intro i hi hic
    have hi' : xs.length ≤ i := hi
    have hic' : i < cap := hic
    rw [hb, List.get?_eq_getElem?, List.getElem?_append_right (by simpa using hi')]
    simp [List.getElem?_replicate]
    omega

theorem Vector.erase_step {α : Type} (ops : ElemOps α) (by_move : Bool) (pre rest : Block α)
    (y z : α) (i : Nat) (hi : i = pre.length + 1) :
    (if by_move then move_assign ops (pre ++ some y :: some z :: rest) (i - 1) i
      else copy_assign (pre ++ some y :: some z :: rest) (i - 1) i)
      = .ok (pre ++ some z :: some (erase_source ops by_move z) :: rest) := by
  subst hi
  have hread : Block.read (pre ++ some y :: some z :: rest) (pre.length + 1) = .ok z := by
    have := Block.read_at (pre ++ [some y]) rest z (pre.length + 1) (by simp)
    simpa using this
  have hassign : Block.assign (pre ++ some y :: some z :: rest) (pre.length + 1 - 1) z
      = .ok (pre ++ some z :: some z :: rest) :=
    Block.assign_at pre (some z :: rest) y z _ (by simp)
  have hset : ∀ w : Option α, (pre ++ some z :: some z :: rest).set (pre.length + 1) w
      = pre ++ some z :: w :: rest := by
    intro w
    have hs := Block.set_mid (pre ++ [some z]) rest (some z) w
    simp only [List.length_append, List.length_singleton, List.append_assoc,
      List.singleton_append] at hs
    exact hs
  cases by_move with
  | true =>
    simp only [if_true, move_assign, hread, hassign, hset, erase_source, Bool.true_and]
    cases ops.is_move_assignable <;> simp
  | false =>
    simp only [copy_assign, hread, hassign]
    simp [erase_source]

theorem Vector.erase_loop_mid {α : Type} (ops : ElemOps α) (by_move : Bool) (zs : List α) :
    ∀ (pre post : Block α) (y : α),
    ∃ l, Vector.erase_loop ops by_move zs.length (pre.length + 1)
        (pre ++ some y :: (zs.map some ++ post))
      = .ok (pre ++ zs.map some ++ some l :: post) := by
  induction zs with
  | nil => intro pre post y; exact ⟨y, by simp [Vector.erase_loop]⟩
  | cons z zs ih =>
    intro pre post y
    obtain ⟨l, hl⟩ := ih (pre ++ [some z]) post (erase_source ops by_move z)
    refine ⟨l, ?_⟩
    simp only [List.length_append, List.length_singleton, List.append_assoc,
      List.singleton_append, List.cons_append, List.nil_append] at hl
    simp only [List.length_cons, Vector.erase_loop, List.map_cons, List.cons_append,
      Vector.erase_step ops by_move pre _ y z _ rfl, hl, List.append_assoc]


theorem Vector.Erase_ofList {α : Type} (ops : ElemOps α) (xs : List α) (cap n : Nat)
    (hn : n < xs.length) (h : xs.length ≤ cap) :
    (Vector.ofList xs cap).Erase ops n = .ok (Vector.ofList (xs.eraseIdx n) cap) n [] := by
  have hsize : (Vector.ofList xs cap).size_ = xs.length := rfl
  have hc0 : cap ≠ 0 := by omega
  have hxs : xs = xs.take n ++ xs[n] :: xs.drop (n + 1) := by
    rw [← List.drop_eq_getElem_cons hn, List.take_append_drop]
  have hlt : (xs.take n).length = n := by rw [List.length_take]; omega
  have hld : (xs.drop (n + 1)).length = xs.length - (n + 1) := List.length_drop _ _
  have hblock : (Vector.ofList xs cap).data_.block
      = (xs.take n).map some ++ some xs[n] ::
          ((xs.drop (n + 1)).map some ++ List.replicate (cap - xs.length) none) := by
    rw [Vector.block_ofList xs cap h]
    have hm : xs.map some
        = (xs.take n).map some ++ some xs[n] :: (xs.drop (n + 1)).map some := by
      conv_lhs => rw [hxs]
      rw [List.map_append, List.map_cons]
    rw [hm, List.append_assoc, List.cons_append]
  obtain ⟨l, hl⟩ := Vector.erase_loop_mid ops ops.is_move_assignable (xs.drop (n + 1))
    ((xs.take n).map some) (List.replicate (cap - xs.length) none) xs[n]
  rw [List.length_map, hlt, hld] at hl
  unfold Vector.Erase
  simp only [hsize, hblock, hl]
  have hne : ¬ xs.length = 0 := by omega
  have hd : destroy_n 1 (xs.length - 1)
      ((xs.take n).map some ++ (xs.drop (n + 1)).map some ++
        some l :: List.replicate (cap - xs.length) none)
      = .ok ((xs.take n).map some ++ (xs.drop (n + 1)).map some ++
        none :: List.replicate (cap - xs.length) none) := by
    simp only [destroy_n]
    rw [Block.destroy_at _ _ _ _ (by simp [hlt, hld]; omega)]
  simp only [hne, if_false, hd, Vector.store_ofList _ _ _ hc0]
  rw [Vector.ofList_eq (xs.eraseIdx n) _ cap _ hc0 ?_ ?_]
  · rw [List.eraseIdx_eq_take_drop_succ, List.map_append, List.length_append, hlt, hld,
      List.append_assoc, List.append_assoc]
    congr 2
    have : cap - (n + (xs.length - (n + 1))) = (cap - xs.length) + 1 := by omega
    rw [this, List.replicate_succ]
  · rw [List.length_eraseIdx, if_pos hn]

theorem Vector.Inv.cases {α : Type} {v : Vector α} (hv : v.Inv) :
    ∃ xs cap, xs.length ≤ cap ∧ v = Vector.ofList xs cap := by
  obtain ⟨heq, hlen⟩ := hv.eq_ofList
  exact ⟨v.elems, v.Capacity, by rw [hlen]; exact hv.2.1, heq⟩

theorem Vector.size_ofList {α : Type} (xs : List α) (cap : Nat) :
    (Vector.ofList xs cap).size_ = xs.length := rfl

theorem Vector.Size_ofList {α : Type} (xs : List α) (cap : Nat) :
    (Vector.ofList xs cap).Size = xs.length := rfl

theorem Vector.Capacity_ofList {α : Type} (xs : List α) (cap : Nat) :
    (Vector.ofList xs cap).Capacity = cap := rfl

theorem grown_capacity_bounds (n cap : Nat) (h : n ≤ cap) :
    n + 1 ≤ (if n = cap then (if n = 0 then 1 else n * 2) else cap) := by
  split
  · split <;> omega
  · omega

theorem Vector.PushBack_of_EmplaceBack {α : Type} (ops : ElemOps α) (v v1 : Vector α) (a : α)
    (r : Nat) (leaked : List α) (hc : ops.copy_throws a = false)
    (hE : v.EmplaceBack ops (some a) = .ok v1 r leaked) :
    v.PushBack ops a = .ok v1 () leaked := by
  unfold Vector.PushBack
  rw [hc]
  simp only [Bool.false_eq_true, if_false]
  rw [hE]

theorem Vector.EmplaceBack_threw_unchanged {α : Type} (ops : ElemOps α) (v : Vector α)
    (arg : Option α) (hcause : arg = none ∨ ops.relocate_by_move = false)
    (v1 : Vector α) (leaked : List α)
    (hfail : v.EmplaceBack ops arg = .threw v1 leaked) : v1 = v := by
  unfold Vector.EmplaceBack at hfail
  rcases hcause with rfl | hcp
  · split at hfail
    · simp only at hfail
      injection hfail with h1 _
      exact h1.symm
    · simp only at hfail
      injection hfail with h1 _
      exact h1.symm
  · rcases arg with _ | a
    · split at hfail
      · simp only at hfail
        injection hfail with h1 _
        exact h1.symm
      · simp only at hfail
        injection hfail with h1 _
        exact h1.symm
    · simp only [hcp, Bool.false_eq_true, if_false] at hfail
      split at hfail
      · split at hfail
        · cases hfail
        · split at hfail
          · cases hfail
          · injection hfail with h1 _
            exact h1.symm
          · split at hfail <;> cases hfail
      · split at hfail <;> cases hfail

theorem Vector.PushBack_threw {α : Type} (ops : ElemOps α) (v v1 : Vector α) (value : α)
    (leaked : List α) (h : v.PushBack ops value = .threw v1 leaked) :
    v.EmplaceBack ops (if ops.copy_throws value then none else some value)
      = .threw v1 leaked := by
  unfold Vector.PushBack at h
  split at h
  · cases h
  · injection h with h1 h2
    subst h1 h2
    assumption
  · cases h

/-! ## Lemmas on `Resize`, failing relocation and `Emplace` -/

theorem Vector.Resize_shrink_ofList {α : Type} (ops : ElemOps α) (xs : List α)
    (cap new_size : Nat) (h : xs.length ≤ cap) (hlt : new_size < xs.length) :
    (Vector.ofList xs cap).Resize ops new_size = .ub (.destroy_not_live xs.length) := by
  have hsize : (Vector.ofList xs cap).size_ = xs.length := rfl
  have hget : ∀ a : α, (Vector.ofList xs cap).data_.block.get? xs.length ≠ some (some a) := by
    intro a
    rw [Vector.block_ofList xs cap h, List.get?_eq_getElem?,
      List.getElem?_append_right (by simp)]
    simp [List.getElem?_replicate]
  have hd : Block.destroy (Vector.ofList xs cap).data_.block xs.length
      = .error (.destroy_not_live xs.length) := by
    unfold Block.destroy
    split
    · rename_i a heq
      exact absurd heq (hget a)
    · rfl
  obtain ⟨k, hk⟩ : ∃ k, xs.length - new_size = k + 1 := ⟨xs.length - new_size - 1, by omega⟩
  unfold Vector.Resize
  simp only [hsize, hlt, if_true, hk, destroy_n, hd]

theorem exists_first_throwing {α : Type} (p : α → Bool) :
    ∀ (xs : List α), (∃ x ∈ xs, p x = true) →
      ∃ ys x zs, xs = ys ++ x :: zs ∧ (∀ y ∈ ys, p y = false) ∧ p x = true
  | [], h => by obtain ⟨x, hx, _⟩ := h; cases hx
  | x :: xs, h => by
    by_cases hp : p x = true
    · exact ⟨[], x, xs, rfl, by simp, hp⟩
    · have h' : ∃ y ∈ xs, p y = true := by
        obtain ⟨y, hy, hpy⟩ := h
        rcases List.mem_cons.mp hy with rfl | hy
        · exact absurd hpy hp
        · exact ⟨y, hy, hpy⟩
      obtain ⟨ys, y, zs, hxs, hys, hy⟩ := exists_first_throwing p xs h'
      refine ⟨x :: ys, y, zs, by rw [hxs]; rfl, ?_, hy⟩
      intro z hz
      rcases List.mem_cons.mp hz with rfl | hz
      · simpa using hp
      · exact hys z hz

theorem uninitialized_copy_n_throws {α : Type} (ops : ElemOps α) (ys : List α) :
    ∀ (spre spost : Block α) (x : α) (m : Nat) (dpre dpost : Block α),
    (∀ y ∈ ys, ops.copy_throws y = false) → ops.copy_throws x = true →
    uninitialized_copy_n ops (spre ++ ys.map some ++ some x :: spost) (ys.length + 1 + m)
        spre.length dpre.length (dpre ++ List.replicate ys.length none ++ dpost)
      = .threw (dpre ++ List.replicate ys.length none ++ dpost) := by
  induction ys with
  | nil =>
    intro spre spost x m dpre dpost _ hx
    simp only [List.length_nil, Nat.zero_add, List.map_nil, List.append_nil,
      List.replicate_zero, Nat.add_comm 1 m]
    simp only [uninitialized_copy_n, Block.read_mid, hx, if_true]
  | cons y ys ih =>
    intro spre spost x m dpre dpost hys hx
    have hy : ops.copy_throws y = false := hys y (by simp)
    have hrec := ih (spre ++ [some y]) spost x m (dpre ++ [some y]) dpost
      (fun z hz => hys z (by simp [hz])) hx
    simp only [List.length_append, List.length_singleton, List.append_assoc,
      List.singleton_append, List.cons_append, List.nil_append] at hrec
    have hn : (y :: ys).length + 1 + m = (ys.length + 1 + m) + 1 := by
      simp only [List.length_cons]; omega
    rw [hn]
    simp only [uninitialized_copy_n, List.map_cons, List.append_assoc, List.cons_append,
      Block.read_mid, hy, List.length_cons, List.replicate_succ, Block.construct_mid, hrec,
      Block.destroy_mid]
    simp

theorem Vector.EmplaceBack_ofList_throws {α : Type} (ops : ElemOps α) (xs : List α) (a : α)
    (hcopy : ops.relocate_by_move = false) (hthrow : ∃ x ∈ xs, ops.copy_throws x = true) :
    (Vector.ofList xs xs.length).EmplaceBack ops (some a)
      = .threw (Vector.ofList xs xs.length) [a] := by
  have hsize : (Vector.ofList xs xs.length).size_ = xs.length := rfl
  have hcap : (Vector.ofList xs xs.length).Capacity = xs.length := rfl
  have hblock := Vector.block_ofList xs xs.length (Nat.le_refl _)
  simp only [Nat.sub_self, List.replicate_zero, List.append_nil] at hblock
  obtain ⟨ys, x, zs, hxs, hys, hx⟩ := exists_first_throwing ops.copy_throws xs hthrow
  unfold Vector.EmplaceBack
  simp only [hsize, hcap, if_true]
  generalize hncdef : (if xs.length = 0 then 1 else xs.length * 2) = nc
  have hnc : xs.length < nc := by
    rw [← hncdef]; split <;> omega
  have hnc0 : nc ≠ 0 := by omega
  rw [RawMemory.block_create, replicate_split nc xs.length hnc,
    Block.construct_at _ _ _ _ _ (by simp)]
  have hlen : xs.length = ys.length + 1 + zs.length := by
    rw [hxs]; simp; omega
  have hsrc : xs.map some = [] ++ ys.map some ++ some x :: zs.map some := by
    rw [hxs]; simp
  have hdst : List.replicate xs.length (none : Option α)
        ++ some a :: List.replicate (nc - xs.length - 1) none
      = [] ++ List.replicate ys.length none
        ++ (List.replicate (1 + zs.length) none
          ++ some a :: List.replicate (nc - xs.length - 1) none) := by
    have hrep : List.replicate xs.length (none : Option α)
        = List.replicate ys.length none ++ List.replicate (1 + zs.length) none := by
      rw [← List.replicate_add]
      congr 1
      omega
    rw [hrep, List.nil_append, List.append_assoc]
  have hu := uninitialized_copy_n_throws ops ys [] (zs.map some) x zs.length []
    (List.replicate (1 + zs.length) none ++ some a :: List.replicate (nc - xs.length - 1) none)
    hys hx
  rw [← hsrc, ← hdst, ← hlen] at hu
  simp only [List.length_nil] at hu
  simp only [hcopy, Bool.false_eq_true, if_false, hblock, hu, RawMemory.store_create nc hnc0]
  have hlive : RawMemory.Deallocate (some (List.replicate xs.length (none : Option α)
      ++ some a :: List.replicate (nc - xs.length - 1) none)) = [a] := by
    simp [RawMemory.Deallocate, Block.live, List.filterMap_append, List.filterMap_replicate_of_none]
  rw [hlive]

theorem uninitialized_copy_n_at {α : Type} (ops : ElemOps α) (xs : List α)
    (n first d_first : Nat) (spre spost dpre holes dpost : Block α)
    (hn : n = xs.length) (hf : first = spre.length) (hd : d_first = dpre.length)
    (hh : holes.length = xs.length) (hcopy : ∀ x ∈ xs, ops.copy_throws x = false) :
    uninitialized_copy_n ops (spre ++ xs.map some ++ spost) n first d_first
        (dpre ++ holes ++ dpost)
      = .ok (dpre ++ xs.map some ++ dpost) := by
  subst hn hf hd
  refine uninitialized_copy_n_mid ops _ xs _ dpre holes dpost hh (fun k hk => ?_) hcopy
  rw [List.get?_eq_getElem?, List.get?_eq_getElem?, List.append_assoc,
    List.getElem?_append_right (by omega), Nat.add_sub_cancel_left,
    List.getElem?_append_left (by simpa using hk)]
  simp [List.getElem?_map, List.getElem?_eq_getElem hk]

theorem uninitialized_move_n_at {α : Type} (ops : ElemOps α) (xs : List α)
    (n first d_first : Nat) (pre post dpre holes dpost : Block α)
    (hn : n = xs.length) (hf : first = pre.length) (hd : d_first = dpre.length)
    (hh : holes.length = xs.length) (hmove : ∀ x ∈ xs, ops.move_throws x = false) :
    uninitialized_move_n ops n first d_first (pre ++ xs.map some ++ post)
        (dpre ++ holes ++ dpost)
      = .ok (pre ++ (xs.map ops.moved_from).map some ++ post, dpre ++ xs.map some ++ dpost) := by
  subst hn hf hd
  exact uninitialized_move_n_mid ops xs pre post dpre holes dpost hh hmove

theorem move_assign_up {α : Type} (ops : ElemOps α) (pre rest : Block α) (m l0 : α)
    (i : Nat) (hi : i = pre.length) :
    ∃ l, move_assign ops (pre ++ some m :: some l0 :: rest) (i + 1) i
      = .ok (pre ++ some l :: some m :: rest) := by
  subst hi
  have hread : Block.read (pre ++ some m :: some l0 :: rest) pre.length = .ok m :=
    Block.read_mid pre _ m
  have hassign : Block.assign (pre ++ some m :: some l0 :: rest) (pre.length + 1) m
      = .ok (pre ++ some m :: some m :: rest) := by
    have := Block.assign_at (pre ++ [some m]) rest l0 m (pre.length + 1) (by simp)
    simpa using this
  have hset : ∀ w : Option α, (pre ++ some m :: some m :: rest).set pre.length w
      = pre ++ w :: some m :: rest := fun w => Block.set_mid pre _ (some m) w
  unfold move_assign
  simp only [hread, hassign]
  cases ops.is_move_assignable
  · exact ⟨m, by simp⟩
  · exact ⟨ops.moved_from m, by simp [hset]⟩

theorem move_backward_loop_mid {α : Type} (ops : ElemOps α) (ms : List α) :
    ∀ (pre post : Block α) (l0 : α) (last : Nat), last = pre.length + ms.length →
    ∃ l, move_backward_loop ops ms.length last (last + 1)
        (pre ++ ms.map some ++ some l0 :: post)
      = .ok (pre ++ some l :: (ms.map some ++ post)) := by
  induction ms using List.reverseRecOn with
  | nil =>
    intro pre post l0 last _
    exact ⟨l0, by simp [move_backward_loop]⟩
  | append_singleton ms m ih =>
    intro pre post l0 last hlast
    simp only [List.length_append, List.length_singleton] at hlast
    obtain ⟨l1, hstep⟩ := move_assign_up ops (pre ++ ms.map some) post m l0 (last - 1)
      (by simp; omega)
    obtain ⟨l, hl⟩ := ih pre (some m :: post) l1 (last - 1) (by omega)
    refine ⟨l, ?_⟩
    have h1 : last ≠ 0 := by omega
    have h2 : last - 1 + 1 = last := by omega
    rw [h2] at hstep hl
    simp only [List.length_append, List.length_singleton, move_backward_loop, h1, if_false,
      Nat.add_sub_cancel, List.map_append, List.map_cons, List.map_nil, List.append_assoc,
      List.singleton_append, Nat.add_one_ne_zero]
    simp only [List.append_assoc] at hstep hl
    rw [hstep]
    simp only [hl]

theorem Vector.Emplace_ofList_growth {α : Type} (ops : ElemOps α) (xs : List α) (n : Nat)
    (a : α) (hn : n ≤ xs.length) (hrel : ∀ x ∈ xs, ops.relocate_throws x = false) :
    (Vector.ofList xs xs.length).Emplace ops n (some a)
      = .ok (Vector.ofList (xs.take n ++ a :: xs.drop n)
          (if xs.length = 0 then 1 else xs.length * 2)) n [] := by
  have hsize : (Vector.ofList xs xs.length).size_ = xs.length := rfl
  have hcap : (Vector.ofList xs xs.length).Capacity = xs.length := rfl
  have hblock := Vector.block_ofList xs xs.length (Nat.le_refl _)
  simp only [Nat.sub_self, List.replicate_zero, List.append_nil] at hblock
  unfold Vector.Emplace
  simp only [hsize, hcap, if_true]
  generalize hncdef : (if xs.length = 0 then 1 else xs.length * 2) = nc
  have hnc : xs.length < nc := by
    rw [← hncdef]; split <;> omega
  have hnc0 : nc ≠ 0 := by omega
  have hlt : (xs.take n).length = n := by rw [List.length_take]; omega
  have hld : (xs.drop n).length = xs.length - n := List.length_drop _ _
  rw [RawMemory.block_create, replicate_split nc n (by omega),
    Block.construct_at _ _ _ _ _ (by simp)]
  -- the old block and the new block, cut at the insertion point
  have hold : xs.map some = [] ++ (xs.take n).map some ++ (xs.drop n).map some := by
    rw [List.nil_append, ← List.map_append, List.take_append_drop]
  have hnew1 : List.replicate n (none : Option α) ++ some a :: List.replicate (nc - n - 1) none
      = [] ++ List.replicate n none ++ some a :: List.replicate (nc - n - 1) none := rfl
  have hrest : List.replicate (nc - n - 1) (none : Option α)
      = List.replicate (xs.length - n) none ++ List.replicate (nc - xs.length - 1) none := by
    rw [← List.replicate_add]
    congr 1
    omega
  have hlen : (xs.take n ++ a :: xs.drop n).length = xs.length + 1 := by
    rw [List.length_append, List.length_cons, hlt, hld]; omega
  have hfin : Vector.mk (RawMemory.mk
        (some ((xs.take n).map some ++ some a :: ((xs.drop n).map some
          ++ List.replicate (nc - xs.length - 1) none))) nc)
      (xs.length + 1) = Vector.ofList (xs.take n ++ a :: xs.drop n) nc :=
    Vector.ofList_eq _ _ _ _ hnc0
      (by rw [hlen, List.map_append, List.map_cons, List.append_assoc, List.cons_append,
        Nat.sub_add_eq])
      hlen.symm
  simp only [hblock]
  by_cases hmv : ops.relocate_by_move = true
  · have hmove : ∀ x ∈ xs, ops.move_throws x = false := by
      intro x hx
      have := hrel x hx
      simpa [ElemOps.relocate_throws, hmv] using this
    have h1 := uninitialized_move_n_at ops (xs.take n) n 0 0 [] ((xs.drop n).map some) []
      (List.replicate n none) (some a :: List.replicate (nc - n - 1) none)
      hlt.symm rfl rfl (by rw [List.length_replicate, hlt])
      (fun x hx => hmove x (List.mem_of_mem_take hx))
    rw [← hold, ← hnew1] at h1
    have h2 := uninitialized_move_n_at ops (xs.drop n) (xs.length - n) n (n + 1)
      (((xs.take n).map ops.moved_from).map some) []
      ((xs.take n).map some ++ [some a]) (List.replicate (xs.length - n) none)
      (List.replicate (nc - xs.length - 1) none)
      hld.symm (by rw [List.length_map, List.length_map, hlt])
      (by rw [List.length_append, List.length_map, hlt]; rfl)
      (by rw [List.length_replicate, hld])
      (fun x hx => hmove x (List.mem_of_mem_drop hx))
    simp only [hrest, List.append_nil, List.nil_append, List.append_assoc,
      List.singleton_append, List.cons_append] at h1 h2 ⊢
    have hds := Vector.destroy_and_swap_ok (Vector.ofList xs xs.length)
      (xs.map ops.moved_from) 0 nc
      ((xs.take n).map some ++ some a :: ((xs.drop n).map some
          ++ List.replicate (nc - xs.length - 1) none))
      (by simp [Vector.ofList]) hnc0
    have hmf : (xs.map ops.moved_from).map some
        = ((xs.take n).map ops.moved_from).map some
          ++ ((xs.drop n).map ops.moved_from).map some := by
      rw [← List.map_append, ← List.map_append, List.take_append_drop]
    simp only [List.replicate_zero, List.append_nil, hmf] at hds
    simp only [hmv, if_true, h1, h2, hds, hfin]
  · have hcopy : ∀ x ∈ xs, ops.copy_throws x = false := by
      intro x hx
      have := hrel x hx
      simpa [ElemOps.relocate_throws, hmv] using this
    have h1 := uninitialized_copy_n_at ops (xs.take n) n 0 0 [] ((xs.drop n).map some) []
      (List.replicate n none) (some a :: List.replicate (nc - n - 1) none)
      hlt.symm rfl rfl (by rw [List.length_replicate, hlt])
      (fun x hx => hcopy x (List.mem_of_mem_take hx))
    rw [← hold, ← hnew1] at h1
    have h2 := uninitialized_copy_n_at ops (xs.drop n) (xs.length - n) n (n + 1)
      ((xs.take n).map some) []
      ((xs.take n).map some ++ [some a]) (List.replicate (xs.length - n) none)
      (List.replicate (nc - xs.length - 1) none)
      hld.symm (by rw [List.length_map, hlt])
      (by rw [List.length_append, List.length_map, hlt]; rfl)
      (by rw [List.length_replicate, hld])
      (fun x hx => hcopy x (List.mem_of_mem_drop hx))
    have hold2 : (xs.take n).map some ++ (xs.drop n).map some ++ [] = xs.map some := by
      rw [List.append_nil, ← List.map_append, List.take_append_drop]
    rw [hold2] at h2
    simp only [hrest, List.append_nil, List.nil_append, List.append_assoc,
      List.singleton_append, List.cons_append] at h1 h2 ⊢
    have hds := Vector.destroy_and_swap_ok (Vector.ofList xs xs.length) xs 0 nc
      ((xs.take n).map some ++ some a :: ((xs.drop n).map some
          ++ List.replicate (nc - xs.length - 1) none))
      (by simp [Vector.ofList]) hnc0
    simp only [List.replicate_zero, List.append_nil] at hds
    simp only [hmv, h1, h2, hds, hfin]
    rfl

theorem Vector.Emplace_in_place_parts {α : Type} (ops : ElemOps α) (pre mid : List α)
    (lastx a : α) (cap : Nat) (hcap : pre.length + mid.length + 1 < cap)
    (hrel : ops.relocate_throws lastx = false) :
    (Vector.ofList (pre ++ mid ++ [lastx]) cap).Emplace ops pre.length (some a)
      = .ok (Vector.ofList (pre ++ a :: mid ++ [lastx]) cap) pre.length [] := by
  have hlen : (pre ++ mid ++ [lastx]).length = pre.length + mid.length + 1 := by
    simp only [List.length_append, List.length_singleton]
  have hsize : (Vector.ofList (pre ++ mid ++ [lastx]) cap).size_
      = pre.length + mid.length + 1 := hlen
  have hcapv : (Vector.ofList (pre ++ mid ++ [lastx]) cap).Capacity = cap := rfl
  have hc0 : cap ≠ 0 := by omega
  have hblock : (Vector.ofList (pre ++ mid ++ [lastx]) cap).data_.block
      = (pre.map some ++ mid.map some) ++ some lastx ::
          (none :: List.replicate (cap - (pre.length + mid.length + 1) - 1) none) := by
    rw [Vector.block_ofList _ cap (by omega), hlen,
      replicate_split (cap - (pre.length + mid.length + 1)) 0 (by omega)]
    simp
  have hne : ¬ (pre.length + mid.length + 1 = cap) := by omega
  have hread : Block.read ((pre.map some ++ mid.map some) ++ some lastx ::
      (none :: List.replicate (cap - (pre.length + mid.length + 1) - 1) none))
      (pre.length + mid.length) = .ok lastx :=
    Block.read_at _ _ _ _ (by simp)
  have hcons : Block.construct ((pre.map some ++ mid.map some) ++ some lastx ::
      (none :: List.replicate (cap - (pre.length + mid.length + 1) - 1) none))
      (pre.length + mid.length + 1) lastx
      = .ok ((pre.map some ++ mid.map some) ++ some lastx ::
        (some lastx :: List.replicate (cap - (pre.length + mid.length + 1) - 1) none)) := by
    have := Block.construct_at ((pre.map some ++ mid.map some) ++ [some lastx])
      (List.replicate (cap - (pre.length + mid.length + 1) - 1) none) none lastx
      (pre.length + mid.length + 1)
      (by simp only [List.length_append, List.length_map, List.length_singleton])
    simp only [List.append_assoc, List.singleton_append] at this ⊢
    exact this
  have hset : ∀ w : Option α, ((pre.map some ++ mid.map some) ++ some lastx ::
        (some lastx :: List.replicate (cap - (pre.length + mid.length + 1) - 1) none)).set
        (pre.length + mid.length) w
      = (pre.map some ++ mid.map some) ++ w ::
        (some lastx :: List.replicate (cap - (pre.length + mid.length + 1) - 1) none) := by
    intro w
    have := Block.set_mid (pre.map some ++ mid.map some)
      (some lastx :: List.replicate (cap - (pre.length + mid.length + 1) - 1) none)
      (some lastx) w
    simp only [List.length_append, List.length_map] at this
    exact this
  have hthrow : (if ops.relocate_by_move then ops.move_throws lastx
      else ops.copy_throws lastx) = false := hrel
  -- whichever way the last element was relocated, its old slot holds a live object
  obtain ⟨l0, hb1⟩ : ∃ l0, (if ops.relocate_by_move = true then
        ((pre.map some ++ mid.map some) ++ some lastx ::
          (some lastx :: List.replicate (cap - (pre.length + mid.length + 1) - 1) none)).set
          (pre.length + mid.length) (some (ops.moved_from lastx))
      else (pre.map some ++ mid.map some) ++ some lastx ::
          (some lastx :: List.replicate (cap - (pre.length + mid.length + 1) - 1) none))
      = pre.map some ++ mid.map some ++ some l0 ::
          (some lastx :: List.replicate (cap - (pre.length + mid.length + 1) - 1) none) := by
    by_cases hmv : ops.relocate_by_move = true
    · exact ⟨ops.moved_from lastx, by rw [if_pos hmv, hset]⟩
    · exact ⟨lastx, by rw [if_neg hmv]⟩
  obtain ⟨l, hloop⟩ := move_backward_loop_mid ops mid (pre.map some)
    (some lastx :: List.replicate (cap - (pre.length + mid.length + 1) - 1) none) l0
    (pre.length + mid.length) (by simp)
  have hmb : move_backward ops pre.length (pre.length + mid.length)
      (pre.length + mid.length + 1)
      (pre.map some ++ mid.map some ++ some l0 ::
          (some lastx :: List.replicate (cap - (pre.length + mid.length + 1) - 1) none))
      = .ok (pre.map some ++ some l :: (mid.map some ++
          (some lastx :: List.replicate (cap - (pre.length + mid.length + 1) - 1) none))) := by
    unfold move_backward
    have hnlt : ¬ (pre.length + mid.length < pre.length) := by omega
    rw [if_neg hnlt, Nat.add_sub_cancel_left, hloop]
  have hassign : Block.assign (pre.map some ++ some l :: (mid.map some ++
          (some lastx :: List.replicate (cap - (pre.length + mid.length + 1) - 1) none)))
      pre.length a
      = .ok (pre.map some ++ some a :: (mid.map some ++
          (some lastx :: List.replicate (cap - (pre.length + mid.length + 1) - 1) none))) :=
    Block.assign_at _ _ _ _ _ (by simp)
  unfold Vector.Emplace
  simp only [hsize, hcapv, hne, if_false, Nat.add_one_ne_zero, Nat.add_sub_cancel, hblock,
    hread, hthrow, Bool.false_eq_true, hcons, hb1, hmb, hassign,
    Vector.store_ofList _ _ _ hc0]
  rw [Vector.ofList_eq (pre ++ a :: mid ++ [lastx]) _ cap _ hc0 ?_ ?_]
  · have : cap - (pre ++ a :: mid ++ [lastx]).length
        = cap - (pre.length + mid.length + 1) - 1 := by
      simp; omega
    rw [this]
    simp
  · simp only [List.length_append, List.length_cons, List.length_singleton, List.length_nil]
    omega


theorem Vector.Emplace_ofList_in_place {α : Type} (ops : ElemOps α) (xs : List α)
    (cap n : Nat) (a : α) (hn : n < xs.length) (hcap : xs.length < cap)
    (hrel : ∀ x ∈ xs, ops.relocate_throws x = false) :
    (Vector.ofList xs cap).Emplace ops n (some a)
      = .ok (Vector.ofList (xs.take n ++ a :: xs.drop n) cap) n [] := by
  have hne : xs ≠ [] := by
    intro h; rw [h] at hn; exact absurd hn (by simp)
  have hxs : xs = xs.dropLast ++ [xs.getLast hne] := (List.dropLast_append_getLast hne).symm
  have hdl : xs.dropLast.length = xs.length - 1 := List.length_dropLast xs
  have hfront : xs.dropLast = (xs.dropLast).take n ++ (xs.dropLast).drop n :=
    (List.take_append_drop n _).symm
  have hlt : ((xs.dropLast).take n).length = n := by rw [List.length_take]; omega
  have hld : ((xs.dropLast).drop n).length = xs.length - 1 - n := by
    rw [List.length_drop, hdl]
  have hp := Vector.Emplace_in_place_parts ops ((xs.dropLast).take n) ((xs.dropLast).drop n)
    (xs.getLast hne) a cap (by rw [hlt, hld]; omega)
    (hrel _ (List.getLast_mem hne))
  rw [← hfront, ← hxs, hlt] at hp
  rw [hp]
  have htake : xs.take n = (xs.dropLast).take n := by
    conv_lhs => rw [hxs]
    rw [List.take_append_of_le_length (by omega)]
  have hdrop : xs.drop n = (xs.dropLast).drop n ++ [xs.getLast hne] := by
    conv_lhs => rw [hxs]
    rw [List.drop_append_of_le_length (by omega)]
  rw [htake, hdrop]
  simp only [List.append_assoc, List.cons_append]

theorem Vector.Emplace_ofList {α : Type} (ops : ElemOps α) (xs : List α) (cap n : Nat) (a : α)
    (hle : xs.length ≤ cap) (hn : n ≤ xs.length) (hpath : xs.length = cap ∨ n < xs.length)
    (hrel : ∀ x ∈ xs, ops.relocate_throws x = false) :
    (Vector.ofList xs cap).Emplace ops n (some a)
      = .ok (Vector.ofList (xs.take n ++ a :: xs.drop n)
          (if xs.length = cap then (if xs.length = 0 then 1 else xs.length * 2) else cap))
          n [] := by
  by_cases hfull : xs.length = cap
  · subst hfull
    rw [if_pos rfl]
    exact Vector.Emplace_ofList_growth ops xs n a hn hrel
  · rw [if_neg hfull]
    rcases hpath with h | h
    · exact absurd h hfull
    · exact Vector.Emplace_ofList_in_place ops xs cap n a h (by omega) hrel

theorem Vector.Emplace_at_end_in_place {α : Type} (ops : ElemOps α) (xs : List α) (cap : Nat)
    (a : α) (hcap : xs.length < cap) (hrel : ∀ x ∈ xs, ops.relocate_throws x = false) :
    (Vector.ofList xs cap).Emplace ops xs.length (some a)
      = .ub (if xs.length = 0 then .read_not_live (-1)
          else .invalid_range xs.length (xs.length - 1 : Nat)) := by
  have hsize : (Vector.ofList xs cap).size_ = xs.length := rfl
  have hcapv : (Vector.ofList xs cap).Capacity = cap := rfl
  have hne : ¬ xs.length = cap := by omega
  unfold Vector.Emplace
  simp only [hsize, hcapv, hne, if_false]
  by_cases h0 : xs.length = 0
  · simp only [h0, if_true]
  · have hnil : xs ≠ [] := fun h => h0 (by rw [h]; rfl)
    have hxs : xs = xs.dropLast ++ [xs.getLast hnil] :=
      (List.dropLast_append_getLast hnil).symm
    have hdl : xs.dropLast.length = xs.length - 1 := List.length_dropLast xs
    have hblock : (Vector.ofList xs cap).data_.block
        = xs.dropLast.map some ++ some (xs.getLast hnil) ::
            (none :: List.replicate (cap - xs.length - 1) none) := by
      have hm : xs.map some = xs.dropLast.map some ++ [some (xs.getLast hnil)] := by
        conv_lhs => rw [hxs]
        rw [List.map_append, List.map_singleton]
      rw [Vector.block_ofList xs cap (by omega), replicate_split (cap - xs.length) 0 (by omega),
        hm]
      simp
    have hthrow : (if ops.relocate_by_move then ops.move_throws (xs.getLast hnil)
        else ops.copy_throws (xs.getLast hnil)) = false := hrel _ (List.getLast_mem hnil)
    have hcons : Block.construct (xs.dropLast.map some ++ some (xs.getLast hnil) ::
          (none :: List.replicate (cap - xs.length - 1) none)) xs.length (xs.getLast hnil)
        = .ok (xs.dropLast.map some ++ some (xs.getLast hnil) ::
          (some (xs.getLast hnil) :: List.replicate (cap - xs.length - 1) none)) := by
      have := Block.construct_at (xs.dropLast.map some ++ [some (xs.getLast hnil)])
        (List.replicate (cap - xs.length - 1) none) none (xs.getLast hnil) xs.length
        (by rw [List.length_append, List.length_map, hdl, List.length_singleton]; omega)
      simp only [List.append_assoc, List.singleton_append] at this
      exact this
    have hlt : xs.length - 1 < xs.length := by omega
    simp only [h0, if_false, hblock,
      Block.read_at _ _ _ _ (show xs.length - 1 = (xs.dropLast.map some).length by
        rw [List.length_map, hdl]),
      hthrow, Bool.false_eq_true, hcons, move_backward, hlt, if_true]

theorem List_eraseIdx_insert {α : Type} (xs : List α) (n : Nat) (a : α) (hn : n ≤ xs.length) :
    (xs.take n ++ a :: xs.drop n).eraseIdx n = xs := by
  have hlt : (xs.take n).length = n := by rw [List.length_take]; omega
  rw [List.eraseIdx_eq_take_drop_succ, List.take_left' hlt,
    show n + 1 = (xs.take n ++ [a]).length by simp [hlt],
    show xs.take n ++ a :: xs.drop n = (xs.take n ++ [a]) ++ xs.drop n by simp,
    List.drop_left, List.take_append_drop]

theorem Vector.insert_then_erase_ofList {α : Type} (ops : ElemOps α) (xs : List α)
    (cap p : Nat) (value : α) (hle : xs.length ≤ cap) (hp : p ≤ xs.length)
    (hpath : xs.length = cap ∨ p < xs.length)
    (hcopy : ops.copy_throws value = false)
    (hrel : ∀ x ∈ xs, ops.relocate_throws x = false) :
    (Vector.ofList xs cap).insert_then_erase ops p value
      = .ok (Vector.ofList xs
          (if xs.length = cap then (if xs.length = 0 then 1 else xs.length * 2) else cap))
          p [] := by
  have hE := Vector.Emplace_ofList ops xs cap p value hle hp hpath hrel
  have hb := grown_capacity_bounds xs.length cap hle
  generalize (if xs.length = cap then (if xs.length = 0 then 1 else xs.length * 2) else cap)
    = nc at hE hb ⊢
  have hlen : (xs.take p ++ value :: xs.drop p).length = xs.length + 1 := by
    rw [List.length_append, List.length_cons, List.length_take, List.length_drop]; omega
  have hEr := Vector.Erase_ofList ops (xs.take p ++ value :: xs.drop p) nc p
    (by omega) (by omega)
  rw [List_eraseIdx_insert xs p value hp] at hEr
  unfold Vector.insert_then_erase Vector.Insert
  rw [hcopy]
  simp only [Bool.false_eq_true, if_false, hE, hEr, List.append_nil]

/-! ## Lemmas on `Reserve`, `Resize`, copies, capacity and runs of calls -/

theorem Vector.Reserve_ofList_noop {α : Type} (ops : ElemOps α) (xs : List α)
    (cap nc : Nat) (hnc : nc ≤ cap) :
    (Vector.ofList xs cap).Reserve ops nc = .ok (Vector.ofList xs cap) () [] := by
  have hcap : (Vector.ofList xs cap).Capacity = cap := rfl
  unfold Vector.Reserve
  rw [hcap, if_pos hnc]

theorem RawMemory.create_size_t_grants {α : Type} (ops : ElemOps α) (n : Nat)
    (hgr : ops.grants n) : RawMemory.create_size_t ops n = some (RawMemory.create n) := by
  obtain ⟨hsz, hfit, hnew⟩ := hgr
  unfold RawMemory.create_size_t RawMemory.Allocate_size_t RawMemory.create RawMemory.Allocate
  by_cases h0 : n = 0
  · simp [h0]
  · simp only [ne_eq, h0, not_false_eq_true, if_true, Nat.mod_eq_of_lt hfit, hnew,
      Bool.false_eq_true, if_false, Nat.mul_div_cancel n hsz]

theorem Vector.Reserve_ofList {α : Type} (ops : ElemOps α) (xs : List α) (cap nc : Nat)
    (h : xs.length ≤ cap) (hnc : cap < nc) (hgr : ops.grants nc)
    (hrel : ∀ x ∈ xs, ops.relocate_throws x = false) :
    (Vector.ofList xs cap).Reserve ops nc = .ok (Vector.ofList xs nc) () [] := by
  have hcreate := RawMemory.create_size_t_grants ops nc hgr
  have hsize : (Vector.ofList xs cap).size_ = xs.length := rfl
  have hcap : (Vector.ofList xs cap).Capacity = cap := rfl
  have hblock := Vector.block_ofList xs cap h
  have hnc0 : nc ≠ 0 := by omega
  have hnle : ¬ nc ≤ cap := by omega
  have hnew : List.replicate nc (none : Option α)
      = List.replicate xs.length none ++ List.replicate (nc - xs.length) none := by
    rw [← List.replicate_add]
    congr 1
    omega
  have hfin : Vector.mk (RawMemory.mk
        (some (xs.map some ++ List.replicate (nc - xs.length) none)) nc) xs.length
      = Vector.ofList xs nc := Vector.ofList_eq _ _ _ _ hnc0 rfl rfl
  unfold Vector.Reserve
  simp only [hsize, hcap, hnle, if_false, hcreate, hblock, RawMemory.block_create, hnew]
  by_cases hmv : ops.relocate_by_move = true
  · have hmove : ∀ x ∈ xs, ops.move_throws x = false := by
      intro x hx
      have := hrel x hx
      simpa [ElemOps.relocate_throws, hmv] using this
    have hm := uninitialized_move_n_front ops xs xs.length
      (List.replicate (cap - xs.length) none) (List.replicate (nc - xs.length) none) rfl hmove
    have hds := Vector.destroy_and_swap_ok (Vector.ofList xs cap)
      (xs.map ops.moved_from) (cap - xs.length) nc
      (xs.map some ++ List.replicate (nc - xs.length) none)
      (by simp [Vector.ofList]) hnc0
    simp only [hmv, if_true, hm, hds, hfin]
  · have hcopy : ∀ x ∈ xs, ops.copy_throws x = false := by
      intro x hx
      have := hrel x hx
      simpa [ElemOps.relocate_throws, hmv] using this
    have hc := uninitialized_copy_n_front ops xs xs.length
      (List.replicate (cap - xs.length) none) (List.replicate (nc - xs.length) none) rfl hcopy
    have hds := Vector.destroy_and_swap_ok (Vector.ofList xs cap) xs (cap - xs.length) nc
      (xs.map some ++ List.replicate (nc - xs.length) none)
      (by simp [Vector.ofList]) hnc0
    simp only [hmv, hc, hds, hfin]
    rfl

theorem Vector.PopBack_ofList {α : Type} (xs : List α) (cap : Nat) (h : xs.length ≤ cap)
    (hne : xs ≠ []) :
    (Vector.ofList xs cap).PopBack = .ok (Vector.ofList xs.dropLast cap) () [] := by
  have hsize : (Vector.ofList xs cap).size_ = xs.length := rfl
  have hpos : 0 < xs.length := List.length_pos.mpr hne
  have hc0 : cap ≠ 0 := by omega
  have hxs : xs = xs.dropLast ++ [xs.getLast hne] := (List.dropLast_append_getLast hne).symm
  have hdl : xs.dropLast.length = xs.length - 1 := List.length_dropLast xs
  have hm : xs.map some = xs.dropLast.map some ++ [some (xs.getLast hne)] := by
    conv_lhs => rw [hxs]
    rw [List.map_append, List.map_singleton]
  have hblock : (Vector.ofList xs cap).data_.block
      = xs.dropLast.map some ++ some (xs.getLast hne) ::
          List.replicate (cap - xs.length) none := by
    rw [Vector.block_ofList xs cap h, hm, List.append_assoc, List.singleton_append]
  have hn0 : ¬ xs.length = 0 := by omega
  unfold Vector.PopBack
  simp only [hsize, hn0, if_false, hblock, destroy_n]
  rw [Block.destroy_at _ _ _ _ (by rw [List.length_map, hdl])]
  simp only [Vector.store_ofList _ _ _ hc0]
  rw [Vector.ofList_eq xs.dropLast _ cap _ hc0 ?_ hdl.symm]
  rw [hdl]
  have : cap - (xs.length - 1) = (cap - xs.length) + 1 := by omega
  rw [this, List.replicate_succ]

theorem uninitialized_value_construct_n_mid {α : Type} (ops : ElemOps α) (ds : List α) :
    ∀ (k0 : Nat) (pre holes post : Block α), holes.length = ds.length →
    (∀ k, k < ds.length → ops.value_init (k0 + k) = ds.get? k) →
    uninitialized_value_construct_n ops ds.length pre.length k0 (pre ++ holes ++ post)
      = .ok (pre ++ ds.map some ++ post) := by
  induction ds with
  | nil =>
    intro k0 pre holes post hl _
    have : holes = [] := List.length_eq_zero.mp hl
    simp [uninitialized_value_construct_n, this]
  | cons d ds ih =>
    intro k0 pre holes post hl hinit
    match holes, hl with
    | h :: hs, hl =>
      have h0 : ops.value_init k0 = some d := by simpa using hinit 0 (by simp)
      have hrec := ih (k0 + 1) (pre ++ [some d]) hs post (by simpa using hl)
        (fun k hk => by
          have := hinit (k + 1) (by simpa using hk)
          simpa [Nat.add_assoc, Nat.add_comm 1 k] using this)
      simp only [List.length_append, List.length_singleton, List.append_assoc,
        List.singleton_append, List.cons_append, List.nil_append] at hrec
      simp only [List.length_cons, uninitialized_value_construct_n, h0, List.append_assoc,
        List.cons_append, Block.construct_mid, hrec, List.map_cons]

theorem uninitialized_value_construct_n_throws {α : Type} (ops : ElemOps α) :
    ∀ (n k0 : Nat) (pre post : Block α),
    (∃ k, k < n ∧ ops.value_init (k0 + k) = none) →
    uninitialized_value_construct_n ops n pre.length k0
        (pre ++ List.replicate n none ++ post)
      = .threw (pre ++ List.replicate n none ++ post) := by
  intro n
  induction n with
  | zero =>
    intro k0 pre post h
    obtain ⟨k, hk, _⟩ := h
    exact absurd hk (Nat.not_lt_zero k)
  | succ n ih =>
    intro k0 pre post h
    rcases hv : ops.value_init k0 with _ | a
    · simp only [uninitialized_value_construct_n, hv]
    · have hex : ∃ k, k < n ∧ ops.value_init (k0 + 1 + k) = none := by
        obtain ⟨k, hk, hnone⟩ := h
        rcases k with _ | k
        · rw [Nat.add_zero, hv] at hnone
          cases hnone
        · exact ⟨k, by omega, by rw [← hnone]; congr 1; omega⟩
      have hrec := ih (k0 + 1) (pre ++ [some a]) post hex
      simp only [List.length_append, List.length_singleton, List.append_assoc,
        List.singleton_append, List.cons_append, List.nil_append] at hrec
      simp only [uninitialized_value_construct_n, hv, List.replicate_succ, List.append_assoc,
        List.cons_append, Block.construct_mid, hrec, Block.destroy_mid]

theorem RawMemory.store_block {α : Type} (m : RawMemory α) : m.store m.block = m := by
  rcases m with ⟨_ | b, c⟩ <;> rfl

theorem Vector.Reserve_ofList_max {α : Type} (ops : ElemOps α) (xs : List α) (cap nc : Nat)
    (h : xs.length ≤ cap) (hgr : cap < nc → ops.grants nc)
    (hrel : cap < nc → ∀ x ∈ xs, ops.relocate_throws x = false) :
    (Vector.ofList xs cap).Reserve ops nc = .ok (Vector.ofList xs (max cap nc)) () [] := by
  by_cases hnc : nc ≤ cap
  · rw [Nat.max_eq_left hnc]
    exact Vector.Reserve_ofList_noop ops xs cap nc hnc
  · rw [Nat.max_eq_right (by omega)]
    exact Vector.Reserve_ofList ops xs cap nc h (by omega) (hgr (by omega)) (hrel (by omega))

theorem Vector.Resize_grow_ofList {α : Type} (ops : ElemOps α) (xs ds : List α)
    (cap new_size : Nat) (h : xs.length ≤ cap) (hgrow : xs.length < new_size)
    (hgr : cap < new_size → ops.grants new_size)
    (hrel : cap < new_size → ∀ x ∈ xs, ops.relocate_throws x = false)
    (hds : ds.length = new_size - xs.length)
    (hinit : ∀ k, k < ds.length → ops.value_init k = ds.get? k) :
    (Vector.ofList xs cap).Resize ops new_size
      = .ok (Vector.ofList (xs ++ ds) (max cap new_size)) () [] := by
  have hsize : (Vector.ofList xs cap).size_ = xs.length := rfl
  have hnlt : ¬ new_size < xs.length := by omega
  have hR := Vector.Reserve_ofList_max ops xs cap new_size h hgr hrel
  have hle2 : xs.length ≤ max cap new_size := by omega
  have hc0 : max cap new_size ≠ 0 := by omega
  have hblock2 := Vector.block_ofList xs (max cap new_size) hle2
  have hsplit : List.replicate (max cap new_size - xs.length) (none : Option α)
      = List.replicate (new_size - xs.length) none
        ++ List.replicate (max cap new_size - new_size) none := by
    rw [← List.replicate_add]
    congr 1
    omega
  have hu := uninitialized_value_construct_n_mid ops ds 0 (xs.map some)
    (List.replicate ds.length none) (List.replicate (max cap new_size - new_size) none)
    (by simp) (fun k hk => by rw [Nat.zero_add]; exact hinit k hk)
  rw [List.length_map, hds] at hu
  have heta : Vector.mk (Vector.ofList xs cap).data_ xs.length = Vector.ofList xs cap := rfl
  have hsize2 : (Vector.ofList xs (max cap new_size)).size_ = xs.length := rfl
  unfold Vector.Resize
  simp only [hsize, hnlt, if_false, RawMemory.store_block, gt_iff_lt, hgrow, if_true, heta, hR,
    hsize2, hblock2, hsplit, ← List.append_assoc, hu, Vector.store_ofList _ _ _ hc0]
  rw [Vector.ofList_eq (xs ++ ds) _ (max cap new_size) _ hc0 ?_ ?_]
  · rw [List.map_append, List.length_append, hds]
    congr 2
    omega
  · rw [List.length_append, hds]; omega

theorem Vector.Resize_grow_ofList_throws {α : Type} (ops : ElemOps α) (xs : List α)
    (cap new_size : Nat) (h : xs.length ≤ cap) (hgrow : xs.length < new_size)
    (hgr : cap < new_size → ops.grants new_size)
    (hrel : cap < new_size → ∀ x ∈ xs, ops.relocate_throws x = false)
    (hfail : ∃ k, k < new_size - xs.length ∧ ops.value_init k = none) :
    (Vector.ofList xs cap).Resize ops new_size
      = .threw (Vector.ofList xs (max cap new_size)) [] := by
  have hsize : (Vector.ofList xs cap).size_ = xs.length := rfl
  have hnlt : ¬ new_size < xs.length := by omega
  have hR := Vector.Reserve_ofList_max ops xs cap new_size h hgr hrel
  have hle2 : xs.length ≤ max cap new_size := by omega
  have hc0 : max cap new_size ≠ 0 := by omega
  have hblock2 := Vector.block_ofList xs (max cap new_size) hle2
  have hsplit : List.replicate (max cap new_size - xs.length) (none : Option α)
      = List.replicate (new_size - xs.length) none
        ++ List.replicate (max cap new_size - new_size) none := by
    rw [← List.replicate_add]
    congr 1
    omega
  have hu := uninitialized_value_construct_n_throws ops (new_size - xs.length) 0 (xs.map some)
    (List.replicate (max cap new_size - new_size) none)
    (by obtain ⟨k, hk, hn⟩ := hfail; exact ⟨k, hk, by rw [Nat.zero_add]; exact hn⟩)
  rw [List.length_map] at hu
  have heta : Vector.mk (Vector.ofList xs cap).data_ xs.length = Vector.ofList xs cap := rfl
  have hsize2 : (Vector.ofList xs (max cap new_size)).size_ = xs.length := rfl
  unfold Vector.Resize
  simp only [hsize, hnlt, if_false, RawMemory.store_block, gt_iff_lt, hgrow, if_true, heta, hR,
    hsize2, hblock2, hsplit, ← List.append_assoc, hu, Vector.store_ofList _ _ _ hc0]
  rw [Vector.ofList_eq xs _ (max cap new_size) _ hc0 ?_ rfl]
  rw [List.append_assoc, ← hsplit]

theorem Vector.copy_construct_ofList {α : Type} (ops : ElemOps α) (xs : List α) (cap : Nat)
    (h : xs.length ≤ cap) (hcopy : ∀ x ∈ xs, ops.copy_throws x = false) :
    Vector.copy_construct ops (Vector.ofList xs cap)
      = .ok (Vector.ofList xs xs.length, []) := by
  have hsize : (Vector.ofList xs cap).size_ = xs.length := rfl
  have hblock := Vector.block_ofList xs cap h
  have hc := uninitialized_copy_n_front ops xs xs.length
    (List.replicate (cap - xs.length) none) [] rfl hcopy
  simp only [List.append_nil] at hc
  unfold Vector.copy_construct
  simp only [hsize, hblock, RawMemory.block_create, hc]
  by_cases h0 : xs.length = 0
  · have hnil : xs = [] := List.length_eq_zero.mp h0
    subst hnil
    rfl
  · rw [RawMemory.store_create _ h0,
      Vector.ofList_eq xs _ xs.length _ h0 (by simp) rfl]

theorem Vector.copy_construct_ofList_throws {α : Type} (ops : ElemOps α) (xs : List α)
    (cap : Nat) (h : xs.length ≤ cap) (hthrow : ∃ x ∈ xs, ops.copy_throws x = true) :
    Vector.copy_construct ops (Vector.ofList xs cap) = .threw (Vector.empty, []) := by
  have hsize : (Vector.ofList xs cap).size_ = xs.length := rfl
  have hblock := Vector.block_ofList xs cap h
  obtain ⟨ys, x, zs, hxs, hys, hx⟩ := exists_first_throwing ops.copy_throws xs hthrow
  have hlen : xs.length = ys.length + 1 + zs.length := by
    rw [hxs]; simp; omega
  have hn0 : xs.length ≠ 0 := by omega
  have hsrc : xs.map some ++ List.replicate (cap - xs.length) none
      = [] ++ ys.map some ++ some x :: (zs.map some ++ List.replicate (cap - xs.length) none) := by
    rw [hxs]; simp
  have hdst : List.replicate xs.length (none : Option α)
      = [] ++ List.replicate ys.length none ++ List.replicate (1 + zs.length) none := by
    rw [List.nil_append, ← List.replicate_add]
    congr 1
    omega
  have hu := uninitialized_copy_n_throws ops ys []
    (zs.map some ++ List.replicate (cap - xs.length) none) x zs.length []
    (List.replicate (1 + zs.length) none) hys hx
  rw [← hsrc, ← hdst, ← hlen] at hu
  simp only [List.length_nil] at hu
  unfold Vector.copy_construct
  simp only [hsize, hblock, RawMemory.block_create, hu, RawMemory.store_create _ hn0,
    RawMemory.Deallocate, Block.live_replicate]

theorem copy_n_mid {α : Type} (src : Block α) (zs : List α) :
    ∀ (first : Nat) (dpre dpost : Block α) (ws : List α), ws.length = zs.length →
    (∀ k, k < zs.length → src.get? (first + k) = some (zs.get? k)) →
    copy_n src zs.length first dpre.length (dpre ++ ws.map some ++ dpost)
      = .ok (dpre ++ zs.map some ++ dpost) := by
  induction zs with
  | nil =>
    intro first dpre dpost ws hl _
    have : ws = [] := List.length_eq_zero.mp hl
    simp [copy_n, this]
  | cons z zs ih =>
    intro first dpre dpost ws hl hsrc
    match ws, hl with
    | w :: ws, hl =>
      have h0 : src.get? first = some (some z) := by simpa using hsrc 0 (by simp)
      have hrec := ih (first + 1) (dpre ++ [some z]) dpost ws (by simpa using hl)
        (fun k hk => by
          have := hsrc (k + 1) (by simpa using hk)
          simpa [Nat.add_assoc, Nat.add_comm 1 k] using this)
      simp only [List.length_append, List.length_singleton, List.append_assoc,
        List.singleton_append, List.cons_append, List.nil_append] at hrec
      simp only [List.length_cons, copy_n, Block.read, h0, List.map_cons, List.append_assoc,
        List.cons_append, Block.assign_mid, hrec]

theorem copy_n_front {α : Type} (zs ws : List α) (n : Nat) (stail dtail : Block α)
    (hn : n = zs.length) (hw : ws.length = zs.length) :
    copy_n (zs.map some ++ stail) n 0 0 (ws.map some ++ dtail)
      = .ok (zs.map some ++ dtail) := by
  subst hn
  have h := copy_n_mid (zs.map some ++ stail) zs 0 [] dtail ws hw
    (fun k hk => by
      rw [Nat.zero_add, List.get?_eq_getElem?, List.get?_eq_getElem?,
        List.getElem?_append_left (by simpa using hk)]
      simp [List.getElem?_map, List.getElem?_eq_getElem hk])
  simpa using h

theorem Block.objects_mid {α : Type} (pre post : Block α) (zs : List α) (first n : Nat)
    (hf : first = pre.length) (hn : n = zs.length) :
    Block.objects (pre ++ zs.map some ++ post) first n = zs := by
  subst hf hn
  unfold Block.objects
  rw [List.append_assoc, List.drop_left,
    show zs.length = (zs.map some).length by simp, List.take_left]
  induction zs with
  | nil => rfl
  | cons z zs ih => simp

theorem Vector.destruct_ofList {α : Type} (xs : List α) (cap : Nat) (h : xs.length ≤ cap) :
    (Vector.ofList xs cap).destruct = .ok (xs, []) := by
  have hsize : (Vector.ofList xs cap).size_ = xs.length := rfl
  have hblock := Vector.block_ofList xs cap h
  have hd := destroy_n_mid xs [] (List.replicate (cap - xs.length) none)
  simp only [List.length_nil, List.nil_append] at hd
  have ho := Block.objects_mid [] (List.replicate (cap - xs.length) none) xs 0 xs.length rfl rfl
  simp only [List.nil_append] at ho
  have hl : RawMemory.Deallocate ((Vector.ofList xs cap).data_.store
      (List.replicate xs.length none ++ List.replicate (cap - xs.length) none)).buffer_ = [] := by
    unfold RawMemory.store RawMemory.Deallocate
    rcases hb : (Vector.ofList xs cap).data_.buffer_ with _ | b
    · simp [hb]
    · simp only [← List.replicate_add]
      exact Block.live_replicate _
  unfold Vector.destruct
  simp only [hsize, hblock, hd, ho, hl]

theorem Vector.operator_assign_small {α : Type} (ops : ElemOps α) (xs ys : List α)
    (cap capr : Nat) (h : xs.length ≤ cap) (hr : ys.length ≤ capr) (hcase : cap < ys.length)
    (hcopy : ∀ y ∈ ys, ops.copy_throws y = false) :
    (Vector.ofList xs cap).operator_assign ops (Vector.ofList ys capr) false
      = .ok { self := Vector.ofList ys ys.length, rhs := Vector.ofList ys capr,
              destroyed := xs, leaked := [] } := by
  have hcapv : (Vector.ofList xs cap).data_.Capacity = cap := rfl
  have hsizer : (Vector.ofList ys capr).size_ = ys.length := rfl
  have hcc := Vector.copy_construct_ofList ops ys capr hr hcopy
  have hsw : Vector.Swap (Vector.ofList xs cap) (Vector.ofList ys ys.length)
      = (Vector.ofList ys ys.length, Vector.ofList xs cap) := rfl
  have hd := Vector.destruct_ofList xs cap h
  unfold Vector.operator_assign
  simp only [Bool.false_eq_true, if_false, hcapv, hsizer, hcase, if_true, hcc, hsw, hd,
    List.append_nil]

theorem Vector.operator_assign_small_throws {α : Type} (ops : ElemOps α) (self : Vector α)
    (ys : List α) (capr : Nat) (hr : ys.length ≤ capr) (hcase : self.Capacity < ys.length)
    (hthrow : ∃ y ∈ ys, ops.copy_throws y = true) :
    self.operator_assign ops (Vector.ofList ys capr) false
      = .threw { self := self, rhs := Vector.ofList ys capr, destroyed := [], leaked := [] } := by
  have hcapv : self.data_.Capacity = self.Capacity := rfl
  have hsizer : (Vector.ofList ys capr).size_ = ys.length := rfl
  have hcc := Vector.copy_construct_ofList_throws ops ys capr hr hthrow
  unfold Vector.operator_assign
  simp only [Bool.false_eq_true, if_false, hcapv, hsizer, hcase, if_true, hcc]

theorem Vector.operator_assign_shrink {α : Type} (ops : ElemOps α) (xs ys : List α)
    (cap capr : Nat) (h : xs.length ≤ cap) (hr : ys.length ≤ capr)
    (hcase : ys.length ≤ xs.length) :
    (Vector.ofList xs cap).operator_assign ops (Vector.ofList ys capr) false
      = .ok { self := Vector.ofList ys cap, rhs := Vector.ofList ys capr,
              destroyed := xs.drop ys.length, leaked := [] } := by
  have hcapv : (Vector.ofList xs cap).data_.Capacity = cap := rfl
  have hsize : (Vector.ofList xs cap).size_ = xs.length := rfl
  have hsizer : (Vector.ofList ys capr).size_ = ys.length := rfl
  have hblock := Vector.block_ofList xs cap h
  have hblockr := Vector.block_ofList ys capr hr
  have hn1 : ¬ cap < ys.length := by omega
  have hlt : (xs.take ys.length).length = ys.length := by rw [List.length_take]; omega
  have hld : (xs.drop ys.length).length = xs.length - ys.length := List.length_drop _ _
  have hxs : xs.map some ++ List.replicate (cap - xs.length) none
      = (xs.take ys.length).map some
        ++ ((xs.drop ys.length).map some ++ List.replicate (cap - xs.length) none) := by
    rw [← List.append_assoc, ← List.map_append, List.take_append_drop]
  have hcn := copy_n_front ys (xs.take ys.length) ys.length
    (List.replicate (capr - ys.length) none)
    ((xs.drop ys.length).map some ++ List.replicate (cap - xs.length) none) rfl hlt
  have hobj := Block.objects_mid (ys.map some) (List.replicate (cap - xs.length) none)
    (xs.drop ys.length) ys.length (xs.length - ys.length) (by simp) hld.symm
  have hdes := destroy_n_mid (xs.drop ys.length) (ys.map some)
    (List.replicate (cap - xs.length) none)
  rw [List.length_map, hld] at hdes
  simp only [List.append_assoc] at hobj hdes
  unfold Vector.operator_assign
  simp only [Bool.false_eq_true, if_false, hcapv, hsize, hsizer, hn1, ge_iff_le, hcase, if_true,
    hblock, hblockr, hxs, hcn, hobj, hdes]
  by_cases hc0 : cap = 0
  · have hx0 : xs = [] := List.length_eq_zero.mp (by omega)
    have hy0 : ys = [] := List.length_eq_zero.mp (by rw [hx0] at hcase; simpa using hcase)
    subst hx0 hy0 hc0
    rfl
  · rw [Vector.store_ofList _ _ _ hc0, Vector.ofList_eq ys _ cap _ hc0 ?_ rfl]
    rw [← List.replicate_add]
    congr 2
    omega

theorem Vector.operator_assign_grow {α : Type} (ops : ElemOps α) (xs ys : List α)
    (cap capr : Nat) (h : xs.length ≤ cap) (hr : ys.length ≤ capr)
    (hcase1 : ys.length ≤ cap) (hcase2 : xs.length < ys.length)
    (hcopy : ∀ y ∈ ys, ops.copy_throws y = false) :
    (Vector.ofList xs cap).operator_assign ops (Vector.ofList ys capr) false
      = .ok { self := Vector.ofList ys cap, rhs := Vector.ofList ys capr,
              destroyed := [], leaked := [] } := by
  have hcapv : (Vector.ofList xs cap).data_.Capacity = cap := rfl
  have hsize : (Vector.ofList xs cap).size_ = xs.length := rfl
  have hsizer : (Vector.ofList ys capr).size_ = ys.length := rfl
  have hblock := Vector.block_ofList xs cap h
  have hblockr := Vector.block_ofList ys capr hr
  have hn1 : ¬ cap < ys.length := by omega
  have hn2 : ¬ ys.length ≤ xs.length := by omega
  have hc0 : cap ≠ 0 := by omega
  have hlt : (ys.take xs.length).length = xs.length := by rw [List.length_take]; omega
  have hld : (ys.drop xs.length).length = ys.length - xs.length := List.length_drop _ _
  have hys : ys.map some ++ List.replicate (capr - ys.length) none
      = (ys.take xs.length).map some
        ++ ((ys.drop xs.length).map some ++ List.replicate (capr - ys.length) none) := by
    rw [← List.append_assoc, ← List.map_append, List.take_append_drop]
  have hcn := copy_n_front (ys.take xs.length) xs xs.length
    ((ys.drop xs.length).map some ++ List.replicate (capr - ys.length) none)
    (List.replicate (cap - xs.length) none) hlt.symm hlt.symm
  have hraw : List.replicate (cap - xs.length) (none : Option α)
      = List.replicate (ys.length - xs.length) none ++ List.replicate (cap - ys.length) none := by
    rw [← List.replicate_add]
    congr 1
    omega
  have hu := uninitialized_copy_n_at ops (ys.drop xs.length) (ys.length - xs.length)
    xs.length xs.length ((ys.take xs.length).map some)
    (List.replicate (capr - ys.length) none) ((ys.take xs.length).map some)
    (List.replicate (ys.length - xs.length) none) (List.replicate (cap - ys.length) none)
    hld.symm (by rw [List.length_map, hlt]) (by rw [List.length_map, hlt])
    (by rw [List.length_replicate, hld])
    (fun y hy => hcopy y (List.mem_of_mem_drop hy))
  simp only [List.append_assoc] at hu
  rw [hraw] at hcn
  unfold Vector.operator_assign
  simp only [Bool.false_eq_true, if_false, hcapv, hsize, hsizer, hn1, ge_iff_le, hn2,
    hblock, hblockr, hys, hcn, hraw, hu, Vector.store_ofList _ _ _ hc0]
  rw [Vector.ofList_eq ys _ cap _ hc0 ?_ rfl]
  rw [← List.append_assoc, ← List.map_append, List.take_append_drop]

theorem RawMemory.capacity_store {α : Type} (m : RawMemory α) (b : Block α) :
    (m.store b).capacity_ = m.capacity_ := by
  rcases m with ⟨_ | b0, c⟩ <;> rfl

theorem grown_capacity_ge (n : Nat) : n ≤ (if n = 0 then 1 else n * 2) := by
  split <;> omega

theorem RawMemory.Reachable.null_of_capacity_zero {α : Type} {m : RawMemory α}
    (h : m.Reachable) : m.capacity_ = 0 → m.buffer_ = none := by
  induction h with
  | default => intro _; rfl
  | create n =>
    intro h0
    have h0' : n = 0 := h0
    subst h0'
    rfl
  | move_construct_new m _ ih => exact ih
  | move_construct_source m _ _ => intro _; rfl
  | assign_rvalue_self m r same_object _ _ ihm ihr =>
    cases same_object with
    | true => exact ihm
    | false => exact ihr
  | assign_rvalue_rhs m r same_object _ _ _ ihr =>
    cases same_object with
    | true => exact ihr
    | false => intro _; rfl
  | swap_self m r _ _ _ ihr => exact ihr
  | swap_other m r _ _ ihm _ => exact ihm
  | store m b _ ih =>
    intro h0
    rw [RawMemory.capacity_store] at h0
    have hn := ih h0
    unfold RawMemory.store
    rw [hn]
    exact hn

theorem Vector.operator_assign_threw_self {α : Type} (ops : ElemOps α) (self rhs : Vector α)
    (hcase : self.Capacity < rhs.Size) (r : Vector.Assigned α)
    (h : self.operator_assign ops rhs false = .threw r) : r.self = self := by
  have hcase' : self.data_.Capacity < rhs.size_ := hcase
  unfold Vector.operator_assign at h
  simp only [Bool.false_eq_true, if_false, hcase', if_true] at h
  split at h
  · cases h
  · simp only [Res.threw.injEq] at h
    rw [← h]
  · split at h <;> cases h

/-! ## The capacity a call leaves -/

theorem Block.construct_ok {α : Type} (b b1 : Block α) (i : Nat) (a : α)
    (h : b.construct i a = .ok b1) : i < b.length ∧ b1 = b.set i (some a) := by
  unfold Block.construct at h
  split at h
  · injection h with h
    exact ⟨‹_›, h.symm⟩
  · cases h

theorem uninitialized_copy_n_ok_room {α : Type} (ops : ElemOps α) (src : Block α) :
    ∀ (n first d_first : Nat) (dst nb : Block α),
    uninitialized_copy_n ops src n first d_first dst = .ok nb →
    n = 0 ∨ d_first + n ≤ dst.length := by
  intro n
  induction n with
  | zero => intro _ _ _ _ _; exact Or.inl rfl
  | succ n ih =>
    intro first d_first dst nb h
    right
    simp only [uninitialized_copy_n] at h
    split at h
    · cases h
    · split at h
      · cases h
      · split at h
        · cases h
        · rename_i dst1 hc
          obtain ⟨hlt, hd⟩ := Block.construct_ok _ _ _ _ hc
          split at h
          · rename_i dst2 hrec
            rcases ih _ _ _ _ hrec with h0 | hle
            · omega
            · rw [hd, List.length_set] at hle
              omega
          · cases h
          · split at h <;> cases h

theorem uninitialized_move_n_ok_room {α : Type} (ops : ElemOps α) :
    ∀ (n first d_first : Nat) (src dst : Block α) (r : Block α × Block α),
    uninitialized_move_n ops n first d_first src dst = .ok r →
    n = 0 ∨ d_first + n ≤ dst.length := by
  intro n
  induction n with
  | zero => intro _ _ _ _ _ _; exact Or.inl rfl
  | succ n ih =>
    intro first d_first src dst r h
    right
    simp only [uninitialized_move_n] at h
    split at h
    · cases h
    · split at h
      · cases h
      · split at h
        · cases h
        · rename_i dst1 hc
          obtain ⟨hlt, hd⟩ := Block.construct_ok _ _ _ _ hc
          split at h
          · rename_i r2 hrec
            rcases ih _ _ _ _ _ hrec with h0 | hle
            · omega
            · rw [hd, List.length_set] at hle
              omega
          · cases h
          · split at h <;> cases h

theorem uninitialized_copy_n_ok_nothrow {α : Type} (ops : ElemOps α) (xs : List α) :
    ∀ (spre spost : Block α) (d_first : Nat) (dst nb : Block α),
    uninitialized_copy_n ops (spre ++ xs.map some ++ spost) xs.length spre.length d_first dst
      = .ok nb →
    ∀ x ∈ xs, ops.copy_throws x = false := by
  induction xs with
  | nil => intro _ _ _ _ _ _ x hx; cases hx
  | cons y ys ih =>
    intro spre spost d_first dst nb h
    simp only [List.length_cons, uninitialized_copy_n, List.map_cons, List.append_assoc,
      List.cons_append, Block.read_mid] at h
    split at h
    · cases h
    · rename_i hy
      split at h
      · cases h
      · rename_i dst1 hc
        split at h
        · rename_i dst2 hrec
          have hrest := ih (spre ++ [some y]) spost (d_first + 1) dst1 dst2
            (by simpa only [List.length_append, List.length_singleton, List.append_assoc,
              List.singleton_append, List.cons_append, List.nil_append] using hrec)
          intro x hx
          rcases List.mem_cons.mp hx with rfl | hx
          · simpa using hy
          · exact hrest x hx
        · cases h
        · split at h <;> cases h

theorem uninitialized_move_n_ok_nothrow {α : Type} (ops : ElemOps α) (xs : List α) :
    ∀ (spre spost : Block α) (d_first : Nat) (dst : Block α) (r : Block α × Block α),
    uninitialized_move_n ops xs.length spre.length d_first (spre ++ xs.map some ++ spost) dst
      = .ok r →
    ∀ x ∈ xs, ops.move_throws x = false := by
  induction xs with
  | nil => intro _ _ _ _ _ _ x hx; cases hx
  | cons y ys ih =>
    intro spre spost d_first dst r h
    simp only [List.length_cons, uninitialized_move_n, List.map_cons, List.append_assoc,
      List.cons_append, Block.read_mid, Block.set_mid] at h
    split at h
    · cases h
    · rename_i hy
      split at h
      · cases h
      · rename_i dst1 hc
        split at h
        · rename_i r2 hrec
          have hrest := ih (spre ++ [some (ops.moved_from y)]) spost (d_first + 1) dst1 r2
            (by simpa only [List.length_append, List.length_singleton, List.append_assoc,
              List.singleton_append, List.cons_append, List.nil_append] using hrec)
          intro x hx
          rcases List.mem_cons.mp hx with rfl | hx
          · simpa using hy
          · exact hrest x hx
        · cases h
        · split at h <;> cases h

theorem uninitialized_move_n_threw_throws {α : Type} (ops : ElemOps α) (xs : List α) :
    ∀ (spre spost : Block α) (d_first : Nat) (dst : Block α) (r : Block α × Block α),
    uninitialized_move_n ops xs.length spre.length d_first (spre ++ xs.map some ++ spost) dst
      = .threw r →
    ∃ x ∈ xs, ops.move_throws x = true := by
  induction xs with
  | nil =>
    intro _ _ _ _ _ h
    simp only [List.length_nil, uninitialized_move_n] at h
    cases h
  | cons y ys ih =>
    intro spre spost d_first dst r h
    by_cases hy : ops.move_throws y = true
    · exact ⟨y, by simp, hy⟩
    · simp only [List.length_cons, uninitialized_move_n, List.map_cons, List.append_assoc,
        List.cons_append, Block.read_mid, Block.set_mid, hy, Bool.false_eq_true, if_false] at h
      split at h
      · cases h
      · rename_i dst1 hc
        split at h
        · cases h
        · cases h
        · rename_i src2 dst2 hrec
          obtain ⟨x, hx, hxt⟩ := ih (spre ++ [some (ops.moved_from y)]) spost (d_first + 1)
            dst1 (src2, dst2)
            (by simpa only [List.length_append, List.length_singleton, List.append_assoc,
              List.singleton_append, List.cons_append, List.nil_append] using hrec)
          exact ⟨x, by simp [hx], hxt⟩

theorem uninitialized_value_construct_n_threw {α : Type} (ops : ElemOps α) :
    ∀ (n k0 m : Nat) (pre b1 : Block α),
    uninitialized_value_construct_n ops n pre.length k0 (pre ++ List.replicate m none)
      = .threw b1 →
    b1 = pre ++ List.replicate m none := by
  intro n
  induction n with
  | zero =>
    intro k0 m pre b1 h
    simp only [uninitialized_value_construct_n] at h
    cases h
  | succ n ih =>
    intro k0 m pre b1 h
    simp only [uninitialized_value_construct_n] at h
    split at h
    · injection h with h
      exact h.symm
    · rename_i a hv
      rcases m with _ | m
      · simp only [List.replicate_zero, List.append_nil, Block.construct, Nat.lt_irrefl,
          if_false] at h
        cases h
      · simp only [List.replicate_succ, Block.construct_mid] at h
        split at h
        · cases h
        · cases h
        · rename_i b2 hrec
          have hb2 := ih (k0 + 1) m (pre ++ [some a]) b2
            (by simpa only [List.length_append, List.length_singleton, List.append_assoc,
              List.singleton_append, List.cons_append, List.nil_append] using hrec)
          rw [hb2] at h
          simp only [List.append_assoc, List.singleton_append, Block.destroy_mid] at h
          injection h with h
          exact h.symm

theorem uninitialized_value_construct_n_ok {α : Type} (ops : ElemOps α) :
    ∀ (n k0 m : Nat) (pre b1 : Block α),
    uninitialized_value_construct_n ops n pre.length k0 (pre ++ List.replicate m none)
      = .ok b1 →
    n ≤ m ∧ ∃ ds : List α, ds.length = n ∧
      (∀ i, i < n → ops.value_init (k0 + i) = ds.get? i) ∧
      b1 = pre ++ ds.map some ++ List.replicate (m - n) none := by
  intro n
  induction n with
  | zero =>
    intro k0 m pre b1 h
    simp only [uninitialized_value_construct_n] at h
    injection h with h
    exact ⟨Nat.zero_le _, [], rfl, fun i hi => absurd hi (Nat.not_lt_zero i), by simp [← h]⟩
  | succ n ih =>
    intro k0 m pre b1 h
    simp only [uninitialized_value_construct_n] at h
    split at h
    · cases h
    · rename_i a hv
      rcases m with _ | m
      · simp only [List.replicate_zero, List.append_nil, Block.construct, Nat.lt_irrefl,
          if_false] at h
        cases h
      · simp only [List.replicate_succ, Block.construct_mid] at h
        split at h
        · rename_i b2 hrec
          injection h with h
          obtain ⟨hle, ds, hlen, hinit, hb2⟩ := ih (k0 + 1) m (pre ++ [some a]) b2
            (by simpa only [List.length_append, List.length_singleton, List.append_assoc,
              List.singleton_append, List.cons_append, List.nil_append] using hrec)
          refine ⟨by omega, a :: ds, by simp [hlen], ?_, ?_⟩
          · intro i hi
            rcases i with _ | i
            · simpa using hv
            · have := hinit i (by omega)
              simpa [Nat.add_assoc, Nat.add_comm 1 i] using this
          · rw [← h, hb2]
            simp
        · cases h
        · split at h <;> cases h

/-! ## `Reserve` and `Resize` on any request -/

theorem Vector.elems_mk {α : Type} (xs : List α) (k c : Nat) :
    (Vector.mk (RawMemory.mk (some (xs.map some ++ List.replicate k none)) c) xs.length).elems
      = xs := by
  unfold Vector.elems RawMemory.block
  simp only
  have h1 : xs.length = (xs.map some).length := by simp
  rw [h1, List.take_left']
  · induction xs with
    | nil => rfl
    | cons x xs ih => simp
  · rfl

theorem Vector.destroy_and_swap_some {α : Type} (v : Vector α) (ys : List α) (k nc : Nat)
    (nb nb0 : Block α) (hn : v.size_ = ys.length) :
    v.destroy_and_swap (ys.map some ++ List.replicate k none) nb
        { buffer_ := some nb0, capacity_ := nc }
      = .ok ({ buffer_ := some nb, capacity_ := nc }, []) := by
  unfold Vector.destroy_and_swap
  have hd := destroy_n_mid ys [] (List.replicate k none)
  simp only [List.length_nil, List.nil_append] at hd
  rw [hn, hd]
  simp only [RawMemory.Swap, RawMemory.store]
  have hl : RawMemory.Deallocate
      (v.data_.store (List.replicate ys.length none ++ List.replicate k none)).buffer_ = [] := by
    unfold RawMemory.store RawMemory.Deallocate
    rcases hb : v.data_.buffer_ with _ | b
    · simp [hb]
    · simp only [← List.replicate_add]
      exact Block.live_replicate _
  unfold RawMemory.store at hl
  rw [hl]

theorem RawMemory.create_size_t_some {α : Type} (ops : ElemOps α) (n : Nat) (m : RawMemory α)
    (hn : n ≠ 0) (h : RawMemory.create_size_t ops n = some m) :
    ∃ slots, slots ≤ n ∧
      m = { buffer_ := some (List.replicate slots none), capacity_ := n } := by
  unfold RawMemory.create_size_t RawMemory.Allocate_size_t at h
  simp only [ne_eq, hn, not_false_eq_true, if_true] at h
  split at h
  · cases h
  · rename_i buf hb
    split at hb
    · cases hb
    · simp only [Option.some.injEq] at hb h
      refine ⟨(n * ops.sizeof % size_range) / ops.sizeof, ?_, ?_⟩
      · apply Nat.div_le_of_le_mul
        calc n * ops.sizeof % size_range ≤ n * ops.sizeof := Nat.mod_le _ _
          _ = ops.sizeof * n := Nat.mul_comm _ _
      · rw [← h, ← hb]

theorem Vector.Reserve_ofList_ok {α : Type} (ops : ElemOps α) (xs : List α) (cap nc : Nat)
    (hle : xs.length ≤ cap) (hnc : cap < nc) (v1 : Vector α) (leaked : List α)
    (hR : (Vector.ofList xs cap).Reserve ops nc = .ok v1 () leaked) :
    ∃ slots, slots ≤ nc ∧ xs.length ≤ slots ∧ leaked = [] ∧
      v1 = Vector.mk (RawMemory.mk
        (some (xs.map some ++ List.replicate (slots - xs.length) none)) nc) xs.length := by
  have hsize : (Vector.ofList xs cap).size_ = xs.length := rfl
  have hcap : (Vector.ofList xs cap).Capacity = cap := rfl
  have hblock := Vector.block_ofList xs cap hle
  have hnle : ¬ nc ≤ cap := by omega
  have hnc0 : nc ≠ 0 := by omega
  unfold Vector.Reserve at hR
  simp only [hsize, hcap, hnle, if_false, hblock] at hR
  split at hR
  · cases hR
  · rename_i new_data hcreate
    obtain ⟨slots, hslots, rfl⟩ := RawMemory.create_size_t_some ops nc new_data hnc0 hcreate
    have hnb : (RawMemory.mk (some (List.replicate slots (none : Option α))) nc).block
        = List.replicate slots none := rfl
    simp only [hnb] at hR
    have hsplit : xs.length ≤ slots → List.replicate slots (none : Option α)
        = List.replicate xs.length none ++ List.replicate (slots - xs.length) none := by
      intro h
      rw [← List.replicate_add]
      congr 1
      omega
    split at hR
    · split at hR
      · cases hR
      · cases hR
      · rename_i ob nb1 hm
        have hroom : xs.length ≤ slots := by
          rcases uninitialized_move_n_ok_room ops _ _ _ _ _ _ hm with h0 | h
          · omega
          · simpa using h
        have hmove : ∀ x ∈ xs, ops.move_throws x = false :=
          uninitialized_move_n_ok_nothrow ops xs [] (List.replicate (cap - xs.length) none) 0
            _ _ (by simpa using hm)
        have hfront := uninitialized_move_n_front ops xs xs.length
          (List.replicate (cap - xs.length) none) (List.replicate (slots - xs.length) none)
          rfl hmove
        rw [hsplit hroom, hfront] at hm
        simp only [Res.ok.injEq, Prod.mk.injEq] at hm
        obtain ⟨hob, hnb1⟩ := hm
        have hds := Vector.destroy_and_swap_some (Vector.ofList xs cap)
          (xs.map ops.moved_from) (cap - xs.length) nc
          (xs.map some ++ List.replicate (slots - xs.length) none)
          (List.replicate slots none) (by simp [Vector.ofList])
        rw [← hob, ← hnb1, hds] at hR
        simp only [Outcome.ok.injEq] at hR
        exact ⟨slots, hslots, hroom, hR.2.2.symm, hR.1.symm⟩
    · split at hR
      · cases hR
      · cases hR
      · rename_i nb1 hc
        have hroom : xs.length ≤ slots := by
          rcases uninitialized_copy_n_ok_room ops _ _ _ _ _ _ hc with h0 | h
          · omega
          · simpa using h
        have hcopy : ∀ x ∈ xs, ops.copy_throws x = false :=
          uninitialized_copy_n_ok_nothrow ops xs [] (List.replicate (cap - xs.length) none) 0
            _ _ (by simpa using hc)
        have hfront := uninitialized_copy_n_front ops xs xs.length
          (List.replicate (cap - xs.length) none) (List.replicate (slots - xs.length) none)
          rfl hcopy
        rw [hsplit hroom, hfront] at hc
        simp only [Res.ok.injEq] at hc
        have hds := Vector.destroy_and_swap_some (Vector.ofList xs cap) xs (cap - xs.length) nc
          (xs.map some ++ List.replicate (slots - xs.length) none)
          (List.replicate slots none) (by simp [Vector.ofList])
        rw [← hc, hds] at hR
        simp only [Outcome.ok.injEq] at hR
        exact ⟨slots, hslots, hroom, hR.2.2.symm, hR.1.symm⟩

theorem Vector.Reserve_ofList_threw {α : Type} (ops : ElemOps α) (xs : List α) (cap nc : Nat)
    (hle : xs.length ≤ cap) (v1 : Vector α) (leaked : List α)
    (hR : (Vector.ofList xs cap).Reserve ops nc = .threw v1 leaked) :
    v1.size_ = xs.length ∧
      ((∀ x ∈ xs, ops.relocate_throws x = false) → v1 = Vector.ofList xs cap) := by
  have hsize : (Vector.ofList xs cap).size_ = xs.length := rfl
  have hblock := Vector.block_ofList xs cap hle
  unfold Vector.Reserve at hR
  split at hR
  · cases hR
  · simp only [hsize, hblock] at hR
    split at hR
    · simp only [Outcome.threw.injEq] at hR
      rw [← hR.1]
      exact ⟨rfl, fun _ => rfl⟩
    · split at hR
      · rename_i hmv
        split at hR
        · cases hR
        · rename_i ob nb1 hm
          simp only [Outcome.threw.injEq] at hR
          rw [← hR.1]
          refine ⟨rfl, fun hrel => ?_⟩
          obtain ⟨x, hx, hxt⟩ := uninitialized_move_n_threw_throws ops xs []
            (List.replicate (cap - xs.length) none) 0 _ _ (by simpa using hm)
          have := hrel x hx
          simp only [ElemOps.relocate_throws, hmv, if_true] at this
          rw [this] at hxt
          cases hxt
        · split at hR <;> cases hR
      · split at hR
        · cases hR
        · simp only [Outcome.threw.injEq] at hR
          rw [← hR.1]
          exact ⟨rfl, fun _ => rfl⟩
        · split at hR <;> cases hR

theorem Vector.Reserve_ofList_bad_alloc {α : Type} (ops : ElemOps α) (v : Vector α) (nc : Nat)
    (hnc : v.Capacity < nc) (hnew : ops.new_throws (nc * ops.sizeof % size_range) = true) :
    v.Reserve ops nc = .threw v [] := by
  have hnle : ¬ nc ≤ v.Capacity := by omega
  have hnc0 : nc ≠ 0 := by omega
  unfold Vector.Reserve RawMemory.create_size_t RawMemory.Allocate_size_t
  simp only [hnle, if_false, ne_eq, hnc0, not_false_eq_true, if_true, hnew]

theorem Vector.Reserve_ofList_copy_throws {α : Type} (ops : ElemOps α) (xs : List α)
    (cap nc : Nat) (hle : xs.length ≤ cap) (hnc : cap < nc) (hgr : ops.grants nc)
    (hcopy : ops.relocate_by_move = false) (hthrow : ∃ x ∈ xs, ops.copy_throws x = true) :
    (Vector.ofList xs cap).Reserve ops nc = .threw (Vector.ofList xs cap) [] := by
  have hcreate := RawMemory.create_size_t_grants ops nc hgr
  have hsize : (Vector.ofList xs cap).size_ = xs.length := rfl
  have hcap : (Vector.ofList xs cap).Capacity = cap := rfl
  have hblock := Vector.block_ofList xs cap hle
  have hnle : ¬ nc ≤ cap := by omega
  have hnc0 : nc ≠ 0 := by omega
  obtain ⟨ys, x, zs, hxs, hys, hx⟩ := exists_first_throwing ops.copy_throws xs hthrow
  have hlen : xs.length = ys.length + 1 + zs.length := by
    rw [hxs]; simp; omega
  have hsrc : xs.map some ++ List.replicate (cap - xs.length) none
      = [] ++ ys.map some ++ some x :: (zs.map some ++ List.replicate (cap - xs.length) none) := by
    rw [hxs]; simp
  have hdst : List.replicate nc (none : Option α)
      = [] ++ List.replicate ys.length none ++ List.replicate (nc - ys.length) none := by
    rw [List.nil_append, ← List.replicate_add]
    congr 1
    omega
  have hu := uninitialized_copy_n_throws ops ys []
    (zs.map some ++ List.replicate (cap - xs.length) none) x zs.length []
    (List.replicate (nc - ys.length) none) hys hx
  rw [← hsrc, ← hdst, ← hlen] at hu
  simp only [List.length_nil] at hu
  unfold Vector.Reserve
  simp only [hsize, hcap, hnle, if_false, hcreate, hcopy, Bool.false_eq_true, hblock,
    RawMemory.block_create, hu, RawMemory.store_create nc hnc0]
  have hlive : RawMemory.Deallocate (some (List.replicate nc (none : Option α))) = [] := by
    simp [RawMemory.Deallocate, Block.live_replicate]
  rw [hlive]

theorem Vector.Resize_grow_ofList_ok {α : Type} (ops : ElemOps α) (xs : List α)
    (cap new_size : Nat) (hle : xs.length ≤ cap) (hgrow : xs.length < new_size)
    (v1 : Vector α) (leaked : List α)
    (hR : (Vector.ofList xs cap).Resize ops new_size = .ok v1 () leaked) :
    ∃ ds : List α, ds.length = new_size - xs.length ∧
      (∀ k, k < ds.length → ops.value_init k = ds.get? k) ∧
      v1 = Vector.ofList (xs ++ ds) (max cap new_size) ∧ leaked = [] := by
  have hsize : (Vector.ofList xs cap).size_ = xs.length := rfl
  have hnlt : ¬ new_size < xs.length := by omega
  have heta : Vector.mk (Vector.ofList xs cap).data_ xs.length = Vector.ofList xs cap := rfl
  unfold Vector.Resize at hR
  simp only [hsize, hnlt, if_false, RawMemory.store_block, gt_iff_lt, hgrow, if_true, heta]
    at hR
  split at hR
  · cases hR
  · cases hR
  · rename_i v2 u leaked2 hRes
    by_cases hnc : new_size ≤ cap
    · rw [Vector.Reserve_ofList_noop ops xs cap new_size hnc] at hRes
      simp only [Outcome.ok.injEq] at hRes
      obtain ⟨hv2, _, hl2⟩ := hRes
      subst hv2
      subst hl2
      have hc0 : cap ≠ 0 := by omega
      simp only [hsize, Vector.block_ofList xs cap hle] at hR
      split at hR
      · cases hR
      · cases hR
      · rename_i b1 hu
        have hu' : uninitialized_value_construct_n ops (new_size - xs.length)
            (xs.map some).length 0 (xs.map some ++ List.replicate (cap - xs.length) none)
            = .ok b1 := by simpa using hu
        obtain ⟨hn, ds, hlen, hinit, hb1⟩ := uninitialized_value_construct_n_ok ops _ _ _ _ _ hu'
        simp only [Outcome.ok.injEq] at hR
        refine ⟨ds, hlen, fun k hk => by simpa using hinit k (by omega), ?_, hR.2.2.symm⟩
        rw [← hR.1, Vector.store_ofList _ _ _ hc0, Nat.max_eq_left hnc]
        exact Vector.ofList_eq (xs ++ ds) _ cap _ hc0
          (by rw [hb1, List.map_append, List.length_append, hlen]; congr 2; omega)
          (by rw [List.length_append, hlen]; omega)
    · obtain ⟨slots, hslots, hroom, hl2, hv2⟩ :=
        Vector.Reserve_ofList_ok ops xs cap new_size hle (by omega) v2 leaked2 hRes
      subst hv2
      subst hl2
      have hb2 : (Vector.mk (RawMemory.mk
          (some (xs.map some ++ List.replicate (slots - xs.length) none)) new_size)
          xs.length).data_.block
          = xs.map some ++ List.replicate (slots - xs.length) (none : Option α) := rfl
      simp only [hb2] at hR
      split at hR
      · cases hR
      · cases hR
      · rename_i b1 hu
        have hu' : uninitialized_value_construct_n ops (new_size - xs.length)
            (xs.map some).length 0 (xs.map some ++ List.replicate (slots - xs.length) none)
            = .ok b1 := by simpa using hu
        obtain ⟨hn, ds, hlen, hinit, hb1⟩ := uninitialized_value_construct_n_ok ops _ _ _ _ _ hu'
        have hc0 : new_size ≠ 0 := by omega
        simp only [Outcome.ok.injEq] at hR
        refine ⟨ds, hlen, fun k hk => by simpa using hinit k (by omega), ?_, hR.2.2.symm⟩
        rw [← hR.1, Nat.max_eq_right (by omega)]
        exact Vector.ofList_eq (xs ++ ds) _ new_size _ hc0
          (by rw [hb1, List.map_append, List.length_append, hlen]
              have : slots - xs.length - (new_size - xs.length)
                  = new_size - (xs.length + (new_size - xs.length)) := by omega
              rw [this])
          (by rw [List.length_append, hlen]; omega)

theorem Vector.Resize_grow_ofList_threw {α : Type} (ops : ElemOps α) (xs : List α)
    (cap new_size : Nat) (hle : xs.length ≤ cap) (hgrow : xs.length < new_size)
    (v1 : Vector α) (leaked : List α)
    (hR : (Vector.ofList xs cap).Resize ops new_size = .threw v1 leaked) :
    v1.Size = xs.length ∧
      ((cap < new_size → ∀ x ∈ xs, ops.relocate_throws x = false) → v1.elems = xs) := by
  have hsize : (Vector.ofList xs cap).size_ = xs.length := rfl
  have hnlt : ¬ new_size < xs.length := by omega
  have heta : Vector.mk (Vector.ofList xs cap).data_ xs.length = Vector.ofList xs cap := rfl
  unfold Vector.Resize at hR
  simp only [hsize, hnlt, if_false, RawMemory.store_block, gt_iff_lt, hgrow, if_true, heta]
    at hR
  split at hR
  · cases hR
  · rename_i v2 leaked2 hRes
    simp only [Outcome.threw.injEq] at hR
    rw [← hR.1]
    by_cases hnc : new_size ≤ cap
    · rw [Vector.Reserve_ofList_noop ops xs cap new_size hnc] at hRes
      cases hRes
    · obtain ⟨h1, h2⟩ := Vector.Reserve_ofList_threw ops xs cap new_size hle v2 leaked2 hRes
      refine ⟨h1, fun hrel => ?_⟩
      rw [h2 (hrel (by omega))]
      exact Vector.elems_ofList xs cap hle
  · rename_i v2 u leaked2 hRes
    by_cases hnc : new_size ≤ cap
    · rw [Vector.Reserve_ofList_noop ops xs cap new_size hnc] at hRes
      simp only [Outcome.ok.injEq] at hRes
      obtain ⟨hv2, _, hl2⟩ := hRes
      subst hv2
      subst hl2
      simp only [hsize, Vector.block_ofList xs cap hle] at hR
      split at hR
      · cases hR
      · rename_i b1 hu
        have hu' : uninitialized_value_construct_n ops (new_size - xs.length)
            (xs.map some).length 0 (xs.map some ++ List.replicate (cap - xs.length) none)
            = .threw b1 := by simpa using hu
        have hb1 := uninitialized_value_construct_n_threw ops _ _ _ _ _ hu'
        simp only [Outcome.threw.injEq] at hR
        rw [← hR.1, hb1, ← Vector.block_ofList xs cap hle, RawMemory.store_block]
        exact ⟨rfl, fun _ => Vector.elems_ofList xs cap hle⟩
      · cases hR
    · obtain ⟨slots, hslots, hroom, hl2, hv2⟩ :=
        Vector.Reserve_ofList_ok ops xs cap new_size hle (by omega) v2 leaked2 hRes
      subst hv2
      subst hl2
      have hb2 : (Vector.mk (RawMemory.mk
          (some (xs.map some ++ List.replicate (slots - xs.length) none)) new_size)
          xs.length).data_.block
          = xs.map some ++ List.replicate (slots - xs.length) (none : Option α) := rfl
      simp only [hb2] at hR
      split at hR
      · cases hR
      · rename_i b1 hu
        have hu' : uninitialized_value_construct_n ops (new_size - xs.length)
            (xs.map some).length 0 (xs.map some ++ List.replicate (slots - xs.length) none)
            = .threw b1 := by simpa using hu
        have hb1 := uninitialized_value_construct_n_threw ops _ _ _ _ _ hu'
        simp only [Outcome.threw.injEq] at hR
        rw [← hR.1, hb1]
        exact ⟨rfl, fun _ => Vector.elems_mk xs _ _⟩
      · cases hR

/-! ## What a returning `EmplaceBack` says, and runs of calls -/

theorem Vector.EmplaceBack_none {α : Type} (ops : ElemOps α) (v : Vector α) :
    ∃ leaked, v.EmplaceBack ops none = .threw v leaked := by
  unfold Vector.EmplaceBack
  split
  · exact ⟨_, rfl⟩
  · exact ⟨_, rfl⟩

theorem Vector.PushBack_ok {α : Type} (ops : ElemOps α) (v v1 : Vector α) (a : α)
    (leaked : List α) (h : v.PushBack ops a = .ok v1 () leaked) :
    ops.copy_throws a = false ∧ ∃ r, v.EmplaceBack ops (some a) = .ok v1 r leaked := by
  unfold Vector.PushBack at h
  by_cases hc : ops.copy_throws a = true
  · obtain ⟨l, hn⟩ := Vector.EmplaceBack_none ops v
    simp only [hc, if_true, hn] at h
    cases h
  · simp only [hc, Bool.false_eq_true, if_false] at h
    split at h
    · rename_i v2 r l2 hE
      simp only [Outcome.ok.injEq] at h
      rw [← h.1, ← h.2.2]
      exact ⟨by simpa using hc, r, hE⟩
    · cases h
    · cases h

theorem Vector.PushBack_rvalue_ok {α : Type} (ops : ElemOps α) (v v1 : Vector α) (a : α)
    (leaked : List α) (h : v.PushBack_rvalue ops a = .ok v1 () leaked) :
    ops.move_throws a = false ∧ ∃ r, v.EmplaceBack ops (some a) = .ok v1 r leaked := by
  unfold Vector.PushBack_rvalue at h
  by_cases hc : ops.move_throws a = true
  · obtain ⟨l, hn⟩ := Vector.EmplaceBack_none ops v
    simp only [hc, if_true, hn] at h
    cases h
  · simp only [hc, Bool.false_eq_true, if_false] at h
    split at h
    · rename_i v2 r l2 hE
      simp only [Outcome.ok.injEq] at h
      rw [← h.1, ← h.2.2]
      exact ⟨by simpa using hc, r, hE⟩
    · cases h
    · cases h

theorem Vector.PushBack_rvalue_of_EmplaceBack {α : Type} (ops : ElemOps α) (v v1 : Vector α)
    (a : α) (r : Nat) (leaked : List α) (hc : ops.move_throws a = false)
    (hE : v.EmplaceBack ops (some a) = .ok v1 r leaked) :
    v.PushBack_rvalue ops a = .ok v1 () leaked := by
  unfold Vector.PushBack_rvalue
  rw [hc]
  simp only [Bool.false_eq_true, if_false]
  rw [hE]

theorem Vector.EmplaceBack_ofList_ok_nothrow {α : Type} (ops : ElemOps α) (xs : List α)
    (a : α) (v1 : Vector α) (r : Nat) (leaked : List α)
    (hE : (Vector.ofList xs xs.length).EmplaceBack ops (some a) = .ok v1 r leaked) :
    ∀ x ∈ xs, ops.relocate_throws x = false := by
  have hsize : (Vector.ofList xs xs.length).size_ = xs.length := rfl
  have hcap : (Vector.ofList xs xs.length).Capacity = xs.length := rfl
  have hblock := Vector.block_ofList xs xs.length (Nat.le_refl _)
  unfold Vector.EmplaceBack at hE
  simp only [hsize, hcap, if_true, hblock] at hE
  split at hE
  · cases hE
  · rename_i nb hc
    split at hE
    · rename_i hmv
      split at hE
      · cases hE
      · cases hE
      · rename_i ob nb1 hm
        have hmove := uninitialized_move_n_ok_nothrow ops xs []
          (List.replicate (xs.length - xs.length) none) 0 _ _ (by simpa using hm)
        intro x hx
        simpa [ElemOps.relocate_throws, hmv] using hmove x hx
    · rename_i hmv
      split at hE
      · cases hE
      · cases hE
      · rename_i nb1 hm
        have hcopy := uninitialized_copy_n_ok_nothrow ops xs []
          (List.replicate (xs.length - xs.length) none) 0 _ _ (by simpa using hm)
        intro x hx
        simpa [ElemOps.relocate_throws, hmv] using hcopy x hx

theorem Vector.EmplaceBack_ofList_ok {α : Type} (ops : ElemOps α) (xs : List α) (cap : Nat)
    (a : α) (hle : xs.length ≤ cap) (v1 : Vector α) (r : Nat) (leaked : List α)
    (hE : (Vector.ofList xs cap).EmplaceBack ops (some a) = .ok v1 r leaked) :
    v1 = Vector.ofList (xs ++ [a])
        (if xs.length = cap then (if xs.length = 0 then 1 else xs.length * 2) else cap) ∧
      r = xs.length ∧ leaked = [] := by
  have hrel : xs.length = cap → ∀ x ∈ xs, ops.relocate_throws x = false := by
    intro hfull
    subst hfull
    exact Vector.EmplaceBack_ofList_ok_nothrow ops xs a v1 r leaked hE
  rw [Vector.EmplaceBack_ofList ops xs cap a hle hrel] at hE
  simp only [Outcome.ok.injEq] at hE
  exact ⟨hE.1.symm, hE.2.1.symm, hE.2.2.symm⟩

theorem Vector.EmplaceBack_threw_fields {α : Type} (ops : ElemOps α) (v v1 : Vector α)
    (arg : Option α) (leaked : List α) (h : v.EmplaceBack ops arg = .threw v1 leaked) :
    v1.Capacity = v.Capacity ∧ v1.Size = v.Size := by
  unfold Vector.EmplaceBack at h
  simp only at h
  repeat' split at h
  all_goals first
    | (cases h; done)
    | (simp only [Outcome.threw.injEq] at h
       rw [← h.1]
       first
         | exact ⟨rfl, rfl⟩
         | (refine ⟨?_, rfl⟩
            simp only [Vector.Capacity, RawMemory.Capacity, RawMemory.capacity_store]))

theorem Vector.PushBack_rvalue_threw {α : Type} (ops : ElemOps α) (v v1 : Vector α) (value : α)
    (leaked : List α) (h : v.PushBack_rvalue ops value = .threw v1 leaked) :
    v.EmplaceBack ops (if ops.move_throws value then none else some value)
      = .threw v1 leaked := by
  unfold Vector.PushBack_rvalue at h
  split at h
  · cases h
  · injection h with h1 h2
    subst h1 h2
    assumption
  · cases h

theorem Vector.PopBack_ofList_nil {α : Type} (cap : Nat) :
    (Vector.ofList ([] : List α) cap).PopBack = .ub (.destroy_not_live (2 ^ 64 - 1)) := by
  unfold Vector.PopBack
  have hsize : (Vector.ofList ([] : List α) cap).size_ = 0 := rfl
  rw [if_pos hsize]

theorem Vector.empty_eq_ofList {α : Type} : (Vector.empty : Vector α) = Vector.ofList [] 0 := rfl

theorem stack_run_length {α : Type} (calls : List (Call α)) :
    ∀ (s ys : List α), stack_run calls s = some ys →
      ys.length + count_pop calls = s.length + count_push calls := by
  induction calls with
  | nil =>
    intro s ys h
    simp only [stack_run, Option.some.injEq] at h
    subst h
    rfl
  | cons c cs ih =>
    intro s ys h
    cases c with
    | push value =>
      have := ih _ _ h
      simp only [List.length_append, List.length_singleton] at this
      simp only [count_pop, count_push]
      omega
    | push_rvalue value =>
      have := ih _ _ h
      simp only [List.length_append, List.length_singleton] at this
      simp only [count_pop, count_push]
      omega
    | pop =>
      cases s with
      | nil => simp [stack_run] at h
      | cons x xs =>
        simp only [stack_run] at h
        have := ih _ _ h
        simp only [List.length_dropLast, List.length_cons, Nat.add_sub_cancel] at this
        simp only [count_pop, count_push, List.length_cons]
        omega

theorem Vector.run_calls_ofList {α : Type} (ops : ElemOps α) (calls : List (Call α)) :
    ∀ (xs ys : List α) (cap : Nat), xs.length ≤ cap →
      (∀ x ∈ xs, ops.relocate_throws x = false) →
      (∀ c ∈ calls, c.nothrow ops) →
      stack_run calls xs = some ys →
      ∃ cap1, ys.length ≤ cap1 ∧
        Vector.run_calls ops calls (Vector.ofList xs cap) = some (Vector.ofList ys cap1) := by
  induction calls with
  | nil =>
    intro xs ys cap hle _ _ h
    simp only [stack_run, Option.some.injEq] at h
    subst h
    exact ⟨cap, hle, rfl⟩
  | cons c cs ih =>
    intro xs ys cap hle hrel hcalls h
    have hcs : ∀ c ∈ cs, c.nothrow ops := fun c hc => hcalls c (List.mem_cons_of_mem _ hc)
    have hb := grown_capacity_bounds xs.length cap hle
    have hrel1 : ∀ value, ops.relocate_throws value = false →
        ∀ x ∈ xs ++ [value], ops.relocate_throws x = false := by
      intro value hv x hx
      rcases List.mem_append.mp hx with hx | hx
      · exact hrel x hx
      · rw [List.mem_singleton.mp hx]
        exact hv
    cases c with
    | push value =>
      have hv : ops.copy_throws value = false ∧ ops.relocate_throws value = false :=
        hcalls _ (List.mem_cons_self _ _)
      have hE := Vector.EmplaceBack_ofList ops xs cap value hle (fun _ => hrel)
      have hP := Vector.PushBack_of_EmplaceBack ops _ _ value _ _ hv.1 hE
      obtain ⟨cap1, hle1, hrun⟩ := ih (xs ++ [value]) ys _ (by simpa using hb)
        (hrel1 value hv.2) hcs h
      refine ⟨cap1, hle1, ?_⟩
      simp only [Vector.run_calls, hP, hrun]
    | push_rvalue value =>
      have hv : ops.move_throws value = false ∧ ops.relocate_throws value = false :=
        hcalls _ (List.mem_cons_self _ _)
      have hE := Vector.EmplaceBack_ofList ops xs cap value hle (fun _ => hrel)
      have hP := Vector.PushBack_rvalue_of_EmplaceBack ops _ _ value _ _ hv.1 hE
      obtain ⟨cap1, hle1, hrun⟩ := ih (xs ++ [value]) ys _ (by simpa using hb)
        (hrel1 value hv.2) hcs h
      refine ⟨cap1, hle1, ?_⟩
      simp only [Vector.run_calls, hP, hrun]
    | pop =>
      cases xs with
      | nil => simp [stack_run] at h
      | cons x xs =>
        simp only [stack_run] at h
        have hP := Vector.PopBack_ofList (x :: xs) cap hle (List.cons_ne_nil x xs)
        obtain ⟨cap1, hle1, hrun⟩ := ih (x :: xs).dropLast ys cap
          (by rw [List.length_dropLast]; simp only [List.length_cons] at hle ⊢; omega)
          (fun y hy => hrel y (List.mem_of_mem_dropLast hy)) hcs h
        refine ⟨cap1, hle1, ?_⟩
        simp only [Vector.run_calls, hP, hrun]

theorem Vector.run_calls_ofList_ok {α : Type} (ops : ElemOps α) (calls : List (Call α)) :
    ∀ (xs : List α) (cap : Nat) (v : Vector α), xs.length ≤ cap →
      Vector.run_calls ops calls (Vector.ofList xs cap) = some v →
      ∃ ys cap1, stack_run calls xs = some ys ∧ ys.length ≤ cap1 ∧
        v = Vector.ofList ys cap1 := by
  induction calls with
  | nil =>
    intro xs cap v hle h
    simp only [Vector.run_calls, Option.some.injEq] at h
    exact ⟨xs, cap, rfl, hle, h.symm⟩
  | cons c cs ih =>
    intro xs cap v hle h
    have hb := grown_capacity_bounds xs.length cap hle
    cases c with
    | push value =>
      simp only [Vector.run_calls] at h
      split at h
      · rename_i v1 u leaked hP
        obtain ⟨_, r, hE⟩ := Vector.PushBack_ok ops _ v1 value leaked hP
        obtain ⟨hv1, _, _⟩ := Vector.EmplaceBack_ofList_ok ops xs cap value hle v1 r leaked hE
        rw [hv1] at h
        exact ih (xs ++ [value]) _ v (by simpa using hb) h
      · cases h
    | push_rvalue value =>
      simp only [Vector.run_calls] at h
      split at h
      · rename_i v1 u leaked hP
        obtain ⟨_, r, hE⟩ := Vector.PushBack_rvalue_ok ops _ v1 value leaked hP
        obtain ⟨hv1, _, _⟩ := Vector.EmplaceBack_ofList_ok ops xs cap value hle v1 r leaked hE
        rw [hv1] at h
        exact ih (xs ++ [value]) _ v (by simpa using hb) h
      · cases h
    | pop =>
      cases xs with
      | nil =>
        simp only [Vector.run_calls, Vector.PopBack_ofList_nil] at h
        cases h
      | cons x xs =>
        have hP := Vector.PopBack_ofList (x :: xs) cap hle (List.cons_ne_nil x xs)
        simp only [Vector.run_calls, hP] at h
        exact ih (x :: xs).dropLast cap v
          (by rw [List.length_dropLast]; simp only [List.length_cons] at hle ⊢; omega) h

/-! ## Objects in the free store -/

theorem Vector.copy_construct_ofList_ok {α : Type} (ops : ElemOps α) (xs : List α) (cap : Nat)
    (h : xs.length ≤ cap) (w : Vector α) (leaked : List α)
    (hc : Vector.copy_construct ops (Vector.ofList xs cap) = .ok (w, leaked)) :
    w = Vector.ofList xs xs.length ∧ leaked = [] := by
  by_cases hthrow : ∃ x ∈ xs, ops.copy_throws x = true
  · rw [Vector.copy_construct_ofList_throws ops xs cap h hthrow] at hc
    cases hc
  · have hcopy : ∀ x ∈ xs, ops.copy_throws x = false := by
      intro x hx
      by_contra hne
      exact hthrow ⟨x, hx, by simpa using hne⟩
    rw [Vector.copy_construct_ofList ops xs cap h hcopy] at hc
    simp only [Res.ok.injEq, Prod.mk.injEq] at hc
    exact ⟨hc.1.symm, hc.2.symm⟩

theorem Store.load_set {α : Type} (H : Store α) (o : Vector.Object) (p : Nat)
    (b : Option (Block α)) (hne : o.buffer_ ≠ some p) : (H.set p b).load o = H.load o := by
  unfold Store.load Store.set
  rcases hb : o.buffer_ with _ | q
  · rfl
  · have hq : q ≠ p := by
      intro hqp
      exact hne (by rw [hb, hqp])
    simp [Option.bind, hq]

theorem Store.load_write {α : Type} (H : Store α) (o : Vector.Object) (p : Option Nat)
    (b : Option (Block α)) (hne : ∀ q, p = some q → o.buffer_ ≠ some q) :
    (H.write p b).load o = H.load o := by
  unfold Store.write
  rcases p with _ | q
  · rfl
  · exact Store.load_set H o q b (hne q rfl)

theorem Store.load_set_self {α : Type} (H : Store α) (p c n : Nat) (b : Option (Block α)) :
    (H.set p b).load { buffer_ := some p, capacity_ := c, size_ := n }
      = { data_ := { buffer_ := b, capacity_ := c }, size_ := n } := by
  simp [Store.load, Store.set, Option.bind]

theorem Store.copy_construct_load {α : Type} (ops : ElemOps α) (H H1 : Store α)
    (v w : Vector.Object) (a1 : Nat) (hfree : H.block_at a1 = none)
    (hptr : ∀ p, v.buffer_ = some p → H.block_at p ≠ none)
    (hc : Store.copy_construct ops H v a1 = some (H1, w)) :
    (∃ leaked, Vector.copy_construct ops (H.load v) = .ok (H1.load w, leaked)) ∧
      H1.load v = H.load v ∧
      (w.buffer_ = none ∨ w.buffer_ = some a1) ∧
      (∀ p, H.block_at p ≠ none → H1.block_at p = H.block_at p) := by
  have hva : v.buffer_ ≠ some a1 := by
    intro h
    exact hptr a1 h hfree
  unfold Store.copy_construct at hc
  split at hc
  · rename_i wv leaked hcc
    split at hc
    · rename_i hb
      simp only [Option.some.injEq, Prod.mk.injEq] at hc
      obtain ⟨rfl, rfl⟩ := hc
      refine ⟨⟨leaked, ?_⟩, rfl, Or.inl rfl, fun _ _ => rfl⟩
      rw [hcc]
      congr 2
      rcases wv with ⟨⟨buf, c⟩, n⟩
      simp only at hb
      subst hb
      rfl
    · rename_i b hb
      simp only [Option.some.injEq, Prod.mk.injEq] at hc
      obtain ⟨rfl, rfl⟩ := hc
      refine ⟨⟨leaked, ?_⟩, Store.load_set H v a1 _ hva, Or.inr rfl, ?_⟩
      · rw [hcc, Store.load_set_self]
        congr 2
        rcases wv with ⟨⟨buf, c⟩, n⟩
        simp only at hb
        subst hb
        rfl
      · intro p hp
        have : p ≠ a1 := by
          intro h
          rw [h] at hp
          exact hp hfree
        simp [Store.set, this]
  · cases hc

theorem Store.mutate_frame {α : Type} (ops : ElemOps α) (H H2 : Store α)
    (w w2 o : Vector.Object) (m : Mutation α) (a2 : Nat)
    (hm : Store.mutate ops H w m a2 = some (H2, w2))
    (hw : ∀ q, w.buffer_ = some q → o.buffer_ ≠ some q) (ha : o.buffer_ ≠ some a2) :
    H2.load o = H.load o := by
  unfold Store.mutate at hm
  split at hm
  · cases hm
  · simp only [Option.some.injEq, Prod.mk.injEq] at hm
    rw [← hm.1]
    exact Store.load_write H o _ _ hw
  · split at hm
    · simp only [Option.some.injEq, Prod.mk.injEq] at hm
      rw [← hm.1, Store.load_set _ o a2 _ ha]
      exact Store.load_write H o _ _ hw
    · simp only [Option.some.injEq, Prod.mk.injEq] at hm
      rw [← hm.1]
      exact Store.load_write H o _ _ hw

theorem Store.mutate_PushBack_full {α : Type} (ops : ElemOps α) (H : Store α)
    (w : Vector.Object) (a : α) (a2 : Nat) (xs : List α)
    (hw : H.load w = Vector.ofList xs xs.length) (hcopy : ops.copy_throws a = false)
    (hrel : ∀ x ∈ xs, ops.relocate_throws x = false) :
    ∃ H2 w2, Store.mutate ops H w (.PushBack a) a2 = some (H2, w2) ∧
      H2.load w2 = Vector.ofList (xs ++ [a]) (if xs.length = 0 then 1 else xs.length * 2) := by
  have hE := Vector.EmplaceBack_ofList ops xs xs.length a (Nat.le_refl _) (fun _ => hrel)
  have hP := Vector.PushBack_of_EmplaceBack ops _ _ a _ _ hcopy hE
  rw [if_pos rfl] at hP
  have hall : Mutation.allocates (Vector.ofList xs xs.length) (Mutation.PushBack a) = true := by
    simp [Mutation.allocates, Vector.ofList, Vector.Capacity, RawMemory.Capacity]
  unfold Store.mutate
  simp only [hw, Mutation.run, hP, Outcome.state, hall, if_true]
  exact ⟨_, _, rfl, Store.load_set_self _ _ _ _ _⟩

/-! ## The claims -/

/-- C1 (defect in the code): `Insert` at the end position of a vector with
spare capacity takes the in-place path, which calls
`std::move_backward(end(), end() - 1, end())` on a reversed range; on an
empty vector with spare capacity it first reads the object at `end() - 1`,
before the block.  The vector `[0, 1, 3]` of capacity 4 is what three
`PushBack` calls leave, the empty vector of capacity 2 what `Reserve(2)`
leaves.  Inserting 99 at index 2 of `[0, 1, 3, 4]` gives `[0, 1, 99, 3, 4]`
on both paths. -/
theorem C1_insert_at_end_with_spare_capacity_is_undefined :
    (Vector.push_trace intOps [0, 1, 3] Vector.empty).getLast?
      = some (Vector.ofList [0, 1, 3] 4) ∧
    (Vector.ofList [0, 1, 3] 4).Insert intOps 3 99 = .ub (.invalid_range 3 2) ∧
    (Vector.ofList [0, 1, 3] 4).Emplace intOps 3 (some 99) = .ub (.invalid_range 3 2) ∧
    Vector.empty.Reserve intOps 2 = .ok (Vector.ofList [] 2) () [] ∧
    (Vector.ofList ([] : List Nat) 2).Insert intOps 0 99 = .ub (.read_not_live (-1)) ∧
    (Vector.ofList [0, 1, 3, 4] 4).Insert intOps 2 99
      = .ok (Vector.ofList [0, 1, 99, 3, 4] 8) 2 [] ∧
    (Vector.ofList [0, 1, 3, 4] 6).Insert intOps 2 99
      = .ok (Vector.ofList [0, 1, 99, 3, 4] 6) 2 [] := by
  decide

/-- C2 (defect in the code): `Resize` to a smaller size runs
`std::destroy_n` from slot `size_` on, not from slot `new_size`: on
`[1, 2, 3]` shrunk to size 1 the first destructor runs on slot 3, which is
outside the block (capacity 3) or raw (capacity 5), and slots 1 and 2 are not
destroyed.  The same call started at slot `new_size` gives the block the
claim describes (last conjunct). -/
theorem C2_resize_shrink_destroys_from_old_size :
    Vector.create stringOps 3 = .ok (Vector.ofList [0, 0, 0] 3, []) ∧
    (Vector.ofList [0, 0, 0] 3).Resize stringOps 1 = .ub (.destroy_not_live 3) ∧
    (Vector.ofList [1, 2, 3] 3).Resize stringOps 1 = .ub (.destroy_not_live 3) ∧
    (Vector.ofList [1, 2, 3] 5).Resize stringOps 1 = .ub (.destroy_not_live 3) ∧
    destroy_n (3 - 1) 1 (Vector.ofList [1, 2, 3] 5).data_.block
      = .ok (Vector.ofList [1] 5).data_.block :=
  ⟨by decide, by decide, by decide, by decide, rfl⟩

/-- C3 as stated fails: a call need not complete.  On the full vector
`[3, 4]`, with an element type that is relocated by copy and whose copy of the
value 3 throws, `PushBack(5)`, `PushBack(T&&)` and `EmplaceBack(5)` fail and
leave `[3, 4]`; on `[3]` of capacity 2, `PushBack(5)` fails when the copy of
the value 5 itself throws. -/
theorem C3_push_back_fails_when_a_construction_throws :
    (Vector.ofList [3, 4] 2).Inv ∧
    (Vector.ofList [3, 4] 2).PushBack (throwingOps 3) 5
      = .threw (Vector.ofList [3, 4] 2) [5] ∧
    (Vector.ofList [3, 4] 2).PushBack_rvalue (throwingOps 3) 5
      = .threw (Vector.ofList [3, 4] 2) [5] ∧
    (Vector.ofList [3, 4] 2).EmplaceBack (throwingOps 3) (some 5)
      = .threw (Vector.ofList [3, 4] 2) [5] ∧
    (Vector.ofList [3] 2).PushBack (throwingOps 5) 5 = .threw (Vector.ofList [3] 2) [] :=
  ⟨Vector.inv_ofList [3, 4] 2 (by decide), by decide, by decide, by decide, by decide⟩

/-- C3 as amended: on a vector in a valid state, whenever `EmplaceBack(a)`,
`PushBack(const T&)` or `PushBack(T&&)` returns, the element sequence is the
old one followed by the new value and the size grew by one; the reference
that `EmplaceBack` returns is the slot at index old size, which holds the new
value.  This covers the growth path and the in-place path.  The call returns
when the construction of the new element does not throw and, on the growth
path (`Size() == Capacity()`), no relocation of an existing element throws. -/
theorem C3_push_back_appends {α : Type} (ops : ElemOps α) (v : Vector α) (a : α)
    (hinv : v.Inv) :
    (∀ v1 r leaked, v.EmplaceBack ops (some a) = .ok v1 r leaked →
      v1.elems = v.elems ++ [a] ∧ v1.Size = v.Size + 1 ∧ r = v.Size ∧
      v1.elems.get? r = some a ∧ v1.Inv) ∧
    (∀ v1 leaked, v.PushBack ops a = .ok v1 () leaked →
      v1.elems = v.elems ++ [a] ∧ v1.Size = v.Size + 1 ∧ v1.Inv) ∧
    (∀ v1 leaked, v.PushBack_rvalue ops a = .ok v1 () leaked →
      v1.elems = v.elems ++ [a] ∧ v1.Size = v.Size + 1 ∧ v1.Inv) ∧
    ((v.Size = v.Capacity → ∀ x ∈ v.elems, ops.relocate_throws x = false) →
      (∃ v1 leaked, v.EmplaceBack ops (some a) = .ok v1 v.Size leaked) ∧
      (ops.copy_throws a = false → ∃ v1 leaked, v.PushBack ops a = .ok v1 () leaked) ∧
      (ops.move_throws a = false →
        ∃ v1 leaked, v.PushBack_rvalue ops a = .ok v1 () leaked)) := by
  obtain ⟨xs, cap, hle, rfl⟩ := hinv.cases
  rw [Vector.elems_ofList xs cap hle, Vector.Size_ofList, Vector.Capacity_ofList]
  have hb := grown_capacity_bounds xs.length cap hle
  have key : ∀ v1 r leaked, (Vector.ofList xs cap).EmplaceBack ops (some a) = .ok v1 r leaked →
      v1.elems = xs ++ [a] ∧ v1.Size = xs.length + 1 ∧ r = xs.length ∧
      v1.elems.get? r = some a ∧ v1.Inv := by
    intro v1 r leaked hE
    obtain ⟨hv1, hr, _⟩ := Vector.EmplaceBack_ofList_ok ops xs cap a hle v1 r leaked hE
    generalize (if xs.length = cap then (if xs.length = 0 then 1 else xs.length * 2) else cap)
      = nc at hv1 hb
    have hle1 : (xs ++ [a]).length ≤ nc := by simpa using hb
    have hel := Vector.elems_ofList (xs ++ [a]) nc hle1
    subst hv1
    refine ⟨hel, by simp [Vector.Size_ofList], hr, ?_, Vector.inv_ofList _ _ hle1⟩
    rw [hel, hr]
    simp
  refine ⟨key, ?_, ?_, ?_⟩
  · intro v1 leaked hP
    obtain ⟨_, r, hE⟩ := Vector.PushBack_ok ops _ v1 a leaked hP
    obtain ⟨h1, h2, _, _, h5⟩ := key v1 r leaked hE
    exact ⟨h1, h2, h5⟩
  · intro v1 leaked hP
    obtain ⟨_, r, hE⟩ := Vector.PushBack_rvalue_ok ops _ v1 a leaked hP
    obtain ⟨h1, h2, _, _, h5⟩ := key v1 r leaked hE
    exact ⟨h1, h2, h5⟩
  · intro hrel
    have hE := Vector.EmplaceBack_ofList ops xs cap a hle hrel
    exact ⟨⟨_, _, hE⟩,
      fun hc => ⟨_, _, Vector.PushBack_of_EmplaceBack ops _ _ a _ _ hc hE⟩,
      fun hc => ⟨_, _, Vector.PushBack_rvalue_of_EmplaceBack ops _ _ a _ _ hc hE⟩⟩

/-- C3 as amended, on a concrete run: pushing 0, 1, 2, 3, 4 into the empty
vector gives size 5 and elements `[0, 1, 2, 3, 4]`; `PushBack(T&&)` of 2 on the
full vector `[0, 1]` gives `[0, 1, 2]`; and the theorem applied to the full
vector `[0, 1]` of capacity 2. -/
theorem C3_push_back_appends_witness :
    ((Vector.push_trace intOps [0, 1, 2, 3, 4] Vector.empty).map
        (fun v => (v.Size, v.elems))).getLast? = some (5, [0, 1, 2, 3, 4]) ∧
    (Vector.ofList [0, 1] 2).PushBack_rvalue stringOps 2
      = .ok (Vector.ofList [0, 1, 2] 4) () [] ∧
    ((Vector.ofList [0, 1, 2] 4).elems = (Vector.ofList [0, 1] 2).elems ++ [2] ∧
      (Vector.ofList [0, 1, 2] 4).Size = (Vector.ofList [0, 1] 2).Size + 1 ∧
      (Vector.ofList [0, 1, 2] 4).Inv) ∧
    ((∃ v1 leaked, (Vector.ofList [0, 1] 2).EmplaceBack intOps (some 2)
        = .ok v1 (Vector.ofList [0, 1] 2).Size leaked) ∧
      (intOps.copy_throws 2 = false →
        ∃ v1 leaked, (Vector.ofList [0, 1] 2).PushBack intOps 2 = .ok v1 () leaked) ∧
      (intOps.move_throws 2 = false →
        ∃ v1 leaked, (Vector.ofList [0, 1] 2).PushBack_rvalue intOps 2 = .ok v1 () leaked)) :=
  ⟨by decide, by decide,
   (C3_push_back_appends intOps (Vector.ofList [0, 1] 2) 2
     (Vector.inv_ofList [0, 1] 2 (by decide))).2.1 (Vector.ofList [0, 1, 2] 4) [] (by decide),
   (C3_push_back_appends intOps (Vector.ofList [0, 1] 2) 2
     (Vector.inv_ofList [0, 1] 2 (by decide))).2.2.2 (fun _ _ _ => rfl)⟩

/-- C4 as stated fails: on the full vector `[2, 8]`, with an element type that
is relocated by copy and whose copy of the value 8 throws, `PushBack(1)` leaves
capacity 2 and size 2, not capacity `max(1, 2 * 2) = 4` and size 3. -/
theorem C4_failed_push_back_keeps_the_capacity :
    (Vector.ofList [2, 8] 2).Inv ∧
    (Vector.ofList [2, 8] 2).Size = (Vector.ofList [2, 8] 2).Capacity ∧
    ((Vector.ofList [2, 8] 2).PushBack (throwingOps 8) 1).after.map
        (fun v => (v.Capacity, v.Size)) = some (2, 2) ∧
    max 1 (2 * (Vector.ofList [2, 8] 2).Capacity) = 4 :=
  ⟨Vector.inv_ofList [2, 8] 2 (by decide), by decide, by decide, by decide⟩

/-- C4 as amended: on a vector in a valid state, whenever `PushBack` (either
overload) returns, the size grew by one, and the capacity is
`max(1, 2 * old capacity)` if the vector was full (`Size() == Capacity()`) and
unchanged otherwise; whenever it throws, capacity and size are unchanged.  It
returns when the construction of the new element does not throw and, on a full
vector, no relocation of an existing element throws. -/
theorem C4_push_back_doubles_capacity {α : Type} (ops : ElemOps α) (v : Vector α) (a : α)
    (hinv : v.Inv) :
    (∀ v1 leaked,
      (v.PushBack ops a = .ok v1 () leaked ∨ v.PushBack_rvalue ops a = .ok v1 () leaked) →
      (v.Size = v.Capacity →
        v1.Capacity = max 1 (2 * v.Capacity) ∧ v1.Size = v.Size + 1) ∧
      (v.Size < v.Capacity → v1.Capacity = v.Capacity ∧ v1.Size = v.Size + 1)) ∧
    (∀ v1 leaked,
      (v.PushBack ops a = .threw v1 leaked ∨ v.PushBack_rvalue ops a = .threw v1 leaked) →
      v1.Capacity = v.Capacity ∧ v1.Size = v.Size) ∧
    ((v.Size = v.Capacity → ∀ x ∈ v.elems, ops.relocate_throws x = false) →
      (ops.copy_throws a = false → ∃ v1 leaked, v.PushBack ops a = .ok v1 () leaked) ∧
      (ops.move_throws a = false →
        ∃ v1 leaked, v.PushBack_rvalue ops a = .ok v1 () leaked)) := by
  refine ⟨?_, ?_, ?_⟩
  · obtain ⟨xs, cap, hle, rfl⟩ := hinv.cases
    rw [Vector.Size_ofList, Vector.Capacity_ofList]
    intro v1 leaked hP
    have hE : ∃ r, (Vector.ofList xs cap).EmplaceBack ops (some a) = .ok v1 r leaked := by
      rcases hP with hP | hP
      · exact (Vector.PushBack_ok ops _ v1 a leaked hP).2
      · exact (Vector.PushBack_rvalue_ok ops _ v1 a leaked hP).2
    obtain ⟨r, hE⟩ := hE
    obtain ⟨hv1, _, _⟩ := Vector.EmplaceBack_ofList_ok ops xs cap a hle v1 r leaked hE
    subst hv1
    constructor
    · intro hfull
      simp only [Vector.Capacity_ofList, Vector.Size_ofList, hfull, if_true, List.length_append,
        List.length_singleton, and_true]
      split <;> omega
    · intro hspare
      have hne : ¬ xs.length = cap := by omega
      simp [Vector.Capacity_ofList, Vector.Size_ofList, hne]
  · intro v1 leaked hP
    rcases hP with hP | hP
    · exact Vector.EmplaceBack_threw_fields ops v v1 _ leaked
        (Vector.PushBack_threw ops v v1 a leaked hP)
    · exact Vector.EmplaceBack_threw_fields ops v v1 _ leaked
        (Vector.PushBack_rvalue_threw ops v v1 a leaked hP)
  · obtain ⟨xs, cap, hle, rfl⟩ := hinv.cases
    rw [Vector.elems_ofList xs cap hle, Vector.Size_ofList, Vector.Capacity_ofList]
    intro hrel
    have hE := Vector.EmplaceBack_ofList ops xs cap a hle hrel
    exact ⟨fun hc => ⟨_, _, Vector.PushBack_of_EmplaceBack ops _ _ a _ _ hc hE⟩,
      fun hc => ⟨_, _, Vector.PushBack_rvalue_of_EmplaceBack ops _ _ a _ _ hc hE⟩⟩

/-- C4 as amended, on a concrete run: pushing five elements into the empty
vector gives the capacities 1, 2, 4, 4, 8; the theorem applied to
`PushBack(4)` on the full vector `[0, 1, 2, 3]` of capacity 4, which returns
with capacity 8; and the theorem applied to `PushBack(T&&)` of 1 on the full
vector `[6, 9]` whose element 9 cannot be copied, which throws. -/
theorem C4_push_back_doubles_capacity_witness :
    (Vector.push_trace intOps [0, 1, 2, 3, 4] Vector.empty).map Vector.Capacity
      = [1, 2, 4, 4, 8] ∧
    (Vector.ofList [0, 1, 2, 3] 4).PushBack intOps 4
      = .ok (Vector.ofList [0, 1, 2, 3, 4] 8) () [] ∧
    (((Vector.ofList [0, 1, 2, 3] 4).Size = (Vector.ofList [0, 1, 2, 3] 4).Capacity →
        (Vector.ofList [0, 1, 2, 3, 4] 8).Capacity
          = max 1 (2 * (Vector.ofList [0, 1, 2, 3] 4).Capacity) ∧
        (Vector.ofList [0, 1, 2, 3, 4] 8).Size = (Vector.ofList [0, 1, 2, 3] 4).Size + 1) ∧
      ((Vector.ofList [0, 1, 2, 3] 4).Size < (Vector.ofList [0, 1, 2, 3] 4).Capacity →
        (Vector.ofList [0, 1, 2, 3, 4] 8).Capacity = (Vector.ofList [0, 1, 2, 3] 4).Capacity ∧
        (Vector.ofList [0, 1, 2, 3, 4] 8).Size = (Vector.ofList [0, 1, 2, 3] 4).Size + 1)) ∧
    (Vector.ofList [6, 9] 2).PushBack_rvalue (throwingOps 9) 1
      = .threw (Vector.ofList [6, 9] 2) [1] ∧
    ((Vector.ofList [6, 9] 2).Capacity = (Vector.ofList [6, 9] 2).Capacity ∧
      (Vector.ofList [6, 9] 2).Size = (Vector.ofList [6, 9] 2).Size) :=
  ⟨by decide, by decide,
   (C4_push_back_doubles_capacity intOps (Vector.ofList [0, 1, 2, 3] 4) 4
     (Vector.inv_ofList [0, 1, 2, 3] 4 (by decide))).1 (Vector.ofList [0, 1, 2, 3, 4] 8) []
     (Or.inl (by decide)),
   by decide,
   (C4_push_back_doubles_capacity (throwingOps 9) (Vector.ofList [6, 9] 2) 1
     (Vector.inv_ofList [6, 9] 2 (by decide))).2.1 (Vector.ofList [6, 9] 2) [1]
     (Or.inr (by decide))⟩

/-- C5: on a vector in a valid state and for a position index `n < size`,
`Erase` returns; the element sequence is the old one without its `n`-th
element, the size dropped by one, the capacity is unchanged, and the returned
position is `n`: it refers to the element that followed the removed one, or
is the end position when the removed element was the last. -/
theorem C5_erase_removes_one_element {α : Type} (ops : ElemOps α) (v : Vector α) (n : Nat)
    (hinv : v.Inv) (hn : n < v.Size) :
    ∃ v1, v.Erase ops n = .ok v1 n [] ∧
      v1.elems = v.elems.take n ++ v.elems.drop (n + 1) ∧
      v1.Size = v.Size - 1 ∧ v1.Capacity = v.Capacity ∧
      v1.elems.get? n = v.elems.get? (n + 1) ∧
      (n + 1 = v.Size → n = v1.Size) ∧ v1.Inv := by
  obtain ⟨xs, cap, hle, rfl⟩ := hinv.cases
  rw [Vector.Size_ofList] at hn
  have hE := Vector.Erase_ofList ops xs cap n hn hle
  have hlen : (xs.eraseIdx n).length = xs.length - 1 := by
    rw [List.length_eraseIdx, if_pos hn]
  have hle1 : (xs.eraseIdx n).length ≤ cap := by omega
  refine ⟨_, hE, ?_, ?_, rfl, ?_, ?_, Vector.inv_ofList _ _ hle1⟩
  · rw [Vector.elems_ofList _ _ hle1, Vector.elems_ofList _ _ hle,
      List.eraseIdx_eq_take_drop_succ]
  · rw [Vector.Size_ofList, Vector.Size_ofList, hlen]
  · rw [Vector.elems_ofList _ _ hle1, Vector.elems_ofList _ _ hle,
      List.get?_eq_getElem?, List.get?_eq_getElem?, List.getElem?_eraseIdx]
    simp
  · intro h
    rw [Vector.Size_ofList] at h ⊢
    omega

/-- C5, on a concrete vector: erasing index 2 from `[0, 1, 2, 3, 4]` gives
`[0, 1, 3, 4]`, size 4; and the theorem applied there. -/
theorem C5_erase_removes_one_element_witness :
    (Vector.ofList [0, 1, 2, 3, 4] 8).Erase intOps 2 = .ok (Vector.ofList [0, 1, 3, 4] 8) 2 [] ∧
    (Vector.ofList [0, 1, 3, 4] 8).Size = 4 ∧
    ∃ v1, (Vector.ofList [0, 1, 2, 3, 4] 8).Erase intOps 2 = .ok v1 2 [] ∧
      v1.elems = (Vector.ofList [0, 1, 2, 3, 4] 8).elems.take 2 ++
        (Vector.ofList [0, 1, 2, 3, 4] 8).elems.drop (2 + 1) ∧
      v1.Size = (Vector.ofList [0, 1, 2, 3, 4] 8).Size - 1 ∧
      v1.Capacity = (Vector.ofList [0, 1, 2, 3, 4] 8).Capacity ∧
      v1.elems.get? 2 = (Vector.ofList [0, 1, 2, 3, 4] 8).elems.get? (2 + 1) ∧
      (2 + 1 = (Vector.ofList [0, 1, 2, 3, 4] 8).Size → 2 = v1.Size) ∧ v1.Inv :=
  ⟨by decide, by decide,
   C5_erase_removes_one_element intOps (Vector.ofList [0, 1, 2, 3, 4] 8) 2
     (Vector.inv_ofList [0, 1, 2, 3, 4] 8 (by decide)) (by decide)⟩

/-- C6 (defect in the code, the one of C1): `Insert` at the end position of a
vector with spare capacity executes undefined behaviour, so `Insert` followed
by `Erase` at that position does not restore the vector.  At a position
before the end, and on the growth path, the pair of calls restores the
element sequence. -/
theorem C6_insert_then_erase_at_end_is_undefined :
    (Vector.ofList [0, 1, 3] 4).insert_then_erase intOps 3 99 = .ub (.invalid_range 3 2) ∧
    (Vector.ofList [0, 1, 3] 4).insert_then_erase intOps 1 99
      = .ok (Vector.ofList [0, 1, 3] 4) 1 [] ∧
    (Vector.ofList [0, 1, 3] 3).insert_then_erase intOps 3 99
      = .ok (Vector.ofList [0, 1, 3] 6) 3 [] := by
  decide

/-- C7 (defect in the code, the one of C2): from the empty vector three
`PushBack` calls reach `[1, 2, 3]` with capacity 4, a state that satisfies the
invariant; `Resize(1)` there, a call within its precondition, runs the
destructor on raw slot 3 and leaves slots 1 and 2 undestroyed, so it does not
establish that the slots from the new size on are raw. -/
theorem C7_resize_shrink_from_reachable_state :
    (Vector.push_trace intOps [1, 2, 3] Vector.empty).getLast?
      = some (Vector.ofList [1, 2, 3] 4) ∧
    (Vector.ofList [1, 2, 3] 4).Inv ∧
    (Vector.ofList [1, 2, 3] 4).data_.block = [some 1, some 2, some 3, none] ∧
    (Vector.ofList [1, 2, 3] 4).Resize intOps 1 = .ub (.destroy_not_live 3) :=
  ⟨by decide, Vector.inv_ofList [1, 2, 3] 4 (by decide), by decide, by decide⟩

/-- C8: when a `PushBack`/`EmplaceBack` on a full vector fails because the new
element's construction throws, or because a copy of an existing element
throws during relocation, the vector it leaves is the vector before the call:
same size, same capacity, same element sequence. -/
theorem C8_failed_growth_push_back_leaves_vector_unchanged {α : Type} (ops : ElemOps α)
    (v : Vector α) (_hgrow : v.Size = v.Capacity) :
    (∀ (arg : Option α) (v1 : Vector α) (leaked : List α),
      (arg = none ∨ ops.relocate_by_move = false) →
      v.EmplaceBack ops arg = .threw v1 leaked →
      v1 = v ∧ v1.Size = v.Size ∧ v1.Capacity = v.Capacity ∧ v1.elems = v.elems) ∧
    (∀ (value : α) (v1 : Vector α) (leaked : List α),
      (ops.copy_throws value = true ∨ ops.relocate_by_move = false) →
      v.PushBack ops value = .threw v1 leaked →
      v1 = v ∧ v1.Size = v.Size ∧ v1.Capacity = v.Capacity ∧ v1.elems = v.elems) := by
  constructor
  · intro arg v1 leaked hcause hfail
    have h := Vector.EmplaceBack_threw_unchanged ops v arg hcause v1 leaked hfail
    subst h
    exact ⟨rfl, rfl, rfl, rfl⟩
  · intro value v1 leaked hcause hfail
    have hE := Vector.PushBack_threw ops v v1 value leaked hfail
    have h := Vector.EmplaceBack_threw_unchanged ops v _
      (hcause.imp (fun hc => by rw [hc]; rfl) id) v1 leaked hE
    subst h
    exact ⟨rfl, rfl, rfl, rfl⟩

/-- C8, on a concrete vector: pushing onto the full vector `[1, 7]` whose
element 7 cannot be copied fails, and leaves `[1, 7]` with capacity 2. -/
theorem C8_failed_growth_push_back_leaves_vector_unchanged_witness :
    (Vector.ofList [1, 7] 2).Size = (Vector.ofList [1, 7] 2).Capacity ∧
    (Vector.ofList [1, 7] 2).EmplaceBack (throwingOps 7) (some 2)
      = .threw (Vector.ofList [1, 7] 2) [2] ∧
    (Vector.ofList [1, 7] 2 = Vector.ofList [1, 7] 2 ∧
      (Vector.ofList [1, 7] 2).Size = (Vector.ofList [1, 7] 2).Size ∧
      (Vector.ofList [1, 7] 2).Capacity = (Vector.ofList [1, 7] 2).Capacity ∧
      (Vector.ofList [1, 7] 2).elems = (Vector.ofList [1, 7] 2).elems) :=
  ⟨by decide, by decide,
   (C8_failed_growth_push_back_leaves_vector_unchanged (throwingOps 7)
      (Vector.ofList [1, 7] 2) (by decide)).1 (some 2) (Vector.ofList [1, 7] 2) [2]
      (Or.inr (by decide)) (by decide)⟩

/-- C9 as stated fails: on the full vector `[1]`, with an element type that is
relocated by copy and whose copy of the value 1 throws, `EmplaceBack` fails
although the new element's constructor succeeded with the value 2. -/
theorem C9_relocation_by_copy_can_fail_after_construction :
    (throwingOps 1).relocate_by_move = false ∧
    (Vector.ofList [1] 1).Inv ∧
    ¬ ∃ v1 r leaked,
      (Vector.ofList [1] 1).EmplaceBack (throwingOps 1) (some 2) = .ok v1 r leaked := by
  refine ⟨by decide, Vector.inv_ofList [1] 1 (by decide), ?_⟩
  rintro ⟨v1, r, leaked, h⟩
  have ht : (Vector.ofList [1] 1).EmplaceBack (throwingOps 1) (some 2)
      = .threw (Vector.ofList [1] 1) [2] := by decide
  rw [ht] at h
  cases h

/-- C9 as amended: once the new element's constructor has succeeded,
`EmplaceBack` returns on the in-place path, and on the growth path when the
move constructor is no-throw or when relocating no existing element throws;
the element sequence is then the old one followed by the new value.  On the
growth path with relocation by copy, a copy of an existing element that
throws makes the call fail, and the vector is left as it was. -/
theorem C9_emplace_back_returns_unless_relocation_throws {α : Type} (ops : ElemOps α)
    (hcons : ops.Consistent) (v : Vector α) (a : α) (hinv : v.Inv) :
    ((v.Size < v.Capacity ∨ ops.is_nothrow_move_constructible = true ∨
        ∀ x ∈ v.elems, ops.relocate_throws x = false) →
      ∃ v1 leaked, v.EmplaceBack ops (some a) = .ok v1 v.Size leaked ∧
        v1.elems = v.elems ++ [a]) ∧
    (v.Size = v.Capacity → ops.relocate_by_move = false →
      (∃ x ∈ v.elems, ops.copy_throws x = true) →
      ∃ leaked, v.EmplaceBack ops (some a) = .threw v leaked) := by
  obtain ⟨xs, cap, hle, rfl⟩ := hinv.cases
  rw [Vector.elems_ofList xs cap hle, Vector.Size_ofList, Vector.Capacity_ofList] at *
  constructor
  · intro h
    have hrel : xs.length = cap → ∀ x ∈ xs, ops.relocate_throws x = false := by
      intro hfull x hx
      rcases h with h | h | h
      · omega
      · have hm := hcons h x
        simp [ElemOps.relocate_throws, ElemOps.relocate_by_move, h, hm]
      · exact h x hx
    have hE := Vector.EmplaceBack_ofList ops xs cap a hle hrel
    have hb := grown_capacity_bounds xs.length cap hle
    exact ⟨_, _, hE, Vector.elems_ofList _ _ (by simpa using hb)⟩
  · intro hfull hcopy hthrow
    subst hfull
    exact ⟨[a], Vector.EmplaceBack_ofList_throws ops xs a hcopy hthrow⟩

/-- C9 as amended, on concrete vectors: with the element type whose copy of 1
throws, `EmplaceBack` on `[1]` returns when there is spare capacity and fails,
leaving `[1]`, when the vector is full. -/
theorem C9_emplace_back_returns_unless_relocation_throws_witness :
    (∃ v1 leaked, (Vector.ofList [1] 2).EmplaceBack (throwingOps 1) (some 2)
        = .ok v1 (Vector.ofList [1] 2).Size leaked ∧
      v1.elems = (Vector.ofList [1] 2).elems ++ [2]) ∧
    (∃ leaked, (Vector.ofList [1] 1).EmplaceBack (throwingOps 1) (some 2)
        = .threw (Vector.ofList [1] 1) leaked) :=
  ⟨(C9_emplace_back_returns_unless_relocation_throws (throwingOps 1)
      (fun h => absurd h (by decide)) (Vector.ofList [1] 2) 2
      (Vector.inv_ofList [1] 2 (by decide))).1 (Or.inl (by decide)),
   (C9_emplace_back_returns_unless_relocation_throws (throwingOps 1)
      (fun h => absurd h (by decide)) (Vector.ofList [1] 1) 2
      (Vector.inv_ofList [1] 1 (by decide))).2 (by decide) (by decide)
      ⟨1, by decide, by decide⟩⟩

/-- C10 (defect in the code): when a copy throws during the relocation of a
growth path, the copies made by the failing `std::uninitialized_copy_n` are
destroyed but the new element, already constructed in the new storage, is
not: the storage is released with that object still live.  Here the new
element 9 is leaked by `PushBack`, `EmplaceBack` and `Insert` on the full
vector `[5, 6]` whose element 6 cannot be copied; `Insert` at index 1 also
leaks the copy of 5 made by its first, completed relocation call. -/
theorem C10_failed_relocation_leaks_the_new_element :
    (Vector.ofList [5, 6] 2).PushBack (throwingOps 6) 9
      = .threw (Vector.ofList [5, 6] 2) [9] ∧
    (Vector.ofList [5, 6] 2).EmplaceBack (throwingOps 6) (some 9)
      = .threw (Vector.ofList [5, 6] 2) [9] ∧
    (Vector.ofList [5, 6] 2).Insert (throwingOps 6) 1 9
      = .threw (Vector.ofList [5, 6] 2) [5, 9] ∧
    (Vector.ofList [5, 6] 2).Insert (throwingOps 6) 2 9
      = .threw (Vector.ofList [5, 6] 2) [9] := by
  decide

/-- C11 as stated fails for a larger `new_capacity`.  When a relocation by
copy throws, `Reserve(4)` fails and leaves `[5, 6]` with capacity 2, not 4.
When `operator new` refuses the request, `Reserve(2^61)` on a vector of `int`
fails and leaves `[1, 2]` with capacity 2, not `2^61`. -/
theorem C11_reserve_can_fail :
    (Vector.ofList [5, 6] 2).Inv ∧ (Vector.ofList [1, 2] 2).Inv ∧
    (throwingOps 6).grants 4 ∧
    (Vector.ofList [5, 6] 2).Reserve (throwingOps 6) 4 = .threw (Vector.ofList [5, 6] 2) [] ∧
    (Vector.ofList [5, 6] 2).Capacity = 2 ∧
    2 ^ 61 * intOps.sizeof % size_range = 2 ^ 63 ∧ intOps.new_throws (2 ^ 63) = true ∧
    (Vector.ofList [1, 2] 2).Reserve intOps (2 ^ 61) = .threw (Vector.ofList [1, 2] 2) [] ∧
    (Vector.ofList [1, 2] 2).Capacity = 2 :=
  ⟨Vector.inv_ofList [5, 6] 2 (by decide), Vector.inv_ofList [1, 2] 2 (by decide), by decide,
   by decide, by decide, by decide, by decide, by decide, by decide⟩

/-- C11 as amended: on a vector in a valid state, `Reserve(new_capacity)` with
`new_capacity <= Capacity()` returns at once and changes nothing.  With a
larger `new_capacity`: when the request is granted (`new_capacity * sizeof(T)`
fits in `size_t` and `operator new` returns) and no relocation throws, it
returns with capacity exactly `new_capacity`, the same size and the same
elements, in a valid state, and the old storage is released with every object
in it destroyed; when `operator new` throws, or when the request is granted
and a relocation by copy throws, it fails and changes nothing; and whenever it
returns, `Capacity()` is `new_capacity`, size and elements are the same and
nothing is leaked. -/
theorem C11_reserve_keeps_elements {α : Type} (ops : ElemOps α) (v : Vector α)
    (new_capacity : Nat) (hinv : v.Inv) :
    (new_capacity ≤ v.Capacity → v.Reserve ops new_capacity = .ok v () []) ∧
    (v.Capacity < new_capacity →
      (ops.grants new_capacity → (∀ x ∈ v.elems, ops.relocate_throws x = false) →
        ∃ v1, v.Reserve ops new_capacity = .ok v1 () [] ∧ v1.Capacity = new_capacity ∧
          v1.Size = v.Size ∧ v1.elems = v.elems ∧ v1.Inv) ∧
      (ops.new_throws (new_capacity * ops.sizeof % size_range) = true →
        v.Reserve ops new_capacity = .threw v []) ∧
      (ops.grants new_capacity → ops.relocate_by_move = false →
        (∃ x ∈ v.elems, ops.copy_throws x = true) →
        v.Reserve ops new_capacity = .threw v []) ∧
      (∀ v1 leaked, v.Reserve ops new_capacity = .ok v1 () leaked →
        v1.Capacity = new_capacity ∧ v1.Size = v.Size ∧ v1.elems = v.elems ∧ leaked = [])) := by
  obtain ⟨xs, cap, hle, rfl⟩ := hinv.cases
  rw [Vector.elems_ofList xs cap hle, Vector.Capacity_ofList, Vector.Size_ofList]
  constructor
  · intro hnc
    exact Vector.Reserve_ofList_noop ops xs cap new_capacity hnc
  · intro hnc
    have hle1 : xs.length ≤ new_capacity := by omega
    refine ⟨?_, ?_, ?_, ?_⟩
    · intro hgr hrel
      exact ⟨_, Vector.Reserve_ofList ops xs cap new_capacity hle hnc hgr hrel, rfl, rfl,
        Vector.elems_ofList xs new_capacity hle1, Vector.inv_ofList xs new_capacity hle1⟩
    · intro hnew
      exact Vector.Reserve_ofList_bad_alloc ops _ new_capacity hnc hnew
    · intro hgr hcopy hthrow
      exact Vector.Reserve_ofList_copy_throws ops xs cap new_capacity hle hnc hgr hcopy hthrow
    · intro v1 leaked hR
      obtain ⟨slots, _, _, hl, hv1⟩ :=
        Vector.Reserve_ofList_ok ops xs cap new_capacity hle hnc v1 leaked hR
      subst hv1
      exact ⟨rfl, rfl, Vector.elems_mk xs _ _, hl⟩

/-- C11 as amended, on concrete vectors: `Reserve(1)` leaves `[1, 2]` of
capacity 2 as it is; `Reserve(5)` is granted and gives it capacity 5, by the
theorem on its growth branch; `Reserve(2^61)` on a vector of `int` is refused
and changes nothing; `Reserve(4)` fails when the copy of 6 throws and changes
nothing.  A request that does not fit is outside the amended claim:
`Reserve(2^62 + 1)` on a vector of `int` asks for 4 bytes; on `[1, 2]` the
second relocation writes past the block, and on `[1]` the call returns with
`Capacity()` `2^62 + 1` over a block of one slot. -/
theorem C11_reserve_keeps_elements_witness :
    ((2 ^ 62 + 1) * intOps.sizeof % size_range = 4 ∧ ¬ intOps.grants (2 ^ 62 + 1) ∧
      (Vector.ofList [1, 2] 2).Reserve intOps (2 ^ 62 + 1) = .ub (.construct_outside 1) ∧
      (Vector.ofList [1] 1).Reserve intOps (2 ^ 62 + 1)
        = .ok (Vector.mk (RawMemory.mk (some [some 1]) (2 ^ 62 + 1)) 1) () []) ∧
    (Vector.ofList [1, 2] 2).Reserve stringOps 1 = .ok (Vector.ofList [1, 2] 2) () [] ∧
    (Vector.ofList [1, 2] 2).Reserve stringOps 5 = .ok (Vector.ofList [1, 2] 5) () [] ∧
    (∃ v1, (Vector.ofList [1, 2] 2).Reserve stringOps 5 = .ok v1 () [] ∧ v1.Capacity = 5 ∧
      v1.Size = (Vector.ofList [1, 2] 2).Size ∧ v1.elems = (Vector.ofList [1, 2] 2).elems ∧
      v1.Inv) ∧
    (Vector.ofList [3, 4] 2).Reserve intOps (2 ^ 61) = .threw (Vector.ofList [3, 4] 2) [] ∧
    (Vector.ofList [7, 6] 3).Reserve (throwingOps 6) 4 = .threw (Vector.ofList [7, 6] 3) [] :=
  ⟨by decide, by decide, by decide,
   ((C11_reserve_keeps_elements stringOps (Vector.ofList [1, 2] 2) 5
     (Vector.inv_ofList [1, 2] 2 (by decide))).2 (by decide)).1
     ⟨by decide, by decide, by decide⟩ (fun _ _ => rfl),
   ((C11_reserve_keeps_elements intOps (Vector.ofList [3, 4] 2) (2 ^ 61)
     (Vector.inv_ofList [3, 4] 2 (by decide))).2 (by decide)).2.1 (by decide),
   ((C11_reserve_keeps_elements (throwingOps 6) (Vector.ofList [7, 6] 3) 4
     (Vector.inv_ofList [7, 6] 3 (by decide))).2 (by decide)).2.2.1
     ⟨by decide, by decide, by decide⟩ (by decide) ⟨6, by decide, by decide⟩⟩

/-- C12 as stated fails in its first case: assigning `[5, 6]` to the vector
`[1]` of capacity 1 destroys the old element 1, which is not a surplus
trailing element (`[1]` has no element from index 2 on). -/
theorem C12_copy_and_swap_destroys_all_old_elements :
    (Vector.ofList [1] 1).Capacity < (Vector.ofList [5, 6] 2).Size ∧
    (Vector.ofList [1] 1).operator_assign intOps (Vector.ofList [5, 6] 2) false
      = .ok { self := Vector.ofList [5, 6] 2, rhs := Vector.ofList [5, 6] 2,
              destroyed := [1], leaked := [] } ∧
    (Vector.ofList [1] 1).elems.drop (Vector.ofList [5, 6] 2).Size = [] := by
  decide

/-- C12 as amended: for vectors in valid states, when no copy construction
throws, `self = rhs` returns with the size and the element sequence of `rhs`
and leaves `rhs` as it was.  When `Capacity() < rhs.Size()` the capacity
becomes `rhs.Size()` and every old element of `self` is destroyed with its old
storage; when `Size() >= rhs.Size()` the capacity is unchanged and exactly the
surplus trailing elements are destroyed; when `Size() < rhs.Size() <=
Capacity()` the capacity is unchanged and nothing is destroyed.  Assigning a
vector to itself changes nothing. -/
theorem C12_copy_assignment {α : Type} (ops : ElemOps α) (self rhs : Vector α)
    (hself : self.Inv) (hrhs : rhs.Inv)
    (hcopy : ∀ y ∈ rhs.elems, ops.copy_throws y = false) :
    (∃ r, self.operator_assign ops rhs false = .ok r ∧
      r.self.Size = rhs.Size ∧ r.self.elems = rhs.elems ∧ r.rhs = rhs ∧ r.leaked = [] ∧
      r.self.Inv ∧
      (self.Capacity < rhs.Size →
        r.self.Capacity = rhs.Size ∧ r.destroyed = self.elems) ∧
      (rhs.Size ≤ self.Size →
        r.self.Capacity = self.Capacity ∧ r.destroyed = self.elems.drop rhs.Size) ∧
      (self.Size < rhs.Size → rhs.Size ≤ self.Capacity →
        r.self.Capacity = self.Capacity ∧ r.destroyed = [])) ∧
    self.operator_assign ops self true
      = .ok { self := self, rhs := self, destroyed := [], leaked := [] } := by
  refine ⟨?_, rfl⟩
  obtain ⟨xs, cap, hle, rfl⟩ := hself.cases
  obtain ⟨ys, capr, hler, rfl⟩ := hrhs.cases
  rw [Vector.elems_ofList ys capr hler] at hcopy
  simp only [Vector.elems_ofList xs cap hle, Vector.elems_ofList ys capr hler,
    Vector.Size_ofList, Vector.Capacity_ofList]
  by_cases h1 : cap < ys.length
  · refine ⟨_, Vector.operator_assign_small ops xs ys cap capr hle hler h1 hcopy, rfl,
      Vector.elems_ofList ys ys.length (Nat.le_refl _), rfl, rfl,
      Vector.inv_ofList ys ys.length (Nat.le_refl _), fun _ => ⟨rfl, rfl⟩, ?_, ?_⟩
    · intro h2; omega
    · intro _ h3; omega
  · by_cases h2 : ys.length ≤ xs.length
    · refine ⟨_, Vector.operator_assign_shrink ops xs ys cap capr hle hler h2, rfl,
        Vector.elems_ofList ys cap (by omega), rfl, rfl,
        Vector.inv_ofList ys cap (by omega), fun h => absurd h h1, fun _ => ⟨rfl, rfl⟩, ?_⟩
      intro h3; omega
    · refine ⟨_, Vector.operator_assign_grow ops xs ys cap capr hle hler (by omega)
          (by omega) hcopy, rfl,
        Vector.elems_ofList ys cap (by omega), rfl, rfl,
        Vector.inv_ofList ys cap (by omega), fun h => absurd h h1, fun h => absurd h h2,
        fun _ _ => ⟨rfl, rfl⟩⟩

/-- C12 as amended, on concrete vectors, one for each case. -/
theorem C12_copy_assignment_witness :
    (Vector.ofList [1, 2, 3] 4).operator_assign intOps (Vector.ofList [5, 6] 2) false
      = .ok { self := Vector.ofList [5, 6] 4, rhs := Vector.ofList [5, 6] 2,
              destroyed := [3], leaked := [] } ∧
    (Vector.ofList [1] 4).operator_assign intOps (Vector.ofList [5, 6, 7] 3) false
      = .ok { self := Vector.ofList [5, 6, 7] 4, rhs := Vector.ofList [5, 6, 7] 3,
              destroyed := [], leaked := [] } ∧
    (∃ r, (Vector.ofList [1] 1).operator_assign intOps (Vector.ofList [5, 6] 2) false = .ok r ∧
      r.self.Size = (Vector.ofList [5, 6] 2).Size ∧
      r.self.elems = (Vector.ofList [5, 6] 2).elems ∧ r.rhs = Vector.ofList [5, 6] 2 ∧
      r.leaked = [] ∧ r.self.Inv ∧
      ((Vector.ofList [1] 1).Capacity < (Vector.ofList [5, 6] 2).Size →
        r.self.Capacity = (Vector.ofList [5, 6] 2).Size ∧
        r.destroyed = (Vector.ofList [1] 1).elems) ∧
      ((Vector.ofList [5, 6] 2).Size ≤ (Vector.ofList [1] 1).Size →
        r.self.Capacity = (Vector.ofList [1] 1).Capacity ∧
        r.destroyed = (Vector.ofList [1] 1).elems.drop (Vector.ofList [5, 6] 2).Size) ∧
      ((Vector.ofList [1] 1).Size < (Vector.ofList [5, 6] 2).Size →
        (Vector.ofList [5, 6] 2).Size ≤ (Vector.ofList [1] 1).Capacity →
        r.self.Capacity = (Vector.ofList [1] 1).Capacity ∧ r.destroyed = [])) :=
  ⟨by decide, by decide,
   (C12_copy_assignment intOps (Vector.ofList [1] 1) (Vector.ofList [5, 6] 2)
     (Vector.inv_ofList [1] 1 (by decide)) (Vector.inv_ofList [5, 6] 2 (by decide))
     (fun _ _ => rfl)).1⟩

/-- C13: when `Capacity() < rhs.Size()` and a copy of an element of `rhs`
throws, `self = rhs` fails and leaves `self` as it was: same size, same
capacity, same element sequence. -/
theorem C13_failed_copy_assignment_leaves_self_untouched {α : Type} (ops : ElemOps α)
    (self rhs : Vector α) (hrhs : rhs.Inv) (hcase : self.Capacity < rhs.Size) :
    (∀ r, self.operator_assign ops rhs false = .threw r →
      r.self = self ∧ r.self.Size = self.Size ∧ r.self.Capacity = self.Capacity ∧
      r.self.elems = self.elems) ∧
    ((∃ y ∈ rhs.elems, ops.copy_throws y = true) →
      self.operator_assign ops rhs false
        = .threw { self := self, rhs := rhs, destroyed := [], leaked := [] }) := by
  constructor
  · intro r h
    have hs := Vector.operator_assign_threw_self ops self rhs hcase r h
    rw [hs]
    exact ⟨rfl, rfl, rfl, rfl⟩
  · intro hthrow
    obtain ⟨ys, capr, hler, rfl⟩ := hrhs.cases
    rw [Vector.elems_ofList ys capr hler] at hthrow
    exact Vector.operator_assign_small_throws ops self ys capr hler hcase hthrow

/-- C13, on concrete vectors: assigning `[5, 6, 7]`, whose element 7 cannot be
copied, to `[1]` of capacity 1 fails and leaves `[1]` of capacity 1. -/
theorem C13_failed_copy_assignment_leaves_self_untouched_witness :
    (Vector.ofList [1] 1).operator_assign (throwingOps 7) (Vector.ofList [5, 6, 7] 3) false
      = .threw { self := Vector.ofList [1] 1, rhs := Vector.ofList [5, 6, 7] 3,
                 destroyed := [], leaked := [] } :=
  (C13_failed_copy_assignment_leaves_self_untouched (throwingOps 7) (Vector.ofList [1] 1)
    (Vector.ofList [5, 6, 7] 3) (Vector.inv_ofList [5, 6, 7] 3 (by decide)) (by decide)).2
    ⟨7, by decide, by decide⟩

/-- C14: copy-constructing from a vector object `v` in a valid state.
Whenever the constructor returns, the new object `w` has the size of `v`,
capacity exactly `v.Size()` and the same elements in the same order, in a
valid state; `v` and every block that existed are as they were; the block of
`w` lies at an address that was free before the call, so it is not the block
of `v`; and every later mutation of `w` (`PushBack`, `PopBack`, `Insert`,
`Erase`, a write to an element), wherever its allocation lands, leaves `v`
with its block, its size and its elements, while `w` itself changes: after
`w.PushBack(a)` it holds the elements of `v` followed by `a`.  The constructor
returns when no copy of an element throws. -/
theorem C14_copy_round_trip {α : Type} (ops : ElemOps α) (H : Store α) (v : Vector.Object)
    (a1 : Nat) (hvalid : H.Valid v) (hfree : H.block_at a1 = none) :
    (∀ H1 w, Store.copy_construct ops H v a1 = some (H1, w) →
      ((H1.load w).Size = (H.load v).Size ∧ (H1.load w).Capacity = (H.load v).Size ∧
        (H1.load w).elems = (H.load v).elems ∧ (H1.load w).Inv) ∧
      H1.load v = H.load v ∧
      (∀ p, H.block_at p ≠ none → H1.block_at p = H.block_at p) ∧
      (∀ p, w.buffer_ = some p → v.buffer_ ≠ some p ∧ H.block_at p = none) ∧
      (∀ (m : Mutation α) (a2 : Nat) H2 w2, H1.block_at a2 = none →
        Store.mutate ops H1 w m a2 = some (H2, w2) →
        H2.load v = H.load v ∧ (H2.load v).Size = (H.load v).Size ∧
        (H2.load v).elems = (H.load v).elems) ∧
      (∀ (a : α) (a2 : Nat), H1.block_at a2 = none → ops.copy_throws a = false →
        (∀ x ∈ (H.load v).elems, ops.relocate_throws x = false) →
        ∃ H2 w2, Store.mutate ops H1 w (.PushBack a) a2 = some (H2, w2) ∧
          (H2.load w2).elems = (H.load v).elems ++ [a])) ∧
    ((∀ x ∈ (H.load v).elems, ops.copy_throws x = false) →
      ∃ H1 w, Store.copy_construct ops H v a1 = some (H1, w)) := by
  obtain ⟨hinv, hptr⟩ := hvalid
  obtain ⟨xs, cap, hle, hload⟩ := hinv.cases
  rw [hload]
  simp only [Vector.elems_ofList xs cap hle, Vector.Size_ofList]
  constructor
  · intro H1 w hc
    obtain ⟨⟨leaked, hcc⟩, hv, hwbuf, hkeep⟩ :=
      Store.copy_construct_load ops H H1 v w a1 hfree hptr hc
    rw [hload] at hcc hv
    obtain ⟨hw, _⟩ := Vector.copy_construct_ofList_ok ops xs cap hle _ leaked hcc
    have hdisj : ∀ p, w.buffer_ = some p → v.buffer_ ≠ some p ∧ H.block_at p = none := by
      intro p hp
      rcases hwbuf with h | h
      · rw [h] at hp; cases hp
      · rw [h] at hp
        injection hp with hp
        subst hp
        exact ⟨fun hv1 => hptr _ hv1 hfree, hfree⟩
    refine ⟨?_, hv, hkeep, hdisj, ?_, ?_⟩
    · rw [hw]
      exact ⟨rfl, rfl, Vector.elems_ofList xs xs.length (Nat.le_refl _),
        Vector.inv_ofList xs xs.length (Nat.le_refl _)⟩
    · intro m a2 H2 w2 hfree2 hm
      have ha : v.buffer_ ≠ some a2 := by
        intro hv2
        have h1 := hptr a2 hv2
        rw [← hkeep a2 h1] at h1
        exact h1 hfree2
      have hfr := Store.mutate_frame ops H1 H2 w w2 v m a2 hm
        (fun q hq => (hdisj q hq).1) ha
      rw [hfr, hv]
      exact ⟨rfl, rfl, Vector.elems_ofList xs cap hle⟩
    · intro a a2 _ hcopy hrel
      obtain ⟨H2, w2, hm, hl⟩ := Store.mutate_PushBack_full ops H1 w a a2 xs hw hcopy hrel
      refine ⟨H2, w2, hm, ?_⟩
      rw [hl]
      exact Vector.elems_ofList _ _ (by simp only [List.length_append, List.length_singleton]
                                        split <;> omega)
  · intro hcopy
    have hcc := Vector.copy_construct_ofList ops xs cap hle hcopy
    unfold Store.copy_construct
    rw [hload, hcc]
    simp only
    split
    · exact ⟨_, _, rfl⟩
    · exact ⟨_, _, rfl⟩

/-- C14, on a concrete store: `v` is `[1, 2, 3]` with capacity 5 at address
100.  Its copy at address 200 has capacity 3, and after each of the seven
mutations of the copy `v` is still `[1, 2, 3]` with capacity 5, while the copy
has changed.  The same write made through an object that points at the block
of `v` does change `v`.  The theorem gives, for the copy at address 200, that
no mutation of it changes `v`, and that the constructor returns. -/
theorem C14_copy_round_trip_witness :
    ((Store.copy_construct stringOps store100 vector100 200).map
        (fun r => (r.1.load vector100, r.2, r.1.load r.2)))
      = some (Vector.ofList [1, 2, 3] 5, ⟨some 200, 3, 3⟩, Vector.ofList [1, 2, 3] 3) ∧
    (([Mutation.PushBack 4, .PushBack_rvalue 4, .PopBack, .Insert 1 9, .Insert_rvalue 1 9,
        .Erase 0, .write 2 7].map
        (fun m => (Store.copy_then_mutate stringOps store100 vector100 m 200 300).map
          (fun r => (r.1.load vector100, r.2, r.1.load r.2))))
      = [some (Vector.ofList [1, 2, 3] 5, ⟨some 300, 6, 4⟩, Vector.ofList [1, 2, 3, 4] 6),
         some (Vector.ofList [1, 2, 3] 5, ⟨some 300, 6, 4⟩, Vector.ofList [1, 2, 3, 4] 6),
         some (Vector.ofList [1, 2, 3] 5, ⟨some 200, 3, 2⟩, Vector.ofList [1, 2] 3),
         some (Vector.ofList [1, 2, 3] 5, ⟨some 300, 6, 4⟩, Vector.ofList [1, 9, 2, 3] 6),
         some (Vector.ofList [1, 2, 3] 5, ⟨some 300, 6, 4⟩, Vector.ofList [1, 9, 2, 3] 6),
         some (Vector.ofList [1, 2, 3] 5, ⟨some 200, 3, 2⟩, Vector.ofList [2, 3] 3),
         some (Vector.ofList [1, 2, 3] 5, ⟨some 200, 3, 3⟩, Vector.ofList [1, 2, 7] 3)]) ∧
    ((Store.mutate stringOps store100 vector100 (.write 2 7) 300).map
        (fun r => r.1.load vector100))
      = some (Vector.ofList [1, 2, 7] 5) ∧
    (∀ (m : Mutation Nat) (a2 : Nat) H2 w2,
      (store100.set 200 (some [some 1, some 2, some 3])).block_at a2 = none →
      Store.mutate stringOps (store100.set 200 (some [some 1, some 2, some 3]))
        ⟨some 200, 3, 3⟩ m a2 = some (H2, w2) →
      H2.load vector100 = store100.load vector100 ∧
      (H2.load vector100).Size = (store100.load vector100).Size ∧
      (H2.load vector100).elems = (store100.load vector100).elems) ∧
    (∃ H1 w, Store.copy_construct stringOps store100 vector100 200 = some (H1, w)) :=
  ⟨by decide, by decide, by decide,
   ((C14_copy_round_trip stringOps store100 vector100 200
     ⟨Vector.inv_ofList [1, 2, 3] 5 (by decide),
      fun p hp => by
        injection hp with hp
        subst hp
        decide⟩
     (by decide)).1 _ _ rfl).2.2.2.2.1,
   (C14_copy_round_trip stringOps store100 vector100 200
     ⟨Vector.inv_ofList [1, 2, 3] 5 (by decide),
      fun p hp => by
        injection hp with hp
        subst hp
        decide⟩
     (by decide)).2 (fun _ _ => rfl)⟩

/-- C15: the move constructor gives the new vector the size, the capacity and
the element sequence of its argument, and leaves the argument with size 0 and
capacity 0; so does move assignment into another vector. -/
theorem C15_move_drains_the_source {α : Type} (v dest : Vector α) :
    ((Vector.move_construct v).1 = v ∧
      (Vector.move_construct v).1.Size = v.Size ∧
      (Vector.move_construct v).1.Capacity = v.Capacity ∧
      (Vector.move_construct v).1.elems = v.elems ∧
      (Vector.move_construct v).2.Size = 0 ∧
      (Vector.move_construct v).2.Capacity = 0 ∧
      (Vector.move_construct v).2 = Vector.empty) ∧
    ((dest.operator_assign_rvalue v false).self = v ∧
      (dest.operator_assign_rvalue v false).self.Size = v.Size ∧
      (dest.operator_assign_rvalue v false).self.Capacity = v.Capacity ∧
      (dest.operator_assign_rvalue v false).self.elems = v.elems ∧
      (dest.operator_assign_rvalue v false).rhs.Size = 0 ∧
      (dest.operator_assign_rvalue v false).rhs.Capacity = 0 ∧
      (dest.operator_assign_rvalue v false).rhs = Vector.empty) :=
  ⟨⟨rfl, rfl, rfl, rfl, rfl, rfl, rfl⟩, ⟨rfl, rfl, rfl, rfl, rfl, rfl, rfl⟩⟩

/-- C16: on a vector in a valid state with size `s`, for `new_size > s`.
Whenever `Resize(new_size)` returns, the elements are the old ones followed by
the `new_size - s` value-initialised ones, the size is `new_size`, the capacity
is `max(old capacity, new_size)`, the state is valid and nothing is leaked.
It does return when the value-initialisations succeed and, if the capacity has
to grow, the request for `new_size` slots is granted and no relocation throws.
Under the same conditions on the growth, when a value-initialisation throws,
`Resize` fails with size still `s` and the elements unchanged.  Whenever
`Resize` throws, for whatever reason, the size is still `s`, and the elements
are unchanged unless a relocation threw. -/
theorem C16_resize_grows {α : Type} (ops : ElemOps α) (v : Vector α) (new_size : Nat)
    (hinv : v.Inv) (hgrow : v.Size < new_size) :
    (∀ v1 leaked, v.Resize ops new_size = .ok v1 () leaked →
      ∃ ds : List α, ds.length = new_size - v.Size ∧
        (∀ k, k < ds.length → ops.value_init k = ds.get? k) ∧
        v1.elems = v.elems ++ ds ∧ v1.Size = new_size ∧
        v1.Capacity = max v.Capacity new_size ∧ v1.Inv ∧ leaked = []) ∧
    ((v.Capacity < new_size →
        ops.grants new_size ∧ ∀ x ∈ v.elems, ops.relocate_throws x = false) →
      (∀ ds : List α, ds.length = new_size - v.Size →
        (∀ k, k < ds.length → ops.value_init k = ds.get? k) →
        ∃ v1, v.Resize ops new_size = .ok v1 () [] ∧ v1.elems = v.elems ++ ds) ∧
      ((∃ k, k < new_size - v.Size ∧ ops.value_init k = none) →
        ∃ v1, v.Resize ops new_size = .threw v1 [] ∧ v1.Size = v.Size ∧
          v1.elems = v.elems ∧ v1.Inv)) ∧
    (∀ v1 leaked, v.Resize ops new_size = .threw v1 leaked →
      v1.Size = v.Size ∧
      ((v.Capacity < new_size → ∀ x ∈ v.elems, ops.relocate_throws x = false) →
        v1.elems = v.elems)) := by
  obtain ⟨xs, cap, hle, rfl⟩ := hinv.cases
  rw [Vector.Size_ofList] at hgrow
  simp only [Vector.elems_ofList xs cap hle, Vector.Size_ofList, Vector.Capacity_ofList]
  refine ⟨?_, ?_, ?_⟩
  · intro v1 leaked hR
    obtain ⟨ds, hds, hinit, hv1, hl⟩ :=
      Vector.Resize_grow_ofList_ok ops xs cap new_size hle hgrow v1 leaked hR
    have hlen : (xs ++ ds).length = new_size := by
      rw [List.length_append, hds]; omega
    have hle1 : (xs ++ ds).length ≤ max cap new_size := by omega
    subst hv1
    exact ⟨ds, hds, hinit, Vector.elems_ofList _ _ hle1, hlen, rfl,
      Vector.inv_ofList _ _ hle1, hl⟩
  · intro hcond
    have hgr : cap < new_size → ops.grants new_size := fun h => (hcond h).1
    have hrel : cap < new_size → ∀ x ∈ xs, ops.relocate_throws x = false :=
      fun h => (hcond h).2
    constructor
    · intro ds hds hinit
      have hle1 : (xs ++ ds).length ≤ max cap new_size := by
        rw [List.length_append, hds]; omega
      exact ⟨_, Vector.Resize_grow_ofList ops xs ds cap new_size hle hgrow hgr hrel hds hinit,
        Vector.elems_ofList _ _ hle1⟩
    · intro hfail
      have hle1 : xs.length ≤ max cap new_size := by omega
      exact ⟨_, Vector.Resize_grow_ofList_throws ops xs cap new_size hle hgrow hgr hrel hfail,
        rfl, Vector.elems_ofList _ _ hle1, Vector.inv_ofList _ _ hle1⟩
  · intro v1 leaked hR
    exact Vector.Resize_grow_ofList_threw ops xs cap new_size hle hgrow v1 leaked hR

/-- C16, on concrete vectors: `Resize(5)` on `[5, 6, 7]` of capacity 3 gives
`[5, 6, 7, 0, 0]` of capacity 5, and of capacity 8 when the capacity was 8;
when the second value-initialisation throws it fails and leaves `[5, 6, 7]`;
`Resize(2^62 + 1)` on a vector of `int`, whose request wraps to 4 bytes, does
not return. -/
theorem C16_resize_grows_witness :
    (Vector.ofList [5, 6, 7] 8).Resize intOps 5 = .ok (Vector.ofList [5, 6, 7, 0, 0] 8) () [] ∧
    (Vector.ofList [5, 6, 7] 3).Resize intOps 5 = .ok (Vector.ofList [5, 6, 7, 0, 0] 5) () [] ∧
    (Vector.ofList [1, 2, 3] 3).Resize intOps (2 ^ 62 + 1) = .ub (.construct_outside 1) ∧
    (∃ ds : List Nat, ds.length = 5 - (Vector.ofList [5, 6, 7] 3).Size ∧
      (∀ k, k < ds.length → intOps.value_init k = ds.get? k) ∧
      (Vector.ofList [5, 6, 7, 0, 0] 5).elems = (Vector.ofList [5, 6, 7] 3).elems ++ ds ∧
      (Vector.ofList [5, 6, 7, 0, 0] 5).Size = 5 ∧
      (Vector.ofList [5, 6, 7, 0, 0] 5).Capacity = max (Vector.ofList [5, 6, 7] 3).Capacity 5 ∧
      (Vector.ofList [5, 6, 7, 0, 0] 5).Inv ∧ ([] : List Nat) = []) ∧
    (∃ v1, (Vector.ofList [5, 6, 7] 3).Resize intOps 5 = .ok v1 () [] ∧
      v1.elems = (Vector.ofList [5, 6, 7] 3).elems ++ [0, 0]) ∧
    (∃ v1, (Vector.ofList [5, 6, 7] 3).Resize
        { intOps with value_init := fun k => if k = 1 then none else some 0 } 5
        = .threw v1 [] ∧
      v1.Size = (Vector.ofList [5, 6, 7] 3).Size ∧
      v1.elems = (Vector.ofList [5, 6, 7] 3).elems ∧ v1.Inv) :=
  ⟨by decide, by decide, by decide,
   (C16_resize_grows intOps (Vector.ofList [5, 6, 7] 3) 5
     (Vector.inv_ofList [5, 6, 7] 3 (by decide)) (by decide)).1
     (Vector.ofList [5, 6, 7, 0, 0] 5) [] (by decide),
   ((C16_resize_grows intOps (Vector.ofList [5, 6, 7] 3) 5
     (Vector.inv_ofList [5, 6, 7] 3 (by decide)) (by decide)).2.1
     (fun _ => ⟨⟨by decide, by decide, by decide⟩, fun _ _ => rfl⟩)).1
     [0, 0] (by decide) (by decide),
   ((C16_resize_grows { intOps with value_init := fun k => if k = 1 then none else some 0 }
     (Vector.ofList [5, 6, 7] 3) 5
     (Vector.inv_ofList [5, 6, 7] 3 (by decide)) (by decide)).2.1
     (fun _ => ⟨⟨by decide, by decide, by decide⟩, fun _ _ => rfl⟩)).2
     ⟨1, by decide, by decide⟩⟩

/-- C18 as stated fails: in the run `PushBack(T&&)` of 1, `PushBack(2)` from
the empty vector no `PopBack` is issued at all, yet with an element type that
is relocated by copy and whose copy of the value 1 throws, the second call
fails and leaves `[1]`: the final size is 1, not 2 - 0, and the elements are
not the stack `[1, 2]`. -/
theorem C18_a_push_back_of_the_run_can_fail :
    stack_run [Call.push_rvalue 1, .push 2] [] = some [1, 2] ∧
    count_push [Call.push_rvalue 1, .push 2] - count_pop [Call.push_rvalue 1, .push 2] = 2 ∧
    Vector.empty.PushBack_rvalue (throwingOps 1) 1 = .ok (Vector.ofList [1] 1) () [] ∧
    (Vector.ofList [1] 1).PushBack (throwingOps 1) 2 = .threw (Vector.ofList [1] 1) [2] ∧
    (Vector.ofList [1] 1).Size = 1 ∧ (Vector.ofList [1] 1).elems = [1] ∧
    Vector.run_calls (throwingOps 1) [.push_rvalue 1, .push 2] Vector.empty = none := by
  decide

/-- C18 as amended: for a run of `PushBack` (either overload) and `PopBack`
calls on the empty vector, whenever every call of the run returns (a
`PopBack` on an empty vector is undefined behaviour and does not), the calls
are a run of a stack in which no pop meets the empty stack, the final `Size()`
is the number of `PushBack` calls minus the number of `PopBack` calls, and the
final element sequence is that stack, read from bottom to top.  Every call
returns when no `PopBack` meets an empty vector and no copy, move or
relocation of a pushed value throws. -/
theorem C18_push_pop_run_is_a_stack {α : Type} (ops : ElemOps α) (calls : List (Call α)) :
    (∀ v, Vector.run_calls ops calls Vector.empty = some v →
      ∃ ys, stack_run calls [] = some ys ∧ v.elems = ys ∧
        v.Size = count_push calls - count_pop calls ∧ v.Inv) ∧
    (∀ ys, stack_run calls [] = some ys → (∀ c ∈ calls, c.nothrow ops) →
      ∃ v, Vector.run_calls ops calls Vector.empty = some v ∧ v.elems = ys ∧
        v.Size = count_push calls - count_pop calls) := by
  constructor
  · intro v hrun
    rw [Vector.empty_eq_ofList] at hrun
    obtain ⟨ys, cap1, hstack, hle1, hv⟩ :=
      Vector.run_calls_ofList_ok ops calls [] 0 v (Nat.le_refl _) hrun
    have hlen := stack_run_length calls [] ys hstack
    simp only [List.length_nil, Nat.zero_add] at hlen
    subst hv
    refine ⟨ys, hstack, Vector.elems_ofList ys cap1 hle1, ?_, Vector.inv_ofList ys cap1 hle1⟩
    rw [Vector.Size_ofList]
    omega
  · intro ys hstack hnothrow
    obtain ⟨cap1, hle1, hrun⟩ := Vector.run_calls_ofList ops calls [] ys 0 (Nat.le_refl _)
      (fun _ hx => absurd hx (List.not_mem_nil _)) hnothrow hstack
    have hlen := stack_run_length calls [] ys hstack
    simp only [List.length_nil, Nat.zero_add] at hlen
    refine ⟨_, by rw [Vector.empty_eq_ofList]; exact hrun, Vector.elems_ofList ys cap1 hle1, ?_⟩
    rw [Vector.Size_ofList]
    omega

/-- C18 as amended, on a concrete run: push 1, push 2 (by move), pop, push 3,
push 4 (by move), pop leaves `[1, 3]`, of size 4 - 2; a run with a pop on the
empty vector does not return and is no run of a stack. -/
theorem C18_push_pop_run_is_a_stack_witness :
    Vector.run_calls stringOps [.push 1, .push_rvalue 2, .pop, .push 3, .push_rvalue 4, .pop]
      Vector.empty = some (Vector.ofList [1, 3] 4) ∧
    stack_run [Call.push 1, .push_rvalue 2, .pop, .push 3, .push_rvalue 4, .pop] []
      = some [1, 3] ∧
    stack_run [Call.push 1, .pop, .pop, .push 3] [] = none ∧
    Vector.run_calls stringOps [.push 1, .pop, .pop, .push 3] Vector.empty = none ∧
    (∃ ys, stack_run [Call.push 1, .push_rvalue 2, .pop, .push 3, .push_rvalue 4, .pop] []
        = some ys ∧
      (Vector.ofList [1, 3] 4).elems = ys ∧
      (Vector.ofList [1, 3] 4).Size
        = count_push [Call.push 1, .push_rvalue 2, .pop, .push 3, .push_rvalue 4, .pop]
          - count_pop [Call.push 1, .push_rvalue 2, .pop, .push 3, .push_rvalue 4, .pop] ∧
      (Vector.ofList [1, 3] 4).Inv) ∧
    (∃ v, Vector.run_calls stringOps
        [.push 1, .push_rvalue 2, .pop, .push 3, .push_rvalue 4, .pop] Vector.empty = some v ∧
      v.elems = [1, 3] ∧
      v.Size = count_push [Call.push 1, .push_rvalue 2, .pop, .push 3, .push_rvalue 4, .pop]
        - count_pop [Call.push 1, .push_rvalue 2, .pop, .push 3, .push_rvalue 4, .pop]) :=
  ⟨by decide, by decide, by decide, by decide,
   (C18_push_pop_run_is_a_stack stringOps
     [.push 1, .push_rvalue 2, .pop, .push 3, .push_rvalue 4, .pop]).1
     (Vector.ofList [1, 3] 4) (by decide),
   (C18_push_pop_run_is_a_stack stringOps
     [.push 1, .push_rvalue 2, .pop, .push 3, .push_rvalue 4, .pop]).2
     [1, 3] (by decide) (by decide)⟩

/-- C19: every `RawMemory` value that the operations of the class produce has
a null handle when its capacity is 0; `RawMemory(0)` allocates nothing; the
move constructor and the move assignment from another object give the
destination the block and the capacity of the source and leave the source
with a null handle and capacity 0, the move assignment passing the prior
block of the destination to `Deallocate` before it takes the new one; `Swap`
exchanges the blocks and the capacities of the two objects. -/
theorem C19_raw_memory_invariant_and_moves {α : Type} (m self other : RawMemory α)
    (hm : m.Reachable) :
    (m.capacity_ = 0 → m.buffer_ = none) ∧
    ((RawMemory.Allocate 0 : Option (Block α)) = none ∧
      (RawMemory.create 0 : RawMemory α) = { buffer_ := none, capacity_ := 0 }) ∧
    ((RawMemory.move_construct other).1.buffer_ = other.buffer_ ∧
      (RawMemory.move_construct other).1.capacity_ = other.capacity_ ∧
      (RawMemory.move_construct other).2.buffer_ = none ∧
      (RawMemory.move_construct other).2.capacity_ = 0) ∧
    ((self.operator_assign_rvalue other false).self.buffer_ = other.buffer_ ∧
      (self.operator_assign_rvalue other false).self.capacity_ = other.capacity_ ∧
      (self.operator_assign_rvalue other false).rhs.buffer_ = none ∧
      (self.operator_assign_rvalue other false).rhs.capacity_ = 0 ∧
      (self.operator_assign_rvalue other false).released = self.buffer_) ∧
    ((RawMemory.Swap self other).1.buffer_ = other.buffer_ ∧
      (RawMemory.Swap self other).1.capacity_ = other.capacity_ ∧
      (RawMemory.Swap self other).2.buffer_ = self.buffer_ ∧
      (RawMemory.Swap self other).2.capacity_ = self.capacity_) :=
  ⟨hm.null_of_capacity_zero, ⟨rfl, rfl⟩, ⟨rfl, rfl, rfl, rfl⟩, ⟨rfl, rfl, rfl, rfl, rfl⟩,
   ⟨rfl, rfl, rfl, rfl⟩⟩

/-- C19, on concrete values: the source of a move out of `RawMemory(2)` is
reachable and has capacity 0 and a null handle; a move assignment of
`RawMemory(3)` into `RawMemory(2)` releases the block of two slots. -/
theorem C19_raw_memory_invariant_and_moves_witness :
    (RawMemory.move_construct (RawMemory.create 2 : RawMemory Nat)).2.buffer_ = none ∧
    ((RawMemory.create 2 : RawMemory Nat).operator_assign_rvalue (RawMemory.create 3) false)
      = { self := { buffer_ := some [none, none, none], capacity_ := 3 },
          rhs := { buffer_ := none, capacity_ := 0 },
          released := some [none, none] } ∧
    RawMemory.Swap (RawMemory.create 2 : RawMemory Nat) (RawMemory.create 0)
      = ({ buffer_ := none, capacity_ := 0 }, { buffer_ := some [none, none], capacity_ := 2 }) :=
  ⟨(C19_raw_memory_invariant_and_moves
      (RawMemory.move_construct (RawMemory.create 2 : RawMemory Nat)).2
      (RawMemory.create 2) (RawMemory.create 3)
      (.move_construct_source _ (.create 2))).1 rfl,
   by decide, by decide⟩

/-- C20 (defect in the code, the one of C1): on a vector in a valid state,
when the copy of the value and the relocations do not throw.  With spare
capacity `PushBack(a)` and `EmplaceBack(a)` append `a` and keep the capacity,
while `Insert(end(), a)` and `Emplace(end(), a)` execute undefined behaviour:
the two do not agree.  On a full vector the four calls leave the same vector,
and the returned position is the slot of the returned reference. -/
theorem C20_insert_at_end_and_push_back {α : Type} (ops : ElemOps α) (v : Vector α) (a : α)
    (hinv : v.Inv) (hcopy : ops.copy_throws a = false)
    (hrel : ∀ x ∈ v.elems, ops.relocate_throws x = false) :
    (v.Size < v.Capacity →
      (∃ w, v.Insert ops v.Size a = .ub w ∧ v.Emplace ops v.Size (some a) = .ub w) ∧
      (∃ v1, v.PushBack ops a = .ok v1 () [] ∧ v.EmplaceBack ops (some a) = .ok v1 v.Size [] ∧
        v1.elems = v.elems ++ [a] ∧ v1.Size = v.Size + 1 ∧ v1.Capacity = v.Capacity)) ∧
    (v.Size = v.Capacity →
      ∃ v1, v.Insert ops v.Size a = .ok v1 v.Size [] ∧
        v.Emplace ops v.Size (some a) = .ok v1 v.Size [] ∧
        v.PushBack ops a = .ok v1 () [] ∧ v.EmplaceBack ops (some a) = .ok v1 v.Size [] ∧
        v1.elems = v.elems ++ [a] ∧ v1.Size = v.Size + 1) := by
  obtain ⟨xs, cap, hle, rfl⟩ := hinv.cases
  rw [Vector.elems_ofList xs cap hle] at hrel
  have hins : ∀ n, (Vector.ofList xs cap).Insert ops n a
      = (Vector.ofList xs cap).Emplace ops n (some a) := by
    intro n
    unfold Vector.Insert
    rw [hcopy]
    rfl
  simp only [Vector.elems_ofList xs cap hle, Vector.Size_ofList, Vector.Capacity_ofList, hins]
  have hE := Vector.EmplaceBack_ofList ops xs cap a hle (fun _ => hrel)
  have hP := Vector.PushBack_of_EmplaceBack ops _ _ a _ _ hcopy hE
  constructor
  · intro hlt
    have hne : ¬ xs.length = cap := by omega
    rw [if_neg hne] at hE hP
    have hU := Vector.Emplace_at_end_in_place ops xs cap a hlt hrel
    exact ⟨⟨_, hU, hU⟩, _, hP, hE, Vector.elems_ofList _ _ (by simpa using hlt),
      by simp [Vector.Size_ofList], rfl⟩
  · intro heq
    subst heq
    rw [if_pos rfl] at hE hP
    have hG := Vector.Emplace_ofList_growth ops xs xs.length a (Nat.le_refl _) hrel
    rw [List.take_length, List.drop_length] at hG
    have hb := grown_capacity_bounds xs.length xs.length (Nat.le_refl _)
    rw [if_pos rfl] at hb
    exact ⟨_, hG, hG, hP, hE, Vector.elems_ofList _ _ (by simpa using hb),
      by simp [Vector.Size_ofList]⟩

/-- C20, on concrete vectors: on `[7, 8]` of capacity 4 and on the empty
vector of capacity 3 `Insert` at the end is undefined while `PushBack`
appends; on `[7, 8]` of capacity 2 both give `[7, 8, 9]` of capacity 4. -/
theorem C20_insert_at_end_and_push_back_witness :
    (Vector.ofList [7, 8] 4).Insert intOps 2 9 = .ub (.invalid_range 2 1) ∧
    (Vector.ofList [7, 8] 4).PushBack intOps 9 = .ok (Vector.ofList [7, 8, 9] 4) () [] ∧
    (Vector.ofList ([] : List Nat) 3).Emplace intOps 0 (some 9) = .ub (.read_not_live (-1)) ∧
    (Vector.ofList ([] : List Nat) 3).EmplaceBack intOps (some 9)
      = .ok (Vector.ofList [9] 3) 0 [] ∧
    (Vector.ofList [7, 8] 2).Insert intOps 2 9 = .ok (Vector.ofList [7, 8, 9] 4) 2 [] ∧
    (Vector.ofList [7, 8] 2).PushBack intOps 9 = .ok (Vector.ofList [7, 8, 9] 4) () [] ∧
    ((∃ w, (Vector.ofList [7, 8] 4).Insert intOps (Vector.ofList [7, 8] 4).Size 9 = .ub w ∧
        (Vector.ofList [7, 8] 4).Emplace intOps (Vector.ofList [7, 8] 4).Size (some 9) = .ub w) ∧
      (∃ v1, (Vector.ofList [7, 8] 4).PushBack intOps 9 = .ok v1 () [] ∧
        (Vector.ofList [7, 8] 4).EmplaceBack intOps (some 9)
          = .ok v1 (Vector.ofList [7, 8] 4).Size [] ∧
        v1.elems = (Vector.ofList [7, 8] 4).elems ++ [9] ∧
        v1.Size = (Vector.ofList [7, 8] 4).Size + 1 ∧
        v1.Capacity = (Vector.ofList [7, 8] 4).Capacity)) :=
  ⟨by decide, by decide, by decide, by decide, by decide, by decide,
   (C20_insert_at_end_and_push_back intOps (Vector.ofList [7, 8] 4) 9
     (Vector.inv_ofList [7, 8] 4 (by decide)) rfl (fun _ _ => rfl)).1 (by decide)⟩

end AdvancedVector
